import Mathlib

/-!
# hq: HTML extraction by CSS selector

A shallow embedding of `pkg/extractor/extractor.go` and proofs about it.

Go strings are modelled as lists of Unicode code points (`List Char`); all
markup delimiters the code looks at are ASCII, so on valid UTF-8 the
byte-level and the code-point-level readings of the library calls agree.  The
one exception is the body of a `script`, `style`, `textarea` or `title`
element, which the tag stripper measures in its lower-cased copy
(`tSpecialTagEnd`): there the two readings agree on text of characters below
U+0130, whose lower case has the same encoded length.
The parsed document (`golang.org/x/net/html` nodes reached through goquery)
is modelled as a finite tree.  CSS matching is the job of goquery and is a
given: the functions below receive the ordered list of matched nodes.
-/

namespace Hq

/-- Go `string`: a sequence of code points. -/
abbrev GoString := List Char

/-! ## Library: `unicode`, `strings`, `regexp` -/

/-- `unicode.IsSpace`: the Unicode White_Space property. -/
def isSpace (c : Char) : Bool :=
  let n := c.toNat
  n == 0x09 || n == 0x0A || n == 0x0B || n == 0x0C || n == 0x0D || n == 0x20 ||
  n == 0x85 || n == 0xA0 || n == 0x1680 || (0x2000 ≤ n && n ≤ 0x200A) ||
  n == 0x2028 || n == 0x2029 || n == 0x202F || n == 0x205F || n == 0x3000

/-- The regexp class `\s` of Go (RE2): `[\t\n\f\r ]`. -/
def isReSpace (c : Char) : Bool :=
  let n := c.toNat
  n == 0x09 || n == 0x0A || n == 0x0C || n == 0x0D || n == 0x20

/-- `strings.TrimSpace`: drop leading and trailing `unicode.IsSpace` code points. -/
def TrimSpace (s : GoString) : GoString :=
  ((s.dropWhile isSpace).reverse.dropWhile isSpace).reverse

/-- `regexp.MustCompile("\\s+").ReplaceAllString(s, " ")`: every maximal run of
`\s` characters becomes one space (the space is emitted at the last character
of the run). -/
def collapseSpaces : GoString → GoString
  | [] => []
  | [c] => if isReSpace c then [' '] else [c]
  | c :: d :: rest =>
    if isReSpace c then
      if isReSpace d then collapseSpaces (d :: rest) else ' ' :: collapseSpaces (d :: rest)
    else c :: collapseSpaces (d :: rest)

/-! ## The parsed document -/

/-- `html.NodeType`. -/
inductive NodeType where
  | ErrorNode | TextNode | DocumentNode | ElementNode | CommentNode | DoctypeNode | RawNode
  deriving DecidableEq, Repr

/-- `html.Attribute` (the namespace is not read by the extractor). -/
structure Attribute where
  Key : GoString
  Val : GoString
  deriving DecidableEq, Repr

/-- `html.Node`: type, data (tag name or text), attributes and the ordered
children (`FirstChild`/`NextSibling` chain). -/
inductive Node where
  | mk (type : NodeType) (data : GoString) (attr : List Attribute) (children : List Node)

namespace Node

def type : Node → NodeType
  | .mk t _ _ _ => t

def data : Node → GoString
  | .mk _ d _ _ => d

def attr : Node → List Attribute
  | .mk _ _ a _ => a

def children : Node → List Node
  | .mk _ _ _ cs => cs

/-- Element node test used by `Selection.Children`. -/
def isElement (n : Node) : Bool := n.type == NodeType.ElementNode

end Node

/-- An element node. -/
def elem (tag : String) (attr : List (String × String)) (children : List Node) : Node :=
  .mk .ElementNode tag.toList (attr.map fun kv => ⟨kv.1.toList, kv.2.toList⟩) children

/-- A text node. -/
def txt (data : String) : Node := .mk .TextNode data.toList [] []

mutual
/-- `Selection.Text` of goquery on a one-node selection: the data of every text
node of the subtree, in document order. -/
def nodeText : Node → GoString
  | .mk t d _ cs => (if t = NodeType.TextNode then d else []) ++ nodesText cs
/-- `Selection.Text` on several nodes. -/
def nodesText : List Node → GoString
  | [] => []
  | c :: cs => nodeText c ++ nodesText cs
end

/-- `goquery.NodeName` on a one-node selection. -/
def NodeName (n : Node) : GoString :=
  match n.type with
  | .ElementNode => n.data
  | .DoctypeNode => n.data
  | .ErrorNode => "#error".toList
  | .TextNode => "#text".toList
  | .DocumentNode => "#document".toList
  | .CommentNode => "#comment".toList
  | .RawNode => []

/-- `s.Clone().Children().Remove().End()`: a copy of the node without its
element children. -/
def removeElementChildren (n : Node) : Node :=
  .mk n.type n.data n.attr (n.children.filter fun c => !c.isElement)

/-! ## The structured record -/

/-- Go `map[string]string` as an association list with distinct keys; the nil
map is `none` in the field that holds it. -/
abbrev GoMap := List (GoString × GoString)

/-- The assignment `m[k] = v`. -/
def mapSet : GoMap → GoString → GoString → GoMap
  | [], k, v => [(k, v)]
  | (k', v') :: rest, k, v => if k' = k then (k, v) :: rest else (k', v') :: mapSet rest k v

/-- `m[k]` with presence flag. -/
def mapGet : GoMap → GoString → Option GoString
  | [], _ => none
  | (k', v') :: rest, k => if k' = k then some v' else mapGet rest k

/-- `JSONElement`.  `Attributes = none` is the nil map; `Text = []` is the empty
string and `Children = []` the nil slice, both omitted by `omitempty`. -/
inductive JSONElement where
  | mk (Tag : GoString) (Attributes : Option GoMap) (Text : GoString)
      (Children : List JSONElement)

namespace JSONElement

def Tag : JSONElement → GoString
  | .mk t _ _ _ => t

def Attributes : JSONElement → Option GoMap
  | .mk _ a _ _ => a

def Text : JSONElement → GoString
  | .mk _ _ t _ => t

def Children : JSONElement → List JSONElement
  | .mk _ _ _ cs => cs

end JSONElement

/-- The attribute loop of `selectionToJSONElement` (lines 103-118): fill a fresh
map, then replace it by nil when it stayed empty. -/
def buildAttributes (attr : List Attribute) : Option GoMap :=
  let m := attr.foldl (fun m a => mapSet m a.Key a.Val) []
  if m.length = 0 then none else some m

/-- The direct text of lines 131-139: text of the clone without element
children, trimmed, and collapsed when not empty. -/
def directTextOf (n : Node) : GoString :=
  let directText := TrimSpace (nodeText (removeElementChildren n))
  if directText ≠ [] then collapseSpaces directText else []

mutual
/-- `selectionToJSONElement` on a one-node selection. -/
def selectionToJSONElement : Node → JSONElement
  | .mk t d a cs =>
    .mk (NodeName (.mk t d a cs)) (buildAttributes a) (directTextOf (.mk t d a cs))
      (childrenToJSON cs)
/-- The loop `s.Children().Each(...)`: one record per element child, in order. -/
def childrenToJSON : List Node → List JSONElement
  | [] => []
  | c :: cs =>
    if c.isElement then selectionToJSONElement c :: childrenToJSON cs
    else childrenToJSON cs
end


/-- `JSONOutput`.  `Results = none` is the nil slice, `some []` an empty
non-nil slice; the field has no `omitempty`. -/
structure JSONOutput where
  Selector : GoString
  Results : Option (List JSONElement)
  Count : Nat

/-- Go `append(s, x)` on a possibly nil slice: the result is never nil. -/
def goAppend {α : Type} (s : Option (List α)) (x : α) : Option (List α) :=
  some (s.getD [] ++ [x])

/-- Go `len(s)` on a possibly nil slice. -/
def goLen {α : Type} (s : Option (List α)) : Nat := (s.getD []).length

/-- The elements of a possibly nil slice. -/
def sliceElems {α : Type} (s : Option (List α)) : List α := s.getD []

/-- Lines 63-68 of `extractAsJSON`: `var results []JSONElement`, then one
`append` per matched node. -/
def collectResults (found : List Node) : Option (List JSONElement) :=
  found.foldl (fun results s => goAppend results (selectionToJSONElement s)) none

/-- Lines 70-74 of `extractAsJSON`: the value handed to the encoder. -/
def buildOutput (selector : GoString) (found : List Node) : JSONOutput :=
  let results := collectResults found
  ⟨selector, results, goLen results⟩

/-! ## Library: `encoding/json` with `SetIndent("", "  ")` -/

/-- Lower-case hexadecimal digit. -/
def hexDigit (n : Nat) : Char :=
  if n < 10 then Char.ofNat (48 + n) else Char.ofNat (87 + n)

/-- Escaping of one code point inside a JSON string, HTML escaping on (the
default of `json.Encoder`); backspace and form feed as current Go releases
write them. -/
def escapeChar (c : Char) : GoString :=
  let n := c.toNat
  if n == 0x22 then [Char.ofNat 0x5C, Char.ofNat 0x22]
  else if n == 0x5C then [Char.ofNat 0x5C, Char.ofNat 0x5C]
  else if n == 0x08 then [Char.ofNat 0x5C, 'b']
  else if n == 0x0C then [Char.ofNat 0x5C, 'f']
  else if n == 0x0A then [Char.ofNat 0x5C, 'n']
  else if n == 0x0D then [Char.ofNat 0x5C, 'r']
  else if n == 0x09 then [Char.ofNat 0x5C, 't']
  else if n < 0x20 || n == 0x3C || n == 0x3E || n == 0x26 then
    [Char.ofNat 0x5C, 'u', '0', '0', hexDigit (n / 16), hexDigit (n % 16)]
  else if n == 0x2028 then [Char.ofNat 0x5C, 'u', '2', '0', '2', '8']
  else if n == 0x2029 then [Char.ofNat 0x5C, 'u', '2', '0', '2', '9']
  else [c]

/-- A quoted JSON string. -/
def quoteJSON (s : GoString) : GoString :=
  Char.ofNat 0x22 :: (s.flatMap escapeChar ++ [Char.ofNat 0x22])

/-- Byte-wise order on strings (code point order, which UTF-8 preserves). -/
def strLt : GoString → GoString → Bool
  | _, [] => false
  | [], _ :: _ => true
  | a :: as, b :: bs => a.toNat < b.toNat || (a.toNat == b.toNat && strLt as bs)

/-- Insertion into a key-sorted list. -/
def insertByKey (kv : GoString × GoString) : GoMap → GoMap
  | [] => [kv]
  | x :: rest => if strLt kv.1 x.1 then kv :: x :: rest else x :: insertByKey kv rest

/-- Map entries in the key order the encoder writes them. -/
def sortByKey (m : GoMap) : GoMap := m.foldr insertByKey []

/-- Indentation of a line at the given depth. -/
def indentOf (depth : Nat) : GoString := (List.replicate depth "  ".toList).flatten

/-- The members of a non-empty array or object, one per line at `depth + 1`,
between the given brackets. -/
def bracketLines (opening closing : Char) (depth : Nat) (items : List GoString) : GoString :=
  [opening, '\n'] ++
    ",\n".toList.intercalate (items.map fun it => indentOf (depth + 1) ++ it) ++
    ['\n'] ++ indentOf depth ++ [closing]

/-- One object member. -/
def member (key : String) (value : GoString) : GoString :=
  quoteJSON key.toList ++ ": ".toList ++ value

/-- The `attributes` member: omitted for a nil or empty map. -/
def encodeAttributes (depth : Nat) : Option GoMap → List GoString
  | none => []
  | some [] => []
  | some m =>
    [member "attributes" (bracketLines '{' '}' depth
      ((sortByKey m).map fun kv => quoteJSON kv.1 ++ ": ".toList ++ quoteJSON kv.2))]

mutual
/-- A `JSONElement` as the indenting encoder writes it at the given depth. -/
def encodeElement (depth : Nat) : JSONElement → GoString
  | .mk tag attrs text children =>
    bracketLines '{' '}' depth
      ([member "tag" (quoteJSON tag)] ++
        encodeAttributes (depth + 1) attrs ++
        (if text = [] then [] else [member "text" (quoteJSON text)]) ++
        (match children with
          | [] => []
          | c :: cs =>
            [member "children" (bracketLines '[' ']' (depth + 1)
              (encodeElements (depth + 2) (c :: cs)))]))
/-- The elements of an array of records. -/
def encodeElements (depth : Nat) : List JSONElement → List GoString
  | [] => []
  | r :: rs => encodeElement depth r :: encodeElements depth rs
end

/-- A `[]JSONElement` value without `omitempty`: `null` for the nil slice, `[]`
for an empty one. -/
def encodeResults (depth : Nat) : Option (List JSONElement) → GoString
  | none => "null".toList
  | some [] => "[]".toList
  | some (r :: rs) => bracketLines '[' ']' depth (encodeElements (depth + 1) (r :: rs))

/-- `encoder.Encode(output)` after `SetIndent("", "  ")`: the indented value and
a final newline.  Encoding this type cannot fail. -/
def encodeOutput (o : JSONOutput) : GoString :=
  bracketLines '{' '}' 0
    [member "selector" (quoteJSON o.Selector),
     member "results" (encodeResults 1 o.Results),
     member "count" (Nat.repr o.Count).toList] ++ ['\n']


/-! ## Library: more of `strings` and `regexp` -/

/-- Worker of `ReplaceAll`: `skip` counts the characters of a matched `old`
that are still to be passed over. -/
def replaceAllAux (old new : GoString) : Nat → GoString → GoString
  | _, [] => []
  | skip + 1, _ :: cs => replaceAllAux old new skip cs
  | 0, c :: cs =>
    if old.isPrefixOf (c :: cs) then new ++ replaceAllAux old new (old.length - 1) cs
    else c :: replaceAllAux old new 0 cs

/-- `strings.ReplaceAll(s, old, new)` for a non-empty `old` (every call site):
the non-overlapping occurrences of `old`, found left to right, become `new`. -/
def ReplaceAll (s old new : GoString) : GoString := replaceAllAux old new 0 s

/-- `strings.Split(s, sep)` for a one-character separator. -/
def Split : GoString → Char → List GoString
  | [], _ => [[]]
  | c :: cs, sep =>
    if c = sep then [] :: Split cs sep
    else
      match Split cs sep with
      | [] => [[c]]
      | l :: ls => (c :: l) :: ls

/-- `strings.Join(elems, sep)`. -/
def Join : List GoString → GoString → GoString
  | [], _ => []
  | [a], _ => a
  | a :: b :: rest, sep => a ++ sep ++ Join (b :: rest) sep

/-- What a run of `run` newlines becomes under `\n{3,}` → `"\n\n"`. -/
def newlineRun (run : Nat) : GoString := List.replicate (if 3 ≤ run then 2 else run) '\n'

/-- Worker of `collapseNewlines`; `run` is the length of the newline run read
so far. -/
def collapseNewlinesAux : Nat → GoString → GoString
  | run, [] => newlineRun run
  | run, c :: cs =>
    if c = '\n' then collapseNewlinesAux (run + 1) cs
    else newlineRun run ++ c :: collapseNewlinesAux 0 cs

/-- `regexp.MustCompile("\\n{3,}").ReplaceAllString(s, "\n\n")`. -/
def collapseNewlines (s : GoString) : GoString := collapseNewlinesAux 0 s

/-- `strings.Index(s, sep)`. -/
def Index : GoString → GoString → Option Nat
  | [], sep => if sep = [] then some 0 else none
  | x :: rest, sep =>
    if sep.isPrefixOf (x :: rest) then some 0 else (Index rest sep).map (· + 1)

/-- `strings.IndexAny(s, chars)`. -/
def IndexAny : GoString → GoString → Option Nat
  | [], _ => none
  | x :: rest, chars => if x ∈ chars then some 0 else (IndexAny rest chars).map (· + 1)

/-! ## Library: `strip.StripTags` (github.com/grokify/html-strip-tags-go)

The package is the tag stripper of `html/template`: a scanner over the
transition functions of the template escaper.  The attribute kind and the
URL/JS/CSS sub-states of an attribute value are left out: inside an attribute
value the scanner only looks for the closing delimiter. -/

inductive State where
  | stateText | stateTag | stateAttrName | stateAfterName | stateBeforeValue
  | stateHTMLCmt | stateRCDATA | stateAttr | stateJS | stateCSS | stateError
  deriving DecidableEq, Repr

inductive Delim where
  | delimNone | delimDoubleQuote | delimSingleQuote | delimSpaceOrTagEnd
  deriving DecidableEq, Repr

inductive Element where
  | elementNone | elementScript | elementStyle | elementTextarea | elementTitle
  deriving DecidableEq, Repr

/-- The scanner `context`. -/
structure Context where
  state : State
  delim : Delim
  element : Element
  deriving DecidableEq, Repr

/-- The zero `context{}`. -/
def Context.zero : Context := ⟨.stateText, .delimNone, .elementNone⟩

/-- A `context` with only state and element set. -/
def Context.of (s : State) (e : Element) : Context := ⟨s, .delimNone, e⟩

def isInTag : State → Bool
  | .stateTag | .stateAttrName | .stateAfterName | .stateBeforeValue | .stateAttr => true
  | _ => false

def asciiAlpha (c : Char) : Bool :=
  (65 ≤ c.toNat && c.toNat ≤ 90) || (97 ≤ c.toNat && c.toNat ≤ 122)

def asciiAlphaNum (c : Char) : Bool :=
  asciiAlpha c || (48 ≤ c.toNat && c.toNat ≤ 57)

/-- `strings.ToLower` on ASCII. -/
def asciiLower (c : Char) : Char :=
  if 65 ≤ c.toNat && c.toNat ≤ 90 then Char.ofNat (c.toNat + 32) else c

/-- `elementNameMap` applied to a lower-cased tag name. -/
def elementOfName (name : GoString) : Element :=
  let lower := name.map asciiLower
  if lower = "script".toList then .elementScript
  else if lower = "style".toList then .elementStyle
  else if lower = "textarea".toList then .elementTextarea
  else if lower = "title".toList then .elementTitle
  else .elementNone

def elementContentType : Element → State
  | .elementNone => .stateText
  | .elementScript => .stateJS
  | .elementStyle => .stateCSS
  | .elementTextarea => .stateRCDATA
  | .elementTitle => .stateRCDATA

def specialTagEndMarkers : Element → GoString
  | .elementNone => []
  | .elementScript => "</script".toList
  | .elementStyle => "</style".toList
  | .elementTextarea => "</textarea".toList
  | .elementTitle => "</title".toList

def delimEnds : Delim → GoString
  | .delimNone => []
  | .delimDoubleQuote => [Char.ofNat 0x22]
  | .delimSingleQuote => [Char.ofNat 0x27]
  | .delimSpaceOrTagEnd => [' ', '\t', '\n', Char.ofNat 0x0C, '\r', '>']

/-- `eatWhiteSpace(s, 0)`: the number of leading white space characters
(space, tab, newline, form feed, carriage return). -/
def eatWhiteSpace (s : GoString) : Nat := (s.takeWhile isReSpace).length

/-- `eatAttrName(s, 0)`: the length of the attribute name at the head of `s`,
or `none` for the error on a quote or `<` inside the name. -/
def eatAttrName : GoString → Option Nat
  | [] => some 0
  | x :: rest =>
    if isReSpace x || x == '=' || x == '>' then some 0
    else if x == Char.ofNat 0x27 || x == Char.ofNat 0x22 || x == '<' then none
    else (eatAttrName rest).map (· + 1)

/-- The loop of `eatTagName` after the first letter: the number of further
characters of the name (`x-y` and `x:y` allowed, not `x-`, `-y`, `x--y`). -/
def eatTagNameRest : GoString → Nat
  | [] => 0
  | [x] => if asciiAlphaNum x then 1 else 0
  | x :: y :: rest =>
    if asciiAlphaNum x then 1 + eatTagNameRest (y :: rest)
    else if (x == ':' || x == '-') && asciiAlphaNum y then 2 + eatTagNameRest rest
    else 0

/-- `eatTagName(s, 0)`: the length of the tag name at the head of `s` and the
element it names. -/
def eatTagName : GoString → Nat × Element
  | [] => (0, .elementNone)
  | x :: rest =>
    if asciiAlpha x then
      let j := 1 + eatTagNameRest rest
      (j, elementOfName ((x :: rest).take j))
    else (0, .elementNone)

def commentStart : GoString := "<!--".toList

def commentEnd : GoString := "-->".toList

/-- Worker of `tText`: `n` is `len(s)`, `k` the offset of the remaining input
in `s`. -/
def tTextFrom (c : Context) (n : Nat) : Nat → GoString → Context × Nat
  | _, [] => (c, n)
  | _, [_] => (c, n)
  | k, x :: y :: rest =>
    if x ≠ '<' then tTextFrom c n (k + 1) (y :: rest)
    else if commentStart.isPrefixOf (x :: y :: rest) then (Context.of .stateHTMLCmt .elementNone, k + 4)
    else if y = '/' then
      match rest with
      | [] => (c, n)
      | _ :: _ =>
        let je := eatTagName rest
        if je.1 ≠ 0 then (Context.of .stateTag .elementNone, k + 2 + je.1)
        else tTextFrom c n (k + 2) rest
    else
      let je := eatTagName (y :: rest)
      if je.1 ≠ 0 then (Context.of .stateTag je.2, k + 1 + je.1)
      else tTextFrom c n (k + 1) (y :: rest)

/-- `tText`: find the next tag or comment start. -/
def tText (c : Context) (s : GoString) : Context × Nat := tTextFrom c s.length 0 s

/-- `tTag`: inside a tag, before an attribute name or the closing `>`. -/
def tTag (c : Context) (s : GoString) : Context × Nat :=
  let i := eatWhiteSpace s
  match s.drop i with
  | [] => (c, s.length)
  | x :: rest =>
    if x = '>' then (Context.of (elementContentType c.element) c.element, i + 1)
    else
      match eatAttrName (x :: rest) with
      | none => (Context.of .stateError .elementNone, s.length)
      | some len =>
        if len = 0 then (Context.of .stateError .elementNone, s.length)
        else if len = rest.length + 1 then (Context.of .stateAttrName c.element, i + len)
        else (Context.of .stateAfterName c.element, i + len)

/-- `tAttrName`. -/
def tAttrName (c : Context) (s : GoString) : Context × Nat :=
  match eatAttrName s with
  | none => (Context.of .stateError .elementNone, s.length)
  | some i => if i ≠ s.length then (⟨.stateAfterName, c.delim, c.element⟩, i) else (c, i)

/-- `tAfterName`: look for the `=` of an attribute value. -/
def tAfterName (c : Context) (s : GoString) : Context × Nat :=
  let i := eatWhiteSpace s
  match s.drop i with
  | [] => (c, s.length)
  | x :: _ =>
    if x ≠ '=' then (⟨.stateTag, c.delim, c.element⟩, i)
    else (⟨.stateBeforeValue, c.delim, c.element⟩, i + 1)

/-- `tBeforeValue`: find the delimiter of the attribute value. -/
def tBeforeValue (c : Context) (s : GoString) : Context × Nat :=
  let i := eatWhiteSpace s
  match s.drop i with
  | [] => (c, s.length)
  | x :: _ =>
    if x = Char.ofNat 0x27 then (⟨.stateAttr, .delimSingleQuote, c.element⟩, i + 1)
    else if x = Char.ofNat 0x22 then (⟨.stateAttr, .delimDoubleQuote, c.element⟩, i + 1)
    else (⟨.stateAttr, .delimSpaceOrTagEnd, c.element⟩, i)

/-- `tHTMLCmt`. -/
def tHTMLCmt (c : Context) (s : GoString) : Context × Nat :=
  match Index s commentEnd with
  | some i => (Context.zero, i + 3)
  | none => (c, s.length)

/-- `unicode.ToLower` as far as the end markers can tell: the ASCII capitals,
and the two other characters whose lower case is an ASCII letter (U+0130 gives
`i`, U+212A gives `k`).  The lower case of every other character lies outside
ASCII and is no part of a marker. -/
def toLowerRune (c : Char) : Char :=
  if c.toNat = 0x130 then 'i'
  else if c.toNat = 0x212A then 'k'
  else asciiLower c

/-- `strings.ToLower(s)`, character by character. -/
def ToLower (s : GoString) : GoString := s.map toLowerRune

/-- `tSpecialTagEnd`: raw text and RCDATA element bodies.  The body ends at the
first place where the lower-cased input reads `</` and the element name,
whatever follows the name.  Offsets count characters: this is the byte offset
of the library whenever lower-casing keeps the encoded length of the text in
front of the end marker, as it does for every text of characters below
U+0130. -/
def tSpecialTagEnd (c : Context) (s : GoString) : Context × Nat :=
  if c.element ≠ .elementNone then
    match Index (ToLower s) (specialTagEndMarkers c.element) with
    | some i => (Context.zero, i)
    | none => (c, s.length)
  else (c, s.length)

/-- `transitionFunc[st]`.  The states of an attribute value and the error state
consume the rest of the input. -/
def transitionFunc : State → Context → GoString → Context × Nat
  | .stateText => tText
  | .stateTag => tTag
  | .stateAttrName => tAttrName
  | .stateAfterName => tAfterName
  | .stateBeforeValue => tBeforeValue
  | .stateHTMLCmt => tHTMLCmt
  | .stateRCDATA => tSpecialTagEnd
  | .stateAttr => fun c s => (c, s.length)
  | .stateJS => fun c s => (c, s.length)
  | .stateCSS => fun c s => (c, s.length)
  | .stateError => fun c s => (c, s.length)

/-- The chunk up to its last `<` (all of it when it has none): the text emitted
when a transition leaves the text state. -/
def cutAtLastLT : GoString → GoString
  | [] => []
  | x :: rest => if x = '<' ∧ '<' ∉ rest then [] else x :: cutAtLastLT rest

/-- The variables of the loop of `StripTags`: context, unread input `s[i:]`,
output buffer and the `allText` flag. -/
structure StripState where
  c : Context
  rest : GoString
  b : GoString
  allText : Bool

/-- The state whose transition function an iteration calls: RCDATA instead of
the JS or CSS states inside a special element. -/
def scanState (c : Context) : State :=
  if c.element ≠ .elementNone ∧ isInTag c.state = false then .stateRCDATA else c.state

/-- The text written for the chunk a transition consumed: up to the start of the
tag or comment when the state changes. -/
def emitChunk (c d : Context) (chunk : GoString) : GoString :=
  if d.state ≠ c.state then cutAtLastLT chunk else chunk

/-- The end of an iteration outside an attribute value: write the text of the
chunk (in the text and RCDATA states) or clear `allText`, then move on. -/
def advance (st : StripState) (d : Context) (nread : Nat) : StripState :=
  if st.c.state = .stateText ∨ st.c.state = .stateRCDATA then
    ⟨d, st.rest.drop nread, st.b ++ emitChunk st.c d (st.rest.take nread), st.allText⟩
  else ⟨d, st.rest.drop nread, st.b, false⟩

/-- One iteration of the loop of `StripTags`; `none` when the loop is left
(`i == len(s)` or `break`). -/
def stripStep (st : StripState) : Option StripState :=
  if st.rest = [] then none
  else if st.c.delim = .delimNone then
    let dn := transitionFunc (scanState st.c) st.c st.rest
    some (advance st dn.1 dn.2)
  else
    match IndexAny st.rest (delimEnds st.c.delim) with
    | none => none
    | some k =>
      let i1 := if st.c.delim ≠ .delimSpaceOrTagEnd then k + 1 else k
      some ⟨Context.of .stateTag st.c.element, st.rest.drop i1, st.b, st.allText⟩

/-- The loop of `StripTags` run for at most `fuel` iterations: the state in
which the loop is left, `none` when the fuel does not suffice. -/
def stripRun : Nat → StripState → Option StripState
  | 0, _ => none
  | fuel + 1, st =>
    match stripStep st with
    | none => some st
    | some st1 => stripRun fuel st1

/-- The return statement of `StripTags`. -/
def stripFinish (html : GoString) (st : StripState) : GoString :=
  if st.allText then html
  else if st.c.state = .stateText ∨ st.c.state = .stateRCDATA then st.b ++ st.rest
  else st.b

/-- `strip.StripTags(html)`.  Every iteration either consumes input or moves to
a state of lower rank, so `4 * len + 4` iterations always suffice
(`stripRun_fuel`). -/
def StripTags (html : GoString) : GoString :=
  match stripRun (4 * html.length + 4) ⟨Context.zero, html, [], true⟩ with
  | some st => stripFinish html st
  | none => html

/-! ## The text normaliser -/

def blockElements : List GoString :=
  ["</div>", "</p>", "</h1>", "</h2>", "</h3>", "</h4>", "</h5>", "</h6>",
   "</li>", "</tr>", "</td>", "</th>", "</section>", "</article>", "</header>", "</footer>",
   "</nav>", "</main>", "</aside>", "<br>", "<br/>", "<br />"].map String.toList

/-- Lines 190-193: a newline after every occurrence of a block tag. -/
def markBlocks (html : GoString) : GoString :=
  blockElements.foldl (fun text element => ReplaceAll text element (element ++ ['\n'])) html

/-- The body of the loop of lines 200-208 up to the emptiness test. -/
def cleanLine (line : GoString) : GoString := TrimSpace (collapseSpaces line)

/-- Lines 197-208: the non-empty cleaned lines. -/
def cleanLinesOf (text : GoString) : List GoString :=
  ((Split text '\n').map cleanLine).filter fun line => line ≠ []

/-- `cleanTextPreserveLines`. -/
def cleanTextPreserveLines (html : GoString) : GoString :=
  let text := markBlocks html
  let text := StripTags text
  let cleanLines := cleanLinesOf text
  let result := Join cleanLines ['\n']
  let result := ReplaceAll result ['\n'] ['\n', '\n']
  let result := collapseNewlines result
  TrimSpace result


/-! ## `extractAsJSON` -/

/-- `Config` without its reader and writer: the input arrives as the parsed
matches, the output is returned as the bytes written. -/
structure Config where
  Selector : GoString
  KeepTags : Bool
  JSON : Bool
  MonochromeOutput : Bool
  ColorOutput : Bool
  Style : GoString
  Formatter : Nat

/-- What the extractor gets from outside the repository: whether standard
output is a terminal, and the highlighting call `format(w, src, lang, config)`
as the bytes it writes to `w` and whether it returns an error. -/
structure World where
  isTerminal : Bool
  format : GoString → GoString → Config → GoString × Bool

/-- `extractAsJSON` on the selection `doc.Find(config.Selector)`: the bytes
written to `config.Output` and the returned error (`none` is `nil`). -/
def extractAsJSON (w : World) (found : List Node) (config : Config) : GoString × Option GoString :=
  let output := buildOutput config.Selector found
  let jsonString := encodeOutput output
  let useColor := config.ColorOutput || (!config.MonochromeOutput && w.isTerminal)
  if useColor then
    let r := w.format jsonString "json".toList config
    if r.2 then (r.1 ++ jsonString, none) else (r.1, none)
  else (jsonString, none)

/-! ## Notions used in the statements -/

mutual
/-- The `text` fields of a record and of all its descendant records,
concatenated in pre-order. -/
def recordTexts : JSONElement → GoString
  | .mk _ _ t cs => t ++ recordsTexts cs
/-- `recordTexts` over a list of records. -/
def recordsTexts : List JSONElement → GoString
  | [] => []
  | r :: rs => recordTexts r ++ recordsTexts rs
end

/-- The characters of a string that are not white space. -/
def nonSpace (s : GoString) : GoString := s.filter fun c => !isSpace c

mutual
/-- No record of the tree has an attributes map that is present and empty. -/
def noEmptyAttributes : JSONElement → Prop
  | .mk _ a _ cs => a ≠ some [] ∧ noEmptyAttributesAll cs
/-- `noEmptyAttributes` for each record of a list. -/
def noEmptyAttributesAll : List JSONElement → Prop
  | [] => True
  | r :: rs => noEmptyAttributes r ∧ noEmptyAttributesAll rs
end

mutual
/-- Number of records of a record tree. -/
def recordCount : JSONElement → Nat
  | .mk _ _ _ cs => 1 + recordsCount cs
/-- Number of records of a list of record trees. -/
def recordsCount : List JSONElement → Nat
  | [] => 0
  | r :: rs => recordCount r + recordsCount rs
end

mutual
/-- Number of elements of the subtree that `Children()` reaches from the node:
the node and, recursively, its element children. -/
def elementCount : Node → Nat
  | .mk _ _ _ cs => 1 + elementsCount cs
/-- Number of elements reached from the element nodes of a list. -/
def elementsCount : List Node → Nat
  | [] => 0
  | c :: cs => if c.isElement then elementCount c + elementsCount cs else elementsCount cs
end

/-- The data of the text nodes among the children, concatenated in document
order: the direct text in the words of the specification. -/
def directTextNodes (n : Node) : GoString :=
  ((n.children.filter fun c => c.type = NodeType.TextNode).map Node.data).flatten

/-- The paragraph of the repository test: text, a link, text. -/
def pWithLink : Node :=
  elem "p" [] [txt "Some text with ",
    elem "a" [("href", "https://example.com")] [txt "a link"], txt " inside."]

/-- The element of the integration test, `<div class="test">Hello World</div>`. -/
def divTest : Node := elem "div" [("class", "test")] [txt "Hello World"]

/-- The two matches of `div` in `<div><p>First</p></div><div><p>Second</p></div>`. -/
def twoDivs : List Node :=
  [elem "div" [] [elem "p" [] [txt "First"]], elem "div" [] [elem "p" [] [txt "Second"]]]

/-- A configuration with colour switched off. -/
def plainConfig (selector : GoString) : Config :=
  ⟨selector, false, true, true, false, [], 0⟩

/-- A world whose highlighter always fails. -/
def noColorWorld : World := ⟨false, fun _ _ _ => ([], true)⟩



/-- `strings.Contains(s, substr)`. -/
def Contains : GoString → GoString → Bool
  | [], sub => sub.isEmpty
  | x :: rest, sub => sub.isPrefixOf (x :: rest) || Contains rest sub

/-- `strings.Join(lines, "\n\n")`: the lines with one blank line between
neighbours. -/
def joinParagraphs (lines : List GoString) : GoString := Join lines ['\n', '\n']

/-- Lines 210-219 of `cleanTextPreserveLines`: from the cleaned lines to the
result. -/
def assembleLines (cleanLines : List GoString) : GoString :=
  TrimSpace (collapseNewlines (ReplaceAll (Join cleanLines ['\n']) ['\n'] ['\n', '\n']))

/-- A line as the loop of `cleanTextPreserveLines` keeps it: not empty and
already clean. -/
def GoodLine (l : GoString) : Prop := l ≠ [] ∧ cleanLine l = l


/-- Not empty, and neither the first nor the last character is white space. -/
def Edged (s : GoString) : Prop :=
  s ≠ [] ∧ (∀ x, s.head? = some x → isSpace x = false) ∧
    (∀ x, s.getLast? = some x → isSpace x = false)


mutual
/-- Number of element nodes in the whole subtree of a node, itself included. -/
def countElements : Node → Nat
  | .mk t _ _ cs => (if t = NodeType.ElementNode then 1 else 0) + countElementsList cs
/-- Number of element nodes in the subtrees of a list of nodes. -/
def countElementsList : List Node → Nat
  | [] => 0
  | c :: cs => countElements c + countElementsList cs
end

mutual
/-- Only element nodes have children, throughout the subtree (text and comment
nodes of a parsed document are leaves). -/
def wellFormed : Node → Bool
  | .mk t _ _ cs => (t == NodeType.ElementNode || cs.isEmpty) && wellFormedList cs
/-- `wellFormed` for every node of a list. -/
def wellFormedList : List Node → Bool
  | [] => true
  | c :: cs => wellFormed c && wellFormedList cs
end

/-- Rank of a scanner state: the number of iterations that may follow without
input being consumed. -/
def rankState : State → Nat
  | .stateAttrName => 3
  | .stateAfterName => 2
  | .stateBeforeValue => 2
  | .stateRCDATA => 1
  | _ => 0

/-- Rank of a context. -/
def rank (c : Context) : Nat :=
  if c.delim ≠ .delimNone then 1 else rankState (scanState c)

/-- The quantity that every iteration of the loop of `StripTags` decreases. -/
def stripMeasure (st : StripState) : Nat := 4 * st.rest.length + rank st.c
/-! ## Plain markup: text between tags and comments -/

/-- White space to the scanner (`eatWhiteSpace`), throughout. -/
def isWhite (s : GoString) : Bool := s.all isReSpace

/-- A quote character, `"` or `'`. -/
def isQuote (c : Char) : Bool := c == Char.ofNat 0x22 || c == Char.ofNat 0x27

/-- A character of an attribute name: not white space, `=`, a quote, `<` or `>`. -/
def isAttrNameChar (c : Char) : Bool :=
  !(isReSpace c || c == '=' || c == '>' || isQuote c || c == '<')

/-- A character of an unquoted attribute value: not white space, `<` or `>`. -/
def isUnquotedChar (c : Char) : Bool := !(isReSpace c || c == '>' || c == '<')

/-- The value of an attribute: none, `=v`, or `="v"` / `='v'`, with the white
space around the `=`. -/
inductive AttrValue where
  | absent
  | unquoted (pre post v : GoString)
  | quoted (pre post : GoString) (q : Char) (v : GoString)

/-- The characters of the value part of an attribute. -/
def AttrValue.render : AttrValue → GoString
  | .absent => []
  | .unquoted pre post v => pre ++ '=' :: (post ++ v)
  | .quoted pre post q v => pre ++ '=' :: (post ++ q :: (v ++ [q]))

/-- White space around the `=`; an unquoted value is not empty, does not start
with a quote and has no white space, `<` or `>`; a quoted value does not have
its quote (it may have `<` and `>`). -/
def AttrValue.ok : AttrValue → Bool
  | .absent => true
  | .unquoted pre post v =>
    isWhite pre && isWhite post && v.all isUnquotedChar &&
      (match v with
       | [] => false
       | x :: _ => !isQuote x)
  | .quoted pre post q v =>
    isWhite pre && isWhite post && isQuote q && !v.elem q

/-- The value is quoted. -/
def AttrValue.isQuoted : AttrValue → Bool
  | .quoted _ _ _ _ => true
  | _ => false

/-- An attribute inside a tag: name, value, and the white space behind it.  The
`/` of `<br/>` is an attribute name to the scanner. -/
structure TagAttr where
  name : GoString
  value : AttrValue
  after : GoString

/-- The characters of an attribute. -/
def TagAttr.render (a : TagAttr) : GoString := a.name ++ (a.value.render ++ a.after)

/-- A name of attribute name characters, a value as above, white space behind. -/
def TagAttr.ok (a : TagAttr) : Bool :=
  !a.name.isEmpty && a.name.all isAttrNameChar && a.value.ok && isWhite a.after

/-- The characters of the attributes of a tag. -/
def renderAttrs : List TagAttr → GoString
  | [] => []
  | a :: rest => a.render ++ renderAttrs rest

/-- Every attribute is as above, and white space separates an attribute from
the next one unless its value is quoted. -/
def attrsOk : List TagAttr → Bool
  | [] => true
  | a :: rest =>
    a.ok && (a.value.isQuoted || !a.after.isEmpty || rest.isEmpty) && attrsOk rest

/-- A tag: `<`, `/` for a closing tag, the name, white space, attributes, `>`. -/
structure PlainTag where
  closing : Bool
  name : GoString
  lead : GoString
  attrs : List TagAttr

/-- The part of a tag between its name and the `>`. -/
def PlainTag.tail (t : PlainTag) : GoString := t.lead ++ renderAttrs t.attrs

/-- The characters of a tag. -/
def PlainTag.render (t : PlainTag) : GoString :=
  '<' :: ((if t.closing then ['/'] else []) ++ t.name ++ t.tail ++ ['>'])

/-- The characters of a tag name behind its first letter: letters and digits,
with single `:` or `-` between them (`x-y`, `x:y`, not `x-`, `x--y`). -/
def isNameRest : GoString → Bool
  | [] => true
  | [x] => asciiAlphaNum x
  | x :: y :: rest =>
    if asciiAlphaNum x then isNameRest (y :: rest)
    else (x == ':' || x == '-') && asciiAlphaNum y && isNameRest rest

/-- A tag name: a letter followed by letters, digits and single `:` or `-`
between them. -/
def isTagName : GoString → Bool
  | [] => false
  | x :: rest => asciiAlpha x && isNameRest rest

/-- A tag name other than `script`, `style`, `textarea` and `title` in any
letter case. -/
def isPlainName (name : GoString) : Bool :=
  isTagName name && (elementOfName name == .elementNone)

/-- The part of a tag between `<` and the end of its name. -/
def PlainTag.opening (t : PlainTag) : GoString :=
  (if t.closing then ['/'] else []) ++ t.name

/-- A character that cannot continue a tag name. -/
def isNameStop (s0 : Char) : Bool := !(asciiAlphaNum s0 || s0 == ':' || s0 == '-')

/-- The first character ends a tag name. -/
def headStops : GoString → Bool
  | [] => false
  | s0 :: _ => isNameStop s0

/-- A well-formed tag: a tag name, the character behind it ends it, and white
space and attributes as above follow. -/
def PlainTag.wf (t : PlainTag) : Bool :=
  isTagName t.name && isWhite t.lead && attrsOk t.attrs && headStops (t.tail ++ ['>'])

/-- The element whose body the scanner enters behind the tag: none behind a
closing tag. -/
def PlainTag.element (t : PlainTag) : Element :=
  if t.closing then .elementNone else elementOfName t.name

/-- A well-formed tag that does not open a `script`, `style`, `textarea` or
`title` element. -/
def PlainTag.plain (t : PlainTag) : Bool := t.wf && (t.element == .elementNone)

/-- A well-formed tag that does not open such an element and has no `<` in its
attribute values. -/
def PlainTag.ok (t : PlainTag) : Bool := t.plain && !t.tail.elem '<'

/-- A tag, a comment `<!--body-->`, or a whole `script`, `style`, `textarea` or
`title` element: opening tag, body, closing tag. -/
inductive Piece where
  | tag (t : PlainTag)
  | comment (body : GoString)
  | element (start : PlainTag) (body : GoString) (stop : PlainTag)

/-- The characters of a tag, comment or element. -/
def Piece.render : Piece → GoString
  | .tag t => t.render
  | .comment body => commentStart ++ (body ++ commentEnd)
  | .element start body stop => start.render ++ (body ++ stop.render)

/-- The body of the element is text that the scanner writes (`textarea`,
`title`), not text that it drops (`script`, `style`). -/
def keepsBody (e : Element) : Bool := elementContentType e == .stateRCDATA

/-- Text of characters below U+0130 (ASCII, Latin-1 Supplement, Latin
Extended-A up to U+012F): lower-casing gives each of them a character of the
same encoded length, so the lower-cased copy, in which the scanner looks for
the end of an element body, has the same offsets in bytes. -/
def lowerKeepsLength (s : GoString) : Bool := s.all fun c => decide (c.toNat < 0x130)

/-- Text without tag delimiters. -/
def isPlainText (s : GoString) : Bool := !s.elem '<' && !s.elem '>'

/-- The body of an element: text of such characters without the end marker of
the element in any letter case; where the body is written (`textarea`,
`title`), what is written of it, the part in front of its last `<`, is free of
tag delimiters. -/
def bodyOk (e : Element) (body : GoString) : Bool :=
  lowerKeepsLength body && !Contains (ToLower body) (specialTagEndMarkers e) &&
    (!keepsBody e || isPlainText (cutAtLastLT body))

/-- A well-formed tag as above; a comment whose text has no `-->`; an element
with well-formed tags of the same name and a body as above. -/
def Piece.ok : Piece → Bool
  | .tag t => t.plain
  | .comment body => !Contains body commentEnd
  | .element start body stop =>
    start.wf && !start.closing && (start.element != .elementNone) &&
      stop.wf && stop.closing && (stop.name.map asciiLower == start.name.map asciiLower) &&
      bodyOk start.element body

/-- The text that the scanner writes for a tag, comment or element: the body of
a `textarea` or `title` element up to its last `<`. -/
def Piece.text : Piece → GoString
  | .element start body _ => if keepsBody start.element then cutAtLastLT body else []
  | _ => []

/-- No `>` in front of the first quote. -/
def gtGuarded : GoString → Bool
  | [] => true
  | x :: rest => isQuote x || (x != '>' && gtGuarded rest)

/-- The names of the elements whose body the scanner does not read tag by tag. -/
def specialNames : List GoString := ["script", "style", "textarea", "title"].map String.toList

/-- The string starts, in any letter case, like the opening or the closing tag
of one of those elements. -/
def isSpecialStart (s : GoString) : Bool :=
  specialNames.any fun n =>
    ('<' :: n).isPrefixOf (s.map asciiLower) || ('<' :: '/' :: n).isPrefixOf (s.map asciiLower)

/-- The shape of a recognised tag: `<`, then characters other than `<`, `>`,
`-` and quotes, then `>`; not a comment start and not the tag of one of those
elements. -/
def isTagShape : GoString → Bool
  | '<' :: rest =>
    rest.getLast? == some '>' && !rest.dropLast.elem '>' && !rest.any isQuote &&
      rest.head? != some '!' && !isSpecialStart ('<' :: rest) &&
      !rest.elem '<' && !rest.elem '-'
  | _ => false

/-- What `ReplaceAll(text, old, old + "\n")` does to a quoted attribute value:
the replacement inside the value. -/
def markValue (old : GoString) : AttrValue → AttrValue
  | .quoted pre post q v => .quoted pre post q (ReplaceAll v old (old ++ ['\n']))
  | v => v

/-- What it does to an attribute. -/
def TagAttr.mark (old : GoString) (a : TagAttr) : TagAttr :=
  ⟨a.name, markValue old a.value, a.after⟩

/-- What it does to the inside of a tag. -/
def PlainTag.mark (old : GoString) (t : PlainTag) : PlainTag :=
  ⟨t.closing, t.name, t.lead, t.attrs.map (TagAttr.mark old)⟩

/-- What it does to the inside of a tag, comment or element: the replacement
inside the attribute values, the text of the comment and the body. -/
def Piece.mark (old : GoString) : Piece → Piece
  | .tag t => .tag (t.mark old)
  | .comment body => .comment (ReplaceAll body old (old ++ ['\n']))
  | .element start body stop =>
    .element (start.mark old) (ReplaceAll body old (old ++ ['\n'])) (stop.mark old)

/-- Lines 132-139 of `selectionToJSONElement` on the raw direct text: trim,
then collapse when something is left. -/
def trimThenCollapse (directText : GoString) : GoString :=
  let directText := TrimSpace directText
  if directText ≠ [] then collapseSpaces directText else []

/-- The order of the specification: collapse the runs of white space, then
trim. -/
def collapseThenTrim (directText : GoString) : GoString :=
  TrimSpace (collapseSpaces directText)

/-- Three newlines in a row. -/
def threeNewlines : GoString := ['\n', '\n', '\n']

/-- Lines 210-213 of `cleanTextPreserveLines`: the kept lines joined by a
newline, every newline doubled. -/
def doubledJoin (cleanLines : List GoString) : GoString :=
  ReplaceAll (Join cleanLines ['\n']) ['\n'] ['\n', '\n']

/-- The recognised tags as tags, in the order of `blockElements`. -/
def blockTags : List PlainTag :=
  ["div", "p", "h1", "h2", "h3", "h4", "h5", "h6", "li", "tr", "td", "th", "section",
   "article", "header", "footer", "nav", "main", "aside"].map (fun name =>
    (⟨true, name.toList, [], []⟩ : PlainTag)) ++
  [⟨false, "br".toList, [], []⟩, ⟨false, "br".toList, [], [⟨['/'], .absent, []⟩]⟩,
   ⟨false, "br".toList, [' '], [⟨['/'], .absent, []⟩]⟩]

/-! ## `Extract` and `extractAsText` -/

/-- chroma as `format` calls it: source text, language, style name and formatter
give the bytes written to the writer and whether an error is returned.  (The
choice of `pickFormatter` from the environment is part of it.) -/
structure Highlighter where
  highlight : GoString → GoString → GoString → Nat → GoString × Bool

/-- `format(w, src, lang, config)` (lines 222-242): of the configuration only the
style and the formatter are read. -/
def format (h : Highlighter) (src lang : GoString) (config : Config) : GoString × Bool :=
  h.highlight src lang config.Style config.Formatter

/-- The world of the program: the terminal test and `format` over chroma. -/
def worldOf (isTerminal : Bool) (h : Highlighter) : World := ⟨isTerminal, format h⟩

/-- A parsed document: `doc.Find(selector)` as the matched nodes in document
order. -/
structure Document where
  Find : GoString → List Node

/-- `goquery.OuterHtml` (serialised markup or an error) and `gohtml.Format`. -/
structure Renderer where
  OuterHtml : Node → Except GoString GoString
  Format : GoString → GoString

/-- One call of the function that `extractAsText` passes to `Each` (lines
150-174): the bytes it writes to `config.Output`.  The message written to
standard error when `OuterHtml` fails is not part of them. -/
def writeMatch (w : World) (r : Renderer) (config : Config) (s : Node) : GoString :=
  match r.OuterHtml s with
  | .error _ => []
  | .ok html =>
    if config.KeepTags then
      let formatted := r.Format html
      let useColor := config.ColorOutput || (!config.MonochromeOutput && w.isTerminal)
      if useColor then
        let res := w.format formatted "html".toList config
        if res.2 then res.1 ++ (formatted ++ ['\n']) else res.1
      else formatted ++ ['\n']
    else
      let cleaned := cleanTextPreserveLines html
      if cleaned ≠ [] then cleaned ++ ['\n'] else []

/-- `extractAsText` on the selection `doc.Find(config.Selector)`: the bytes
written to `config.Output` and the returned error. -/
def extractAsText (w : World) (r : Renderer) (found : List Node) (config : Config) :
    GoString × Option GoString :=
  (found.foldl (fun out s => out ++ writeMatch w r config s) [], none)

/-- `Extract` on the result of `goquery.NewDocumentFromReader(config.Input)`:
the bytes written to `config.Output` and the returned error. -/
def Extract (w : World) (r : Renderer) (parsed : Except GoString Document) (config : Config) :
    GoString × Option GoString :=
  match parsed with
  | .error err => ([], some ("error parsing HTML: ".toList ++ err))
  | .ok doc =>
    if config.JSON then extractAsJSON w (doc.Find config.Selector) config
    else extractAsText w r (doc.Find config.Selector) config

/-- The configuration with colouring switched off (`-M`, no `-C`). -/
def Config.withoutColor (c : Config) : Config :=
  ⟨c.Selector, c.KeepTags, c.JSON, true, false, c.Style, c.Formatter⟩

/-- The bytes are the encoding of an extraction result with the given selector
whose count is the length of its results. -/
def IsResultJSON (selector out : GoString) : Prop :=
  ∃ results : Option (List JSONElement), out = encodeOutput ⟨selector, results, goLen results⟩

/-- A highlighter that, like the terminal formatters, writes a colour escape
sequence in front of the text. -/
def ansiHighlighter : Highlighter :=
  ⟨fun src _ _ _ => (Char.ofNat 0x1B :: '[' :: '1' :: 'm' :: src, false)⟩

/-- The document `<div class="test">Hello World</div>`: `div.test` matches its
one element, every other selector nothing. -/
def divTestDocument : Document :=
  ⟨fun selector => if selector = "div.test".toList then [divTest] else []⟩

/-- A serialiser that returns the given markup for every node. -/
def constRenderer (html : String) : Renderer := ⟨fun _ => .ok html.toList, fun s => s⟩

/-! ## The calls of `selectionToJSONElement` -/

mutual
/-- The nodes on which `selectionToJSONElement` is called when it is called on
the node, in call order: the node, then the calls made for its element children. -/
def visitedBy : Node → List Node
  | .mk t d a cs => .mk t d a cs :: visitedByChildren cs
/-- The calls made by the loop over the children. -/
def visitedByChildren : List Node → List Node
  | [] => []
  | c :: cs => if c.isElement then visitedBy c ++ visitedByChildren cs else visitedByChildren cs
end

mutual
/-- The element nodes of the subtree of a node in document order, each once. -/
def elementsOf : Node → List Node
  | .mk t d a cs =>
    (if t = NodeType.ElementNode then [.mk t d a cs] else []) ++ elementsOfList cs
/-- The element nodes of the subtrees of a list of nodes. -/
def elementsOfList : List Node → List Node
  | [] => []
  | c :: cs => elementsOf c ++ elementsOfList cs
end

mutual
/-- The records of a record tree in pre-order. -/
def recordsOf : JSONElement → List JSONElement
  | .mk t a x cs => .mk t a x cs :: recordsOfList cs
/-- The records of a list of record trees. -/
def recordsOfList : List JSONElement → List JSONElement
  | [] => []
  | r :: rs => recordsOf r ++ recordsOfList rs
end

/-- Markup for the nodes of `demoDocument`: a paragraph for `p`, an empty
element otherwise. -/
def demoMarkup (s : Node) : GoString :=
  if s.data = "p".toList then "<p>First paragraph</p>".toList else "<i></i>".toList

/-- A serialiser that returns `demoMarkup`. -/
def demoRenderer : Renderer := ⟨fun s => .ok (demoMarkup s), fun s => s⟩

/-- A document in which every selector matches a `p`, an `i` and a `p`. -/
def demoDocument : Document := ⟨fun _ => [elem "p" [] [], elem "i" [] [], elem "p" [] []]⟩

/-- Default text mode for the selector `p`. -/
def textConfig : Config := ⟨"p".toList, false, false, false, false, [], 0⟩

/-- JSON mode with colouring asked for, selector `div.test`. -/
def colorConfig (keepTags : Bool) : Config :=
  ⟨"div.test".toList, keepTags, true, false, true, [], 0⟩

/-- A world on a terminal whose highlighter always fails without writing. -/
def failingWorld : World := ⟨true, fun _ _ _ => ([], true)⟩

/-! ## Reading the `selector` member back -/

/-- JSON white space: space, tab, newline, carriage return. -/
def isJSONSpace (c : Char) : Bool :=
  c.toNat == 0x20 || c.toNat == 0x09 || c.toNat == 0x0A || c.toNat == 0x0D

/-- The value of a hexadecimal digit. -/
def hexValue (c : Char) : Option Nat :=
  let n := c.toNat
  if 48 ≤ n && n ≤ 57 then some (n - 48)
  else if 97 ≤ n && n ≤ 102 then some (n - 87)
  else if 65 ≤ n && n ≤ 70 then some (n - 55)
  else none

/-- The character that a two-character escape stands for. -/
def simpleEscape (e : Char) : Option Char :=
  if e.toNat == 0x22 then some (Char.ofNat 0x22)
  else if e.toNat == 0x5C then some (Char.ofNat 0x5C)
  else if e == '/' then some '/'
  else if e == 'b' then some (Char.ofNat 0x08)
  else if e == 'f' then some (Char.ofNat 0x0C)
  else if e == 'n' then some (Char.ofNat 0x0A)
  else if e == 'r' then some (Char.ofNat 0x0D)
  else if e == 't' then some (Char.ofNat 0x09)
  else none

/-- The value of the escape `\uXXXX` with the four digits given. -/
def hexEscape (a b c d : Char) : Option Char :=
  match hexValue a, hexValue b, hexValue c, hexValue d with
  | some va, some vb, some vc, some vd =>
    some (Char.ofNat (((va * 16 + vb) * 16 + vc) * 16 + vd))
  | _, _, _, _ => none

/-- One character of a JSON string, escaped or not, read at the head of the
input: the character and the input behind it. -/
def readChar : GoString → Option (Char × GoString)
  | [] => none
  | x :: rest =>
    if x.toNat == 0x5C then
      match rest with
      | [] => none
      | e :: rest1 =>
        if e == 'u' then
          match rest1 with
          | a :: b :: c :: d :: rest2 => (hexEscape a b c d).map fun ch => (ch, rest2)
          | _ => none
        else (simpleEscape e).map fun ch => (ch, rest1)
    else if x.toNat < 0x20 then none
    else some (x, rest)

/-- Worker of `readStringBody`; the fuel bounds the number of characters read. -/
def readStringFuel : Nat → GoString → Option (GoString × GoString)
  | 0, _ => none
  | fuel + 1, s =>
    match s with
    | [] => none
    | x :: rest =>
      if x.toNat == 0x22 then some ([], rest)
      else
        match readChar (x :: rest) with
        | none => none
        | some (ch, rest1) => (readStringFuel fuel rest1).map fun p => (ch :: p.1, p.2)

/-- A JSON string read from behind its opening quote: the string it denotes and
the input behind the closing quote. -/
def readStringBody (s : GoString) : Option (GoString × GoString) :=
  readStringFuel s.length s

/-- A JSON string read at the head of the input, white space skipped. -/
def readString (s : GoString) : Option (GoString × GoString) :=
  match s.dropWhile isJSONSpace with
  | [] => none
  | q :: rest => if q.toNat == 0x22 then readStringBody rest else none

/-- The input behind the given character, white space skipped; `none` when the
next character is another one. -/
def expectChar (c : Char) (s : GoString) : Option GoString :=
  match s.dropWhile isJSONSpace with
  | [] => none
  | x :: rest => if x = c then some rest else none

/-- The first member of a JSON object, when its value is a string: the key and
the value. -/
def readFirstMember (out : GoString) : Option (GoString × GoString) :=
  (expectChar '{' out).bind fun r1 =>
    (readString r1).bind fun kr =>
      (expectChar ':' kr.2).bind fun r2 =>
        (readString r2).map fun vr => (kr.1, vr.1)

/-! # Proofs -/

/-! ## White space lemmas -/

theorem isReSpace_isSpace (c : Char) (h : isReSpace c = true) : isSpace c = true := by
  simp only [isReSpace, isSpace, Bool.or_eq_true, beq_iff_eq] at *
  omega

theorem isSpace_space : isSpace ' ' = true := by decide

theorem isReSpace_space : isReSpace ' ' = true := by decide

theorem nonSpace_append (a b : GoString) : nonSpace (a ++ b) = nonSpace a ++ nonSpace b := by
  simp [nonSpace]

theorem nonSpace_dropWhile (s : GoString) : nonSpace (s.dropWhile isSpace) = nonSpace s := by
  induction s with
  | nil => rfl
  | cons c cs ih =>
    by_cases h : isSpace c = true
    · simp [List.dropWhile_cons, h, nonSpace] at ih ⊢
      exact ih
    · simp [List.dropWhile_cons, h]

theorem nonSpace_reverse (s : GoString) : nonSpace s.reverse = (nonSpace s).reverse := by
  simp [nonSpace, List.filter_reverse]

theorem nonSpace_TrimSpace (s : GoString) : nonSpace (TrimSpace s) = nonSpace s := by
  unfold TrimSpace
  rw [nonSpace_reverse, nonSpace_dropWhile, nonSpace_reverse, nonSpace_dropWhile, List.reverse_reverse]

theorem nonSpace_cons (c : Char) (s : GoString) :
    nonSpace (c :: s) = if isSpace c = true then nonSpace s else c :: nonSpace s := by
  by_cases h : isSpace c = true <;> simp [nonSpace, h]

theorem collapseSpaces_ws_ws (c d : Char) (rest : GoString) (hc : isReSpace c = true)
    (hd : isReSpace d = true) : collapseSpaces (c :: d :: rest) = collapseSpaces (d :: rest) := by
  simp [collapseSpaces, hc, hd]

theorem collapseSpaces_ws_other (c d : Char) (rest : GoString) (hc : isReSpace c = true)
    (hd : isReSpace d = false) :
    collapseSpaces (c :: d :: rest) = ' ' :: collapseSpaces (d :: rest) := by
  simp [collapseSpaces, hc, hd]

theorem collapseSpaces_other (c d : Char) (rest : GoString) (hc : isReSpace c = false) :
    collapseSpaces (c :: d :: rest) = c :: collapseSpaces (d :: rest) := by
  simp [collapseSpaces, hc]

theorem nonSpace_collapseSpaces : ∀ s : GoString, nonSpace (collapseSpaces s) = nonSpace s
  | [] => rfl
  | [c] => by
    by_cases h : isReSpace c = true
    · have := isReSpace_isSpace c h
      simp [collapseSpaces, h, nonSpace, this, isSpace_space]
    · simp [collapseSpaces, h]
  | c :: d :: rest => by
    have ih := nonSpace_collapseSpaces (d :: rest)
    by_cases h : isReSpace c = true
    · have hc := isReSpace_isSpace c h
      by_cases h2 : isReSpace d = true
      · rw [collapseSpaces_ws_ws c d rest h h2, ih, nonSpace_cons c, if_pos hc]
      · rw [collapseSpaces_ws_other c d rest h (by simpa using h2), nonSpace_cons c, if_pos hc,
          nonSpace_cons ' ', if_pos isSpace_space, ih]
    · rw [collapseSpaces_other c d rest (by simpa using h), nonSpace_cons c, nonSpace_cons c, ih]

theorem nonSpace_directTextOf (n : Node) :
    nonSpace (directTextOf n) = nonSpace (nodeText (removeElementChildren n)) := by
  unfold directTextOf
  by_cases h : TrimSpace (nodeText (removeElementChildren n)) = []
  · have := nonSpace_TrimSpace (nodeText (removeElementChildren n))
    rw [h] at this
    simp only [h, ne_eq, not_true_eq_false, if_false]
    exact this
  · simp only [ne_eq, h, not_false_eq_true, if_true]
    rw [nonSpace_collapseSpaces, nonSpace_TrimSpace]

/-! ## Records and the document tree -/

theorem recordTexts_selection (t : NodeType) (d : GoString) (a : List Attribute) (cs : List Node) :
    recordTexts (selectionToJSONElement (.mk t d a cs)) =
      directTextOf (.mk t d a cs) ++ recordsTexts (childrenToJSON cs) := by
  simp [selectionToJSONElement, recordTexts]

theorem nodesText_filter_cons_of_not (c : Node) (cs : List Node) (h : c.isElement = false) :
    nodesText ((c :: cs).filter fun c => !c.isElement) =
      nodeText c ++ nodesText (cs.filter fun c => !c.isElement) := by
  simp [List.filter_cons, h, nodesText]

mutual
theorem nonSpace_recordTexts_perm : ∀ n : Node,
    (nonSpace (recordTexts (selectionToJSONElement n))).Perm (nonSpace (nodeText n))
  | .mk t d a cs => by
    have ih := nonSpace_recordsTexts_perm cs
    rw [recordTexts_selection, nonSpace_append, nonSpace_directTextOf]
    simp only [removeElementChildren, Node.type, Node.data, Node.attr, Node.children, nodeText,
      nonSpace_append, List.append_assoc]
    exact List.Perm.append_left _ (List.perm_append_comm.trans ih)
theorem nonSpace_recordsTexts_perm : ∀ cs : List Node,
    (nonSpace (recordsTexts (childrenToJSON cs)) ++
        nonSpace (nodesText (cs.filter fun c => !c.isElement))).Perm (nonSpace (nodesText cs))
  | [] => by simp [childrenToJSON, recordsTexts, nodesText, nonSpace]
  | c :: cs => by
    have ih := nonSpace_recordsTexts_perm cs
    by_cases h : c.isElement = true
    · have ihc := nonSpace_recordTexts_perm c
      simp only [childrenToJSON, h, if_true, recordsTexts, nodesText, nonSpace_append,
        List.filter_cons, Bool.not_true, Bool.false_eq_true, if_false, List.append_assoc]
      exact List.Perm.append ihc ih
    · have h0 : c.isElement = false := by simpa using h
      rw [nodesText_filter_cons_of_not c cs h0]
      simp only [childrenToJSON, h0, Bool.false_eq_true, if_false, nodesText, nonSpace_append]
      rw [← List.append_assoc]
      refine List.Perm.trans (List.Perm.append_right _ List.perm_append_comm) ?_
      rw [List.append_assoc]
      exact List.Perm.append_left _ ih
end

/-! ## Trimming and collapsing commute -/

theorem TrimSpace_eq (s : GoString) :
    TrimSpace s = (s.dropWhile isSpace).rdropWhile isSpace := rfl

theorem rdropWhile_cons (p : Char → Bool) (c : Char) (l : GoString) :
    (c :: l).rdropWhile p =
      if l.rdropWhile p = [] then (if p c = true then [] else [c]) else c :: l.rdropWhile p := by
  simp only [List.rdropWhile, List.reverse_cons, List.dropWhile_append, List.reverse_eq_nil_iff]
  by_cases h : List.dropWhile p l.reverse = []
  · by_cases hc : p c = true <;> simp [h, hc]
  · simp [h]

theorem collapseSpaces_eq_nil (s : GoString) : collapseSpaces s = [] ↔ s = [] := by
  constructor
  · intro h
    induction s with
    | nil => rfl
    | cons c cs ih =>
      cases cs with
      | nil =>
        by_cases hc : isReSpace c = true <;> simp [collapseSpaces, hc] at h
      | cons d rest =>
        by_cases hc : isReSpace c = true
        · by_cases hd : isReSpace d = true
          · rw [collapseSpaces_ws_ws c d rest hc hd] at h
            exact absurd (ih h) (by simp)
          · rw [collapseSpaces_ws_other c d rest hc (by simpa using hd)] at h
            exact absurd h (by simp)
        · rw [collapseSpaces_other c d rest (by simpa using hc)] at h
          exact absurd h (by simp)
  · rintro rfl
    rfl

theorem collapseSpaces_dropWhile : ∀ s : GoString,
    collapseSpaces (s.dropWhile isSpace) = (collapseSpaces s).dropWhile isSpace
  | [] => rfl
  | [c] => by
    by_cases hs : isSpace c = true
    · by_cases hc : isReSpace c = true
      · simp [collapseSpaces, hc, hs, List.dropWhile_cons, isSpace_space]
      · simp [collapseSpaces, hc, hs, List.dropWhile_cons]
    · have hc : isReSpace c = false := by
        cases h : isReSpace c
        · rfl
        · exact absurd (isReSpace_isSpace c h) hs
      simp [collapseSpaces, hc, hs, List.dropWhile_cons]
  | c :: d :: rest => by
    have ih := collapseSpaces_dropWhile (d :: rest)
    by_cases hs : isSpace c = true
    · have e1 : (c :: d :: rest).dropWhile isSpace = (d :: rest).dropWhile isSpace := by
        rw [List.dropWhile_cons, if_pos hs]
      rw [e1, ih]
      by_cases hc : isReSpace c = true
      · by_cases hd : isReSpace d = true
        · rw [collapseSpaces_ws_ws c d rest hc hd]
        · rw [collapseSpaces_ws_other c d rest hc (by simpa using hd), List.dropWhile_cons,
            if_pos isSpace_space]
      · rw [collapseSpaces_other c d rest (by simpa using hc), List.dropWhile_cons, if_pos hs]
    · have hc : isReSpace c = false := by
        cases h : isReSpace c
        · rfl
        · exact absurd (isReSpace_isSpace c h) hs
      rw [List.dropWhile_cons, if_neg hs, collapseSpaces_other c d rest hc, List.dropWhile_cons,
        if_neg hs]

theorem rdropWhile_cons_head (p : Char → Bool) (d : Char) (rest : GoString)
    (h : (d :: rest).rdropWhile p ≠ []) :
    ∃ r, (d :: rest).rdropWhile p = d :: r := by
  rw [rdropWhile_cons] at h ⊢
  by_cases h1 : rest.rdropWhile p = []
  · by_cases h2 : p d = true
    · simp [h1, h2] at h
    · exact ⟨[], by simp [h1, h2]⟩
  · exact ⟨rest.rdropWhile p, by simp [h1]⟩

theorem collapseSpaces_rdropWhile : ∀ s : GoString,
    collapseSpaces (s.rdropWhile isSpace) = (collapseSpaces s).rdropWhile isSpace
  | [] => rfl
  | [c] => by
    by_cases hs : isSpace c = true
    · by_cases hc : isReSpace c = true
      · simp [collapseSpaces, hc, hs, rdropWhile_cons, isSpace_space, List.rdropWhile_nil]
      · simp [collapseSpaces, hc, hs, rdropWhile_cons, List.rdropWhile_nil]
    · have hc : isReSpace c = false := by
        cases h : isReSpace c
        · rfl
        · exact absurd (isReSpace_isSpace c h) hs
      simp [collapseSpaces, hc, hs, rdropWhile_cons, List.rdropWhile_nil]
  | c :: d :: rest => by
    have ih := collapseSpaces_rdropWhile (d :: rest)
    rw [rdropWhile_cons isSpace c (d :: rest)]
    by_cases h0 : (d :: rest).rdropWhile isSpace = []
    · rw [if_pos h0]
      have hnil : (collapseSpaces (d :: rest)).rdropWhile isSpace = [] := by
        rw [← ih, h0]; rfl
      by_cases hs : isSpace c = true
      · rw [if_pos hs]
        by_cases hc : isReSpace c = true
        · by_cases hd : isReSpace d = true
          · rw [collapseSpaces_ws_ws c d rest hc hd, hnil]; rfl
          · rw [collapseSpaces_ws_other c d rest hc (by simpa using hd), rdropWhile_cons,
              if_pos hnil, if_pos isSpace_space]; rfl
        · rw [collapseSpaces_other c d rest (by simpa using hc), rdropWhile_cons, if_pos hnil,
            if_pos hs]; rfl
      · have hc : isReSpace c = false := by
          cases h : isReSpace c
          · rfl
          · exact absurd (isReSpace_isSpace c h) hs
        rw [if_neg hs, collapseSpaces_other c d rest hc, rdropWhile_cons, if_pos hnil, if_neg hs]
        simp [collapseSpaces, hc]
    · rw [if_neg h0]
      obtain ⟨r, hr⟩ := rdropWhile_cons_head isSpace d rest h0
      have hne : (collapseSpaces (d :: rest)).rdropWhile isSpace ≠ [] := by
        rw [← ih, hr]
        intro h
        exact absurd ((collapseSpaces_eq_nil _).1 h) (by simp)
      rw [hr]
      by_cases hc : isReSpace c = true
      · by_cases hd : isReSpace d = true
        · rw [collapseSpaces_ws_ws c d r hc hd, collapseSpaces_ws_ws c d rest hc hd, ← hr, ih]
        · rw [collapseSpaces_ws_other c d r hc (by simpa using hd),
            collapseSpaces_ws_other c d rest hc (by simpa using hd), rdropWhile_cons, if_neg hne,
            ← hr, ih]
      · rw [collapseSpaces_other c d r (by simpa using hc),
          collapseSpaces_other c d rest (by simpa using hc), rdropWhile_cons, if_neg hne, ← hr, ih]

/-- Trimming first and collapsing afterwards (the code) gives what collapsing
first and trimming afterwards (the specification) gives. -/
theorem collapseSpaces_TrimSpace (s : GoString) :
    collapseSpaces (TrimSpace s) = TrimSpace (collapseSpaces s) := by
  rw [TrimSpace_eq, TrimSpace_eq, collapseSpaces_rdropWhile, collapseSpaces_dropWhile]

theorem directTextOf_eq (n : Node) :
    directTextOf n = TrimSpace (collapseSpaces (nodeText (removeElementChildren n))) := by
  unfold directTextOf
  rw [← collapseSpaces_TrimSpace]
  by_cases h : TrimSpace (nodeText (removeElementChildren n)) = []
  · simp [h, collapseSpaces]
  · simp [h]

/-! ## Attributes -/

theorem mapSet_of_not_mem (m : GoMap) (k v : GoString) (h : k ∉ m.map Prod.fst) :
    mapSet m k v = m ++ [(k, v)] := by
  induction m with
  | nil => rfl
  | cons kv rest ih =>
    obtain ⟨k1, v1⟩ := kv
    simp only [List.map_cons, List.mem_cons, not_or] at h
    have hne : ¬ k1 = k := fun e => h.1 e.symm
    simp [mapSet, hne, ih h.2]

theorem mapSet_ne_nil (m : GoMap) (k v : GoString) : mapSet m k v ≠ [] := by
  cases m with
  | nil => simp [mapSet]
  | cons kv rest =>
    obtain ⟨k1, v1⟩ := kv
    by_cases h : k1 = k <;> simp [mapSet, h]

theorem foldl_mapSet_ne_nil (attr : List Attribute) (m : GoMap) (h : m ≠ []) :
    attr.foldl (fun m a => mapSet m a.Key a.Val) m ≠ [] := by
  induction attr generalizing m with
  | nil => simpa using h
  | cons a rest ih => exact ih _ (mapSet_ne_nil m a.Key a.Val)

theorem foldl_mapSet_nodup (attr : List Attribute) (m : GoMap)
    (h : (m.map Prod.fst ++ attr.map Attribute.Key).Nodup) :
    attr.foldl (fun m a => mapSet m a.Key a.Val) m = m ++ attr.map fun a => (a.Key, a.Val) := by
  induction attr generalizing m with
  | nil => simp
  | cons a rest ih =>
    have hk : a.Key ∉ m.map Prod.fst := by
      intro hm
      have := List.nodup_append.1 h
      exact this.2.2 hm (by simp)
    rw [List.foldl_cons, mapSet_of_not_mem m a.Key a.Val hk, ih]
    · simp
    · have e : (m ++ [(a.Key, a.Val)]).map Prod.fst ++ rest.map Attribute.Key =
          m.map Prod.fst ++ (a :: rest).map Attribute.Key := by simp
      rw [e]; exact h

theorem buildAttributes_eq_none (attr : List Attribute) :
    buildAttributes attr = none ↔ attr = [] := by
  unfold buildAttributes
  cases attr with
  | nil => simp
  | cons a rest =>
    have := foldl_mapSet_ne_nil rest (mapSet [] a.Key a.Val) (mapSet_ne_nil _ _ _)
    simp only [List.foldl_cons, List.length_eq_zero]
    simp [this]

theorem buildAttributes_ne_empty (attr : List Attribute) : buildAttributes attr ≠ some [] := by
  unfold buildAttributes
  by_cases h : attr.foldl (fun m a => mapSet m a.Key a.Val) [] = []
  · simp [h]
  · simp only [List.length_eq_zero, h, if_false]
    intro e
    exact h (Option.some.inj e)

theorem buildAttributes_nodup (attr : List Attribute) (hne : attr ≠ [])
    (h : (attr.map Attribute.Key).Nodup) :
    buildAttributes attr = some (attr.map fun a => (a.Key, a.Val)) := by
  unfold buildAttributes
  rw [foldl_mapSet_nodup attr [] (by simpa using h)]
  simp [hne]

mutual
theorem noEmptyAttributes_selection : ∀ n : Node, noEmptyAttributes (selectionToJSONElement n)
  | .mk t d a cs => by
    simp only [selectionToJSONElement, noEmptyAttributes]
    exact ⟨buildAttributes_ne_empty a, noEmptyAttributes_children cs⟩
theorem noEmptyAttributes_children : ∀ cs : List Node, noEmptyAttributesAll (childrenToJSON cs)
  | [] => by simp [childrenToJSON, noEmptyAttributesAll]
  | c :: cs => by
    by_cases h : c.isElement = true
    · simp only [childrenToJSON, h, if_true, noEmptyAttributesAll]
      exact ⟨noEmptyAttributes_selection c, noEmptyAttributes_children cs⟩
    · simp only [childrenToJSON, h, Bool.false_eq_true, if_false]
      exact noEmptyAttributes_children cs
end

/-! ## Children -/

theorem childrenToJSON_eq (cs : List Node) :
    childrenToJSON cs = (cs.filter Node.isElement).map selectionToJSONElement := by
  induction cs with
  | nil => simp [childrenToJSON]
  | cons c cs ih =>
    by_cases h : c.isElement = true
    · simp [childrenToJSON, h, ih]
    · simp [childrenToJSON, h, ih]

mutual
theorem recordCount_selection : ∀ n : Node,
    recordCount (selectionToJSONElement n) = elementCount n
  | .mk t d a cs => by
    simp only [selectionToJSONElement, recordCount, elementCount, recordsCount_children cs]
theorem recordsCount_children : ∀ cs : List Node,
    recordsCount (childrenToJSON cs) = elementsCount cs
  | [] => by simp [childrenToJSON, recordsCount, elementsCount]
  | c :: cs => by
    by_cases h : c.isElement = true
    · simp only [childrenToJSON, h, if_true, recordsCount, elementsCount,
        recordCount_selection c, recordsCount_children cs]
    · simp only [childrenToJSON, h, Bool.false_eq_true, if_false, elementsCount,
        recordsCount_children cs]
end

mutual
theorem elementCount_wellFormed : ∀ n : Node, wellFormed n = true →
    elementCount n = 1 + countElementsList n.children
  | .mk t d a cs, h => by
    simp only [wellFormed, Bool.and_eq_true] at h
    simp only [elementCount, Node.children, elementsCount_wellFormed cs h.2]
theorem elementsCount_wellFormed : ∀ cs : List Node, wellFormedList cs = true →
    elementsCount cs = countElementsList cs
  | [], _ => rfl
  | c :: cs, h => by
    simp only [wellFormedList, Bool.and_eq_true] at h
    have ih := elementsCount_wellFormed cs h.2
    have ihc := elementCount_wellFormed c h.1
    cases c with
    | mk t d a ds =>
      by_cases ht : t = NodeType.ElementNode
      · subst ht
        simp only [elementsCount, Node.isElement, Node.type, beq_self_eq_true, if_true, ihc,
          Node.children, countElementsList, countElements, ih]
      · have hds : ds = [] := by
          have := h.1
          simp only [wellFormed, Bool.and_eq_true, Bool.or_eq_true, beq_iff_eq,
            List.isEmpty_iff] at this
          rcases this.1 with e | e
          · exact absurd e ht
          · exact e
        subst hds
        have hel : (Node.mk t d a []).isElement = false := by
          simp [Node.isElement, Node.type, ht]
        simp only [elementsCount, hel, Bool.false_eq_true, if_false, ih, countElementsList,
          countElements, ht, Nat.zero_add]
end

theorem recordCount_wellFormed (n : Node) (hw : wellFormed n = true)
    (hel : n.isElement = true) : recordCount (selectionToJSONElement n) = countElements n := by
  rw [recordCount_selection, elementCount_wellFormed n hw]
  cases n with
  | mk t d a cs =>
    have ht : t = NodeType.ElementNode := by simpa [Node.isElement, Node.type] using hel
    simp [countElements, Node.children, ht]

theorem selection_children (n : Node) :
    (selectionToJSONElement n).Children = childrenToJSON n.children := by
  cases n; rfl

theorem selection_text (n : Node) : (selectionToJSONElement n).Text = directTextOf n := by
  cases n; rfl

theorem selection_attributes (n : Node) :
    (selectionToJSONElement n).Attributes = buildAttributes n.attr := by
  cases n; rfl

/-! ## Direct text -/

theorem nodeText_leaf (c : Node) (h : c.children = []) :
    nodeText c = if c.type = NodeType.TextNode then c.data else [] := by
  cases c with
  | mk t d a cs =>
    simp only [Node.children] at h
    subst h
    simp [nodeText, nodesText, Node.type, Node.data]

theorem nodesText_without_elements (cs : List Node)
    (hleaf : ∀ c ∈ cs, c.isElement = false → c.children = []) :
    nodesText (cs.filter fun c => !c.isElement) =
      ((cs.filter fun c => c.type = NodeType.TextNode).map Node.data).flatten := by
  induction cs with
  | nil => simp [nodesText]
  | cons c cs ih =>
    have ih1 := ih (fun x hx => hleaf x (List.mem_cons_of_mem _ hx))
    by_cases h : c.isElement = true
    · have ht : ¬ c.type = NodeType.TextNode := by
        intro e
        simp [Node.isElement, e] at h
      simp [List.filter_cons, h, ht, ih1]
    · have h0 : c.isElement = false := by simpa using h
      rw [nodesText_filter_cons_of_not c cs h0, ih1,
        nodeText_leaf c (hleaf c (List.mem_cons_self _ _) h0)]
      by_cases ht : c.type = NodeType.TextNode
      · simp [List.filter_cons, ht]
      · simp [List.filter_cons, ht]

theorem nodeText_removeElementChildren (n : Node) (hel : n.isElement = true)
    (hleaf : ∀ c ∈ n.children, c.isElement = false → c.children = []) :
    nodeText (removeElementChildren n) = directTextNodes n := by
  cases n with
  | mk t d a cs =>
    have ht : ¬ t = NodeType.TextNode := by
      intro e
      simp [Node.isElement, Node.type, e] at hel
    simp only [removeElementChildren, Node.type, Node.data, Node.attr, Node.children, nodeText,
      ht, if_false, List.nil_append, directTextNodes]
    exact nodesText_without_elements cs hleaf

/-! ## Results -/

theorem foldl_goAppend (found : List Node) (acc : Option (List JSONElement)) :
    sliceElems (found.foldl (fun results s => goAppend results (selectionToJSONElement s)) acc) =
      sliceElems acc ++ found.map selectionToJSONElement := by
  induction found generalizing acc with
  | nil => simp
  | cons s rest ih =>
    rw [List.foldl_cons, ih]
    simp [sliceElems, goAppend]

theorem collectResults_elems (found : List Node) :
    sliceElems (collectResults found) = found.map selectionToJSONElement := by
  unfold collectResults
  rw [foldl_goAppend]
  simp [sliceElems]

/-! ## `strings` lemmas -/

theorem replaceAllAux_of_not_contains (old new : GoString) :
    ∀ s : GoString, Contains s old = false → replaceAllAux old new 0 s = s
  | [], _ => rfl
  | c :: cs, h => by
    simp only [Contains, Bool.or_eq_false_iff] at h
    simp only [replaceAllAux, h.1, Bool.false_eq_true, if_false]
    rw [replaceAllAux_of_not_contains old new cs h.2]

theorem ReplaceAll_of_not_contains (s old new : GoString) (h : Contains s old = false) :
    ReplaceAll s old new = s :=
  replaceAllAux_of_not_contains old new s h

theorem Contains_of_head_not_mem (x : Char) (old : GoString) :
    ∀ s : GoString, x ∉ s → Contains s (x :: old) = false
  | [], _ => rfl
  | c :: cs, h => by
    simp only [List.mem_cons, not_or] at h
    have hne : ¬ x = c := h.1
    simp only [Contains, List.isPrefixOf, Bool.or_eq_false_iff, Bool.and_eq_false_imp,
      beq_iff_eq]
    exact ⟨fun e => absurd e hne, Contains_of_head_not_mem x old cs h.2⟩

theorem foldl_ReplaceAll_of_not_contains (tags : List GoString) (html : GoString)
    (h : ∀ t ∈ tags, Contains html t = false) :
    tags.foldl (fun text element => ReplaceAll text element (element ++ ['\n'])) html = html := by
  induction tags with
  | nil => rfl
  | cons t rest ih =>
    rw [List.foldl_cons, ReplaceAll_of_not_contains _ _ _ (h t (List.mem_cons_self _ _))]
    exact ih (fun u hu => h u (List.mem_cons_of_mem _ hu))

theorem markBlocks_of_not_contains (html : GoString)
    (h : ∀ t ∈ blockElements, Contains html t = false) : markBlocks html = html :=
  foldl_ReplaceAll_of_not_contains blockElements html h

theorem blockElements_head (t : GoString) (h : t ∈ blockElements) : ∃ r, t = '<' :: r := by
  simp only [blockElements, List.map_cons, List.map_nil, List.mem_cons, List.mem_nil_iff,
    or_false] at h
  rcases h with h | h | h | h | h | h | h | h | h | h | h | h | h | h | h | h | h | h | h | h |
    h | h <;> exact ⟨_, h⟩

theorem markBlocks_of_no_lt (html : GoString) (h : '<' ∉ html) : markBlocks html = html := by
  apply markBlocks_of_not_contains
  intro t ht
  obtain ⟨r, rfl⟩ := blockElements_head t ht
  exact Contains_of_head_not_mem '<' r html h

theorem Split_of_not_mem (sep : Char) : ∀ s : GoString, sep ∉ s → Split s sep = [s]
  | [], _ => rfl
  | c :: cs, h => by
    simp only [List.mem_cons, not_or] at h
    have hne : ¬ c = sep := fun e => h.1 e.symm
    simp [Split, hne, Split_of_not_mem sep cs h.2]

theorem Split_append_sep (sep : Char) (r : GoString) :
    ∀ a : GoString, sep ∉ a → Split (a ++ sep :: r) sep = a :: Split r sep
  | [], _ => by simp [Split]
  | c :: cs, h => by
    simp only [List.mem_cons, not_or] at h
    have hne : ¬ c = sep := fun e => h.1 e.symm
    simp [Split, hne, Split_append_sep sep r cs h.2]

theorem replaceAllAux_single (c : Char) (new : GoString) :
    ∀ s : GoString, replaceAllAux [c] new 0 s = s.flatMap fun x => if x = c then new else [x]
  | [] => rfl
  | x :: xs => by
    by_cases h : x = c
    · subst h
      simp [replaceAllAux, List.isPrefixOf, replaceAllAux_single x new xs]
    · have h1 : ¬ c = x := fun e => h e.symm
      simp [replaceAllAux, List.isPrefixOf, h, h1, replaceAllAux_single c new xs]

theorem ReplaceAll_single (s : GoString) (c : Char) (new : GoString) :
    ReplaceAll s [c] new = s.flatMap fun x => if x = c then new else [x] :=
  replaceAllAux_single c new s

theorem flatMap_of_not_mem (c : Char) (new : GoString) :
    ∀ s : GoString, c ∉ s → (s.flatMap fun x => if x = c then new else [x]) = s
  | [], _ => rfl
  | x :: xs, h => by
    simp only [List.mem_cons, not_or] at h
    have hne : ¬ x = c := fun e => h.1 e.symm
    simp [List.flatMap_cons, hne, flatMap_of_not_mem c new xs h.2]

theorem collapseNewlinesAux_append (rest : GoString) :
    ∀ a : GoString, '\n' ∉ a →
      collapseNewlinesAux 0 (a ++ rest) = a ++ collapseNewlinesAux 0 rest
  | [], _ => rfl
  | c :: cs, h => by
    simp only [List.mem_cons, not_or] at h
    have hne : ¬ c = '\n' := fun e => h.1 e.symm
    simp [collapseNewlinesAux, hne, newlineRun, collapseNewlinesAux_append rest cs h.2]

theorem collapseNewlines_of_not_mem (s : GoString) (h : '\n' ∉ s) : collapseNewlines s = s := by
  have := collapseNewlinesAux_append [] s h
  simpa [collapseNewlines, collapseNewlinesAux, newlineRun] using this

/-! ## White space: membership and idempotence -/

theorem mem_collapseSpaces : ∀ (s : GoString) (x : Char), x ∈ collapseSpaces s →
    x = ' ' ∨ (x ∈ s ∧ isReSpace x = false)
  | [], x, h => by simp [collapseSpaces] at h
  | [c], x, h => by
    by_cases hc : isReSpace c = true
    · simp [collapseSpaces, hc] at h
      exact Or.inl h
    · simp [collapseSpaces, hc] at h
      subst h
      exact Or.inr ⟨by simp, by simpa using hc⟩
  | c :: d :: rest, x, h => by
    have ih := mem_collapseSpaces (d :: rest) x
    by_cases hc : isReSpace c = true
    · by_cases hd : isReSpace d = true
      · rw [collapseSpaces_ws_ws c d rest hc hd] at h
        rcases ih h with h1 | h1
        · exact Or.inl h1
        · exact Or.inr ⟨List.mem_cons_of_mem _ h1.1, h1.2⟩
      · rw [collapseSpaces_ws_other c d rest hc (by simpa using hd)] at h
        rcases List.mem_cons.1 h with h1 | h1
        · exact Or.inl h1
        · rcases ih h1 with h2 | h2
          · exact Or.inl h2
          · exact Or.inr ⟨List.mem_cons_of_mem _ h2.1, h2.2⟩
    · rw [collapseSpaces_other c d rest (by simpa using hc)] at h
      rcases List.mem_cons.1 h with h1 | h1
      · subst h1
        exact Or.inr ⟨by simp, by simpa using hc⟩
      · rcases ih h1 with h2 | h2
        · exact Or.inl h2
        · exact Or.inr ⟨List.mem_cons_of_mem _ h2.1, h2.2⟩

theorem newline_not_mem_collapseSpaces (s : GoString) : '\n' ∉ collapseSpaces s := by
  intro h
  rcases mem_collapseSpaces s '\n' h with h1 | h1
  · exact absurd h1 (by decide)
  · exact absurd h1.2 (by decide)

theorem mem_of_mem_TrimSpace (s : GoString) (x : Char) (h : x ∈ TrimSpace s) : x ∈ s := by
  rw [TrimSpace_eq] at h
  exact (List.dropWhile_sublist isSpace).subset ((List.rdropWhile_prefix _ _).subset h)

theorem newline_not_mem_cleanLine (s : GoString) : '\n' ∉ cleanLine s := fun h =>
  newline_not_mem_collapseSpaces s (mem_of_mem_TrimSpace _ _ h)

theorem collapseSpaces_cons_of_not_ws (d : Char) (rest : GoString) (hd : isReSpace d = false) :
    ∃ r, collapseSpaces (d :: rest) = d :: r := by
  cases rest with
  | nil => exact ⟨[], by simp [collapseSpaces, hd]⟩
  | cons e r => exact ⟨_, collapseSpaces_other d e r hd⟩

theorem collapseSpaces_idem : ∀ s : GoString, collapseSpaces (collapseSpaces s) = collapseSpaces s
  | [] => rfl
  | [c] => by
    by_cases hc : isReSpace c = true
    · simp [collapseSpaces, hc, isReSpace_space]
    · simp [collapseSpaces, hc]
  | c :: d :: rest => by
    have ih := collapseSpaces_idem (d :: rest)
    by_cases hc : isReSpace c = true
    · by_cases hd : isReSpace d = true
      · rw [collapseSpaces_ws_ws c d rest hc hd, ih]
      · have hd0 : isReSpace d = false := by simpa using hd
        rw [collapseSpaces_ws_other c d rest hc hd0]
        obtain ⟨r, hr⟩ := collapseSpaces_cons_of_not_ws d rest hd0
        rw [hr] at ih ⊢
        rw [collapseSpaces_ws_other ' ' d r isReSpace_space hd0, ih]
    · have hc0 : isReSpace c = false := by simpa using hc
      rw [collapseSpaces_other c d rest hc0]
      have hne : collapseSpaces (d :: rest) ≠ [] := by
        intro h
        exact absurd ((collapseSpaces_eq_nil _).1 h) (by simp)
      obtain ⟨y, ys, hy⟩ := List.exists_cons_of_ne_nil hne
      rw [hy] at ih ⊢
      rw [collapseSpaces_other c y ys hc0, ih]

theorem dropWhile_eq_self_of_head (p : Char → Bool) :
    ∀ s : GoString, (∀ x, s.head? = some x → p x = false) → s.dropWhile p = s
  | [], _ => rfl
  | c :: cs, h => by
    have := h c rfl
    simp [List.dropWhile_cons, this]

theorem head_dropWhile_false (p : Char → Bool) :
    ∀ (s : GoString) (x : Char), (s.dropWhile p).head? = some x → p x = false
  | [], x, h => by simp at h
  | c :: cs, x, h => by
    by_cases hc : p c = true
    · rw [List.dropWhile_cons, if_pos hc] at h
      exact head_dropWhile_false p cs x h
    · rw [List.dropWhile_cons, if_neg hc] at h
      simp only [List.head?_cons, Option.some.injEq] at h
      subst h
      simpa using hc

theorem head_of_isPrefix_ne_nil (a b : GoString) (h : a <+: b) (x : Char)
    (hx : a.head? = some x) : b.head? = some x := by
  obtain ⟨t, rfl⟩ := h
  cases a with
  | nil => simp at hx
  | cons c cs => simpa using hx

theorem head_TrimSpace (s : GoString) (x : Char) (h : (TrimSpace s).head? = some x) :
    isSpace x = false := by
  rw [TrimSpace_eq] at h
  exact head_dropWhile_false isSpace s x
    (head_of_isPrefix_ne_nil _ _ (List.rdropWhile_prefix _ _) x h)

theorem getLast_rdropWhile_false (p : Char → Bool) (s : GoString) (x : Char)
    (h : (s.rdropWhile p).getLast? = some x) : p x = false := by
  have hne : s.rdropWhile p ≠ [] := by
    intro e
    rw [e] at h
    simp at h
  have := List.rdropWhile_last_not (p := p) (l := s) hne
  rw [List.getLast?_eq_getLast _ hne, Option.some.injEq] at h
  rw [h] at this
  simpa using this

theorem getLast_TrimSpace (s : GoString) (x : Char) (h : (TrimSpace s).getLast? = some x) :
    isSpace x = false := by
  rw [TrimSpace_eq] at h
  exact getLast_rdropWhile_false isSpace _ x h

theorem rdropWhile_eq_self_of_getLast (p : Char → Bool) (s : GoString)
    (h : ∀ x, s.getLast? = some x → p x = false) : s.rdropWhile p = s := by
  rw [List.rdropWhile_eq_self_iff]
  intro hl
  have := h (s.getLast hl) (List.getLast?_eq_getLast _ hl)
  simp [this]

/-- A string is left alone by `TrimSpace` when neither its first nor its last
character is white space. -/
theorem TrimSpace_eq_self (s : GoString) (hh : ∀ x, s.head? = some x → isSpace x = false)
    (hl : ∀ x, s.getLast? = some x → isSpace x = false) : TrimSpace s = s := by
  rw [TrimSpace_eq, dropWhile_eq_self_of_head isSpace s hh,
    rdropWhile_eq_self_of_getLast isSpace s hl]

theorem TrimSpace_idem (s : GoString) : TrimSpace (TrimSpace s) = TrimSpace s :=
  TrimSpace_eq_self _ (head_TrimSpace s) (getLast_TrimSpace s)

theorem cleanLine_idem (s : GoString) : cleanLine (cleanLine s) = cleanLine s := by
  unfold cleanLine
  rw [collapseSpaces_TrimSpace (collapseSpaces s), collapseSpaces_idem]
  exact TrimSpace_idem _

/-! ## From the cleaned lines to the result -/

theorem GoodLine.no_newline {l : GoString} (h : GoodLine l) : '\n' ∉ l := by
  rw [← h.2]
  exact newline_not_mem_cleanLine l

theorem GoodLine.head {l : GoString} (h : GoodLine l) (x : Char) (hx : l.head? = some x) :
    isSpace x = false := by
  rw [← h.2] at hx
  exact head_TrimSpace _ x hx

theorem GoodLine.last {l : GoString} (h : GoodLine l) (x : Char) (hx : l.getLast? = some x) :
    isSpace x = false := by
  rw [← h.2] at hx
  exact getLast_TrimSpace _ x hx

theorem cleanLinesOf_good (text l : GoString) (h : l ∈ cleanLinesOf text) : GoodLine l := by
  simp only [cleanLinesOf, List.mem_filter, List.mem_map, ne_eq, decide_not, Bool.not_eq_true',
    decide_eq_false_iff_not] at h
  obtain ⟨⟨x, _, rfl⟩, hne⟩ := h
  exact ⟨hne, cleanLine_idem x⟩

theorem Join_cons_cons (a b : GoString) (rest : List GoString) (sep : GoString) :
    Join (a :: b :: rest) sep = a ++ sep ++ Join (b :: rest) sep := rfl

theorem Join_cons_exists (a : GoString) (rest : List GoString) (sep : GoString) :
    ∃ t, Join (a :: rest) sep = a ++ t := by
  cases rest with
  | nil => exact ⟨[], by simp [Join]⟩
  | cons b r => exact ⟨sep ++ Join (b :: r) sep, by simp [Join]⟩

theorem doubled_Join : ∀ lines : List GoString, (∀ l ∈ lines, '\n' ∉ l) →
    ReplaceAll (Join lines ['\n']) ['\n'] ['\n', '\n'] = joinParagraphs lines
  | [], _ => rfl
  | [a], h => by
    rw [ReplaceAll_single]
    exact flatMap_of_not_mem '\n' _ a (h a (by simp))
  | a :: b :: rest, h => by
    have ih := doubled_Join (b :: rest) (fun l hl => h l (List.mem_cons_of_mem _ hl))
    rw [ReplaceAll_single] at ih ⊢
    rw [joinParagraphs, Join_cons_cons, Join_cons_cons, List.flatMap_append, List.flatMap_append,
      ih, flatMap_of_not_mem '\n' _ a (h a (by simp))]
    rfl

theorem collapseNewlines_joinParagraphs : ∀ lines : List GoString, (∀ l ∈ lines, GoodLine l) →
    collapseNewlines (joinParagraphs lines) = joinParagraphs lines
  | [], _ => rfl
  | [a], h => collapseNewlines_of_not_mem a (h a (by simp)).no_newline
  | a :: b :: rest, h => by
    have ih := collapseNewlines_joinParagraphs (b :: rest)
      (fun l hl => h l (List.mem_cons_of_mem _ hl))
    have hb := h b (by simp)
    obtain ⟨t, ht⟩ := Join_cons_exists b rest ['\n', '\n']
    obtain ⟨y, ys, hy⟩ := List.exists_cons_of_ne_nil hb.1
    have hyn : ¬ y = '\n' := by
      intro e
      exact hb.no_newline (by rw [hy, e]; simp)
    unfold collapseNewlines joinParagraphs at ih ⊢
    rw [Join_cons_cons, List.append_assoc, collapseNewlinesAux_append _ a (h a (by simp)).no_newline]
    rw [ht, hy] at ih ⊢
    simp only [List.cons_append, List.nil_append, collapseNewlinesAux, if_true, hyn, if_false,
      newlineRun] at ih ⊢
    simp only [Nat.reduceAdd, Nat.reduceLeDiff, if_false, List.replicate, List.cons_append,
      List.nil_append, List.cons.injEq, true_and] at ih ⊢
    simpa using ih

theorem GoodLine.edged {l : GoString} (h : GoodLine l) : Edged l := ⟨h.1, h.head, h.last⟩

theorem Edged.append {a b : GoString} (ha : Edged a) (hb : Edged b) (mid : GoString) :
    Edged (a ++ mid ++ b) := by
  obtain ⟨x, xs, rfl⟩ := List.exists_cons_of_ne_nil ha.1
  refine ⟨by simp, ?_, ?_⟩
  · intro y hy
    exact ha.2.1 y (by simpa using hy)
  · intro y hy
    rw [List.getLast?_append_of_ne_nil _ hb.1] at hy
    exact hb.2.2 y hy

theorem Edged_Join : ∀ (lines : List GoString) (sep : GoString), lines ≠ [] →
    (∀ l ∈ lines, Edged l) → Edged (Join lines sep)
  | [], _, h, _ => absurd rfl h
  | [a], _, _, h => h a (by simp)
  | a :: b :: rest, sep, _, h => by
    rw [Join_cons_cons]
    exact (h a (by simp)).append
      (Edged_Join (b :: rest) sep (by simp) (fun l hl => h l (List.mem_cons_of_mem _ hl))) sep

theorem TrimSpace_joinParagraphs (lines : List GoString) (h : ∀ l ∈ lines, GoodLine l) :
    TrimSpace (joinParagraphs lines) = joinParagraphs lines := by
  by_cases hne : lines = []
  · subst hne; rfl
  · have := Edged_Join lines ['\n', '\n'] hne (fun l hl => (h l hl).edged)
    exact TrimSpace_eq_self _ this.2.1 this.2.2

/-- The last steps of `cleanTextPreserveLines` give the kept lines joined by one
blank line. -/
theorem assembleLines_eq (lines : List GoString) (h : ∀ l ∈ lines, GoodLine l) :
    assembleLines lines = joinParagraphs lines := by
  unfold assembleLines
  rw [doubled_Join lines (fun l hl => (h l hl).no_newline), collapseNewlines_joinParagraphs lines h,
    TrimSpace_joinParagraphs lines h]

theorem cleanTextPreserveLines_eq (html : GoString) :
    cleanTextPreserveLines html =
      joinParagraphs (cleanLinesOf (StripTags (markBlocks html))) := by
  have : cleanTextPreserveLines html = assembleLines (cleanLinesOf (StripTags (markBlocks html))) :=
    rfl
  rw [this, assembleLines_eq _ (fun l hl => cleanLinesOf_good _ l hl)]

theorem cleanLine_nil : cleanLine [] = [] := rfl

theorem cleanLinesOf_joinParagraphs : ∀ lines : List GoString, (∀ l ∈ lines, GoodLine l) →
    cleanLinesOf (joinParagraphs lines) = lines
  | [], _ => by decide
  | [a], h => by
    have ha := h a (by simp)
    have : joinParagraphs [a] = a := rfl
    rw [this, cleanLinesOf, Split_of_not_mem '\n' a ha.no_newline]
    simp [ha.2, ha.1]
  | a :: b :: rest, h => by
    have ih := cleanLinesOf_joinParagraphs (b :: rest)
      (fun l hl => h l (List.mem_cons_of_mem _ hl))
    have ha := h a (by simp)
    unfold cleanLinesOf joinParagraphs at ih ⊢
    rw [Join_cons_cons]
    have e : a ++ ['\n', '\n'] ++ Join (b :: rest) ['\n', '\n'] =
        a ++ '\n' :: ([] ++ '\n' :: Join (b :: rest) ['\n', '\n']) := by simp
    rw [e, Split_append_sep '\n' _ a ha.no_newline, Split_append_sep '\n' _ [] (by simp)]
    simp only [List.map_cons, List.filter_cons, ha.2, cleanLine_nil, ih]
    simp [ha.1]

/-! ## The text on either side of a removed child -/

/-- Collapsing distributes over a junction at which the white space runs of
the two sides do not meet. -/
theorem collapseSpaces_append : ∀ (x y : GoString),
    ((∀ c, x.getLast? = some c → isReSpace c = false) ∨
      (∀ d, y.head? = some d → isReSpace d = false)) →
    collapseSpaces (x ++ y) = collapseSpaces x ++ collapseSpaces y
  | [], _, _ => rfl
  | [c], [], _ => by simp [collapseSpaces]
  | [c], d :: rest, h => by
    by_cases hc : isReSpace c = true
    · have hd : isReSpace d = false := by
        rcases h with h | h
        · exact absurd (h c rfl) (by simp [hc])
        · exact h d rfl
      rw [List.singleton_append, collapseSpaces_ws_other c d rest hc hd]
      simp [collapseSpaces, hc]
    · have hc0 : isReSpace c = false := by simpa using hc
      rw [List.singleton_append, collapseSpaces_other c d rest hc0]
      simp [collapseSpaces, hc0]
  | c :: d :: xs, y, h => by
    have h1 : (∀ c, (d :: xs).getLast? = some c → isReSpace c = false) ∨
        (∀ d, y.head? = some d → isReSpace d = false) := by
      rcases h with h | h
      · left
        intro z hz
        exact h z (by rw [List.getLast?_cons_cons]; exact hz)
      · exact Or.inr h
    have ih := collapseSpaces_append (d :: xs) y h1
    simp only [List.cons_append] at ih ⊢
    by_cases hc : isReSpace c = true
    · by_cases hd : isReSpace d = true
      · rw [collapseSpaces_ws_ws c d _ hc hd, collapseSpaces_ws_ws c d _ hc hd, ih]
      · have hd0 : isReSpace d = false := by simpa using hd
        rw [collapseSpaces_ws_other c d _ hc hd0, collapseSpaces_ws_other c d _ hc hd0, ih]
        rfl
    · have hc0 : isReSpace c = false := by simpa using hc
      rw [collapseSpaces_other c d _ hc0, collapseSpaces_other c d _ hc0, ih]
      rfl

/-- A run of white space in front of a text that starts with another character
collapses to one space. -/
theorem collapseSpaces_run : ∀ (w : GoString) (d : Char) (rest : GoString), w ≠ [] →
    (∀ c ∈ w, isReSpace c = true) → isReSpace d = false →
    collapseSpaces (w ++ d :: rest) = ' ' :: collapseSpaces (d :: rest)
  | [], _, _, h, _, _ => absurd rfl h
  | [c], d, rest, _, hw, hd => collapseSpaces_ws_other c d rest (hw c (by simp)) hd
  | c :: c1 :: w, d, rest, _, hw, hd => by
    have ih := collapseSpaces_run (c1 :: w) d rest (by simp)
      (fun z hz => hw z (List.mem_cons_of_mem _ hz)) hd
    simp only [List.cons_append] at ih ⊢
    rw [collapseSpaces_ws_ws c c1 _ (hw c (by simp)) (hw c1 (by simp)), ih]

theorem not_isReSpace_of_not_isSpace (c : Char) (h : isSpace c = false) :
    isReSpace c = false := by
  cases hc : isReSpace c
  · rfl
  · rw [isReSpace_isSpace c hc] at h
    exact absurd h (by simp)

theorem head_of_trimmed (x : GoString) (ht : TrimSpace x = x) (c : Char)
    (h : x.head? = some c) : isSpace c = false :=
  head_TrimSpace x c (by rw [ht]; exact h)

theorem getLast_of_trimmed (x : GoString) (ht : TrimSpace x = x) (c : Char)
    (h : x.getLast? = some c) : isSpace c = false :=
  getLast_TrimSpace x c (by rw [ht]; exact h)

theorem head?_append_of_ne_nil (x y : GoString) (h : x ≠ []) : (x ++ y).head? = x.head? := by
  cases x with
  | nil => exact absurd rfl h
  | cons c cs => rfl

theorem getLast?_append_of_ne_nil (x y : GoString) (h : y ≠ []) :
    (x ++ y).getLast? = y.getLast? := by
  rw [List.getLast?_append]
  cases hy : y.getLast? with
  | none => exact absurd (List.getLast?_eq_none_iff.1 hy) h
  | some c => rfl

/-- Two clean texts that meet without white space are joined as they stand. -/
theorem cleanLine_append_direct (x y : GoString) (hx : x ≠ []) (hy : y ≠ [])
    (hxt : TrimSpace x = x) (hyt : TrimSpace y = y)
    (hxc : collapseSpaces x = x) (hyc : collapseSpaces y = y) :
    TrimSpace (collapseSpaces (x ++ y)) = x ++ y := by
  rw [collapseSpaces_append x y (Or.inl fun c hc =>
    not_isReSpace_of_not_isSpace c (getLast_of_trimmed x hxt c hc)), hxc, hyc]
  apply TrimSpace_eq_self
  · intro c hc
    rw [head?_append_of_ne_nil x y hx] at hc
    exact head_of_trimmed x hxt c hc
  · intro c hc
    rw [getLast?_append_of_ne_nil x y hy] at hc
    exact getLast_of_trimmed y hyt c hc

/-- Two clean texts with a run of white space between them are joined by one
space. -/
theorem cleanLine_append_run (x w y : GoString) (hx : x ≠ []) (hy : y ≠ [])
    (hw : w ≠ []) (hws : ∀ c ∈ w, isReSpace c = true)
    (hxt : TrimSpace x = x) (hyt : TrimSpace y = y)
    (hxc : collapseSpaces x = x) (hyc : collapseSpaces y = y) :
    TrimSpace (collapseSpaces (x ++ (w ++ y))) = x ++ ' ' :: y := by
  obtain ⟨d, rest, rfl⟩ := List.exists_cons_of_ne_nil hy
  have hd : isReSpace d = false :=
    not_isReSpace_of_not_isSpace d (head_of_trimmed _ hyt d rfl)
  rw [collapseSpaces_append x _ (Or.inl fun c hc =>
    not_isReSpace_of_not_isSpace c (getLast_of_trimmed x hxt c hc)), hxc,
    collapseSpaces_run w d rest hw hws hd, hyc]
  apply TrimSpace_eq_self
  · intro c hc
    rw [head?_append_of_ne_nil x _ hx] at hc
    exact head_of_trimmed x hxt c hc
  · intro c hc
    rw [getLast?_append_of_ne_nil x _ (by simp)] at hc
    rw [List.getLast?_cons_cons] at hc
    exact getLast_of_trimmed _ hyt c hc

/-- The text of an element whose children are a text, an element and a text:
the two texts, concatenated, collapsed and trimmed. -/
theorem selection_text_around (tag : GoString) (attr : List Attribute) (a b : GoString)
    (e : Node) (he : e.isElement = true) :
    (selectionToJSONElement
        (.mk .ElementNode tag attr [.mk .TextNode a [] [], e, .mk .TextNode b [] []])).Text =
      TrimSpace (collapseSpaces (a ++ b)) := by
  rw [selection_text, directTextOf_eq]
  have h1 : (Node.mk .TextNode a [] []).isElement = false := rfl
  have h2 : (Node.mk .TextNode b [] []).isElement = false := rfl
  simp [removeElementChildren, Node.children, List.filter_cons, h1, h2, he, nodeText,
    nodesText, Node.type, Node.data, Node.attr]

/-! ## `StripTags`: what is written comes from the input -/

theorem mem_cutAtLastLT : ∀ (chunk : GoString) (x : Char), x ∈ cutAtLastLT chunk → x ∈ chunk
  | [], x, h => by simp [cutAtLastLT] at h
  | c :: cs, x, h => by
    by_cases hc : c = '<' ∧ '<' ∉ cs
    · simp [cutAtLastLT, hc] at h
    · rw [cutAtLastLT, if_neg hc] at h
      rcases List.mem_cons.1 h with h1 | h1
      · exact h1 ▸ List.mem_cons_self _ _
      · exact List.mem_cons_of_mem _ (mem_cutAtLastLT cs x h1)

theorem advance_mem (st : StripState) (d : Context) (nread : Nat) (x : Char)
    (hx : x ∈ (advance st d nread).b ++ (advance st d nread).rest) : x ∈ st.b ++ st.rest := by
  unfold advance at hx
  split at hx
  · simp only [List.mem_append, emitChunk] at hx ⊢
    rcases hx with (hx | hx) | hx
    · exact Or.inl hx
    · right
      split at hx
      · exact List.mem_of_mem_take (mem_cutAtLastLT _ _ hx)
      · exact List.mem_of_mem_take hx
    · exact Or.inr (List.mem_of_mem_drop hx)
  · simp only [List.mem_append] at hx ⊢
    rcases hx with hx | hx
    · exact Or.inl hx
    · exact Or.inr (List.mem_of_mem_drop hx)

theorem stripStep_mem (st st1 : StripState) (h : stripStep st = some st1) (x : Char)
    (hx : x ∈ st1.b ++ st1.rest) : x ∈ st.b ++ st.rest := by
  unfold stripStep at h
  split at h
  · exact absurd h (by simp)
  · split at h
    · simp only [Option.some.injEq] at h
      subst h
      exact advance_mem st _ _ x hx
    · split at h
      · exact absurd h (by simp)
      · simp only [Option.some.injEq] at h
        subst h
        simp only [List.mem_append] at hx ⊢
        rcases hx with hx | hx
        · exact Or.inl hx
        · exact Or.inr (List.mem_of_mem_drop hx)

theorem stripRun_mem : ∀ (fuel : Nat) (st st1 : StripState), stripRun fuel st = some st1 →
    ∀ x, x ∈ st1.b ++ st1.rest → x ∈ st.b ++ st.rest
  | 0, _, _, h, _, _ => by simp [stripRun] at h
  | fuel + 1, st, st1, h, x, hx => by
    rw [stripRun] at h
    cases hs : stripStep st with
    | none =>
      rw [hs] at h
      simp only [Option.some.injEq] at h
      subst h
      exact hx
    | some st2 =>
      rw [hs] at h
      exact stripStep_mem st st2 hs x (stripRun_mem fuel st2 st1 h x hx)

/-- Every character that `StripTags` returns is a character of its input. -/
theorem mem_of_mem_StripTags (html : GoString) (x : Char) (h : x ∈ StripTags html) :
    x ∈ html := by
  cases hr : stripRun (4 * html.length + 4) ⟨Context.zero, html, [], true⟩ with
  | none =>
    simp only [StripTags, hr] at h
    exact h
  | some st =>
    simp only [StripTags, hr, stripFinish] at h
    have hm := stripRun_mem _ _ st hr x
    simp only [List.nil_append] at hm
    split at h
    · exact h
    · split at h
      · exact hm h
      · exact hm (List.mem_append_left _ h)

/-! ## `StripTags` on text without `<` -/

theorem tTextFrom_of_no_lt (c : Context) (n : Nat) :
    ∀ (k : Nat) (s : GoString), '<' ∉ s → tTextFrom c n k s = (c, n)
  | _, [], _ => rfl
  | _, [_], _ => rfl
  | k, x :: y :: rest, h => by
    simp only [List.mem_cons, not_or] at h
    have hx : x ≠ '<' := fun e => h.1 e.symm
    simp only [tTextFrom, ne_eq, hx, not_false_eq_true, if_true]
    exact tTextFrom_of_no_lt c n (k + 1) (y :: rest) (by simp [h.2.1, h.2.2])

/-- Text without `<` is returned unchanged. -/
theorem StripTags_of_no_lt (html : GoString) (h : '<' ∉ html) : StripTags html = html := by
  cases html with
  | nil => rfl
  | cons x xs =>
    have e : 4 * (x :: xs).length + 4 = (4 * (x :: xs).length + 2) + 1 + 1 := by omega
    unfold StripTags
    rw [e, stripRun]
    have hs : stripStep ⟨Context.zero, x :: xs, [], true⟩ =
        some ⟨Context.zero, [], x :: xs, true⟩ := by
      simp [stripStep, advance, emitChunk, scanState, Context.zero, transitionFunc, tText,
        tTextFrom_of_no_lt _ _ _ _ h]
    rw [hs]
    simp [stripRun, stripStep, stripFinish]

/-- The model agrees with the test table of the library (`TestStripTags` of
`html/template`). -/
theorem StripTags_library_examples :
    StripTags [] = [] ∧
    StripTags "Hello, World!".toList = "Hello, World!".toList ∧
    StripTags "foo&amp;bar".toList = "foo&amp;bar".toList ∧
    StripTags "Hello <a href=\"www.example.com/\">World</a>!".toList = "Hello World!".toList ∧
    StripTags "Foo <textarea>Bar</textarea> Baz".toList = "Foo Bar Baz".toList ∧
    StripTags "Foo <!-- Bar --> Baz".toList = "Foo  Baz".toList ∧
    StripTags "<".toList = "<".toList ∧
    StripTags "foo < bar".toList = "foo < bar".toList ∧
    StripTags "Foo<script type=\"text/javascript\">alert(1337)</script>Bar".toList =
      "FooBar".toList ∧
    StripTags "Foo<div title=\"1>2\">Bar".toList = "FooBar".toList ∧
    StripTags "I <3 Ponies!".toList = "I <3 Ponies!".toList ∧
    StripTags "<script>foo()</script>".toList = [] := by
  decide

/-- The body of a special element ends at the first `</` followed by the
element name in any letter case, whatever comes after the name. -/
theorem StripTags_special_end_examples :
    StripTags "<script>a</scriptx>b</script>c".toList = "bc".toList ∧
    StripTags "<title>a</TITLEs>b".toList = "ab".toList ∧
    StripTags "<textarea>x</textarea y>z".toList = "xz".toList := by
  decide

/-! ## `StripTags` terminates -/

theorem tTextFrom_skip (c : Context) (n k : Nat) (x y : Char) (rest : GoString)
    (hx : x ≠ '<') :
    tTextFrom c n k (x :: y :: rest) = tTextFrom c n (k + 1) (y :: rest) := by
  simp only [tTextFrom, ne_eq, hx, not_false_eq_true, if_true]

theorem tTextFrom_comment (c : Context) (n k : Nat) (y : Char) (rest : GoString)
    (h : commentStart.isPrefixOf ('<' :: y :: rest) = true) :
    tTextFrom c n k ('<' :: y :: rest) = (Context.of .stateHTMLCmt .elementNone, k + 4) := by
  simp only [tTextFrom, ne_eq, not_true_eq_false, if_false, h, if_true]

theorem tTextFrom_slash_end (c : Context) (n k : Nat) :
    tTextFrom c n k ['<', '/'] = (c, n) := by
  simp [tTextFrom, commentStart, List.isPrefixOf]

theorem tTextFrom_slash (c : Context) (n k : Nat) (z : Char) (zs : GoString) :
    tTextFrom c n k ('<' :: '/' :: z :: zs) =
      if (eatTagName (z :: zs)).1 ≠ 0 then
        (Context.of .stateTag .elementNone, k + 2 + (eatTagName (z :: zs)).1)
      else tTextFrom c n (k + 2) (z :: zs) := by
  simp [tTextFrom, commentStart, List.isPrefixOf]

theorem tTextFrom_open (c : Context) (n k : Nat) (y : Char) (rest : GoString)
    (h : commentStart.isPrefixOf ('<' :: y :: rest) = false) (hy : y ≠ '/') :
    tTextFrom c n k ('<' :: y :: rest) =
      if (eatTagName (y :: rest)).1 ≠ 0 then
        (Context.of .stateTag (eatTagName (y :: rest)).2, k + 1 + (eatTagName (y :: rest)).1)
      else tTextFrom c n (k + 1) (y :: rest) := by
  simp only [tTextFrom, ne_eq, not_true_eq_false, if_false, h, Bool.false_eq_true, hy]

theorem commentStart_slash (rest : GoString) :
    commentStart.isPrefixOf ('<' :: '/' :: rest) = false := by
  simp [commentStart, List.isPrefixOf]

theorem tTextFrom_progress (c : Context) (n : Nat) :
    ∀ (k : Nat) (s : GoString),
      (tTextFrom c n k s).2 = n ∨ k + 1 ≤ (tTextFrom c n k s).2
  | _, [] => Or.inl rfl
  | _, [_] => Or.inl rfl
  | k, x :: y :: rest => by
    by_cases hx : x = '<'
    · subst hx
      by_cases hc : commentStart.isPrefixOf ('<' :: y :: rest) = true
      · rw [tTextFrom_comment c n k y rest hc]
        exact Or.inr (by simp)
      · have hc0 : commentStart.isPrefixOf ('<' :: y :: rest) = false :=
          Bool.eq_false_iff.2 hc
        by_cases hy : y = '/'
        · subst hy
          cases rest with
          | nil => rw [tTextFrom_slash_end]; exact Or.inl rfl
          | cons z zs =>
            rw [tTextFrom_slash]
            split
            · exact Or.inr (by simp only; omega)
            · rcases tTextFrom_progress c n (k + 2) (z :: zs) with h | h
              · exact Or.inl h
              · exact Or.inr (by omega)
        · rw [tTextFrom_open c n k y rest hc0 hy]
          split
          · exact Or.inr (by simp only; omega)
          · rcases tTextFrom_progress c n (k + 1) (y :: rest) with h | h
            · exact Or.inl h
            · exact Or.inr (by omega)
    · rw [tTextFrom_skip c n k x y rest hx]
      rcases tTextFrom_progress c n (k + 1) (y :: rest) with h | h
      · exact Or.inl h
      · exact Or.inr (by omega)

theorem rank_le (c : Context) : rank c ≤ 3 := by
  unfold rank
  split
  · omega
  · cases scanState c <;> simp [rankState]

theorem rank_of_tag (e : Element) : rank (Context.of .stateTag e) = 0 := by
  simp [rank, Context.of, scanState, isInTag, rankState]

theorem rank_zero : rank Context.zero = 0 := by decide

/-- Outside an attribute value a transition consumes input or lowers the rank. -/
theorem transition_progress (c : Context) (s : GoString) (hs : s ≠ [])
    (hd : c.delim = .delimNone) :
    1 ≤ (transitionFunc (scanState c) c s).2 ∨
      rank (transitionFunc (scanState c) c s).1 < rank c := by
  have hlen : 1 ≤ s.length := by
    cases s with
    | nil => exact absurd rfl hs
    | cons x xs => simp
  have hr : rank c = rankState (scanState c) := by simp [rank, hd]
  rw [hr]
  cases hsc : scanState c with
  | stateText =>
    left
    simp only [transitionFunc, tText]
    rcases tTextFrom_progress c s.length 0 s with h | h
    · rw [h]; exact hlen
    · omega
  | stateTag =>
    left
    simp only [transitionFunc, tTag]
    split
    · exact hlen
    · split
      · simp
      · split
        · exact hlen
        · split
          · exact hlen
          · split <;> · simp only; omega
  | stateAttrName =>
    simp only [transitionFunc, tAttrName]
    split
    · exact Or.inl hlen
    · split
      · right
        simp [rank, hd, scanState, isInTag, rankState]
      · left
        rename_i i hi
        simp only [ne_eq, Decidable.not_not] at hi
        simp only [hi]
        exact hlen
  | stateAfterName =>
    simp only [transitionFunc, tAfterName]
    split
    · exact Or.inl hlen
    · split
      · right
        simp [rank, hd, scanState, isInTag, rankState]
      · left; simp
  | stateBeforeValue =>
    simp only [transitionFunc, tBeforeValue]
    split
    · exact Or.inl hlen
    · split
      · left; simp
      · split
        · left; simp
        · right
          simp [rank, rankState]
  | stateHTMLCmt =>
    left
    simp only [transitionFunc, tHTMLCmt]
    split
    · simp
    · exact hlen
  | stateRCDATA =>
    simp only [transitionFunc, tSpecialTagEnd]
    split
    · split
      · right
        simp [rank_zero, rankState]
      · exact Or.inl hlen
    · exact Or.inl hlen
  | stateAttr => exact Or.inl hlen
  | stateJS => exact Or.inl hlen
  | stateCSS => exact Or.inl hlen
  | stateError => exact Or.inl hlen

theorem advance_c (st : StripState) (d : Context) (n : Nat) : (advance st d n).c = d := by
  unfold advance; split <;> rfl

theorem advance_rest (st : StripState) (d : Context) (n : Nat) :
    (advance st d n).rest = st.rest.drop n := by
  unfold advance; split <;> rfl

theorem stripStep_measure (st st1 : StripState) (h : stripStep st = some st1) :
    stripMeasure st1 < stripMeasure st := by
  unfold stripStep at h
  split at h
  · exact absurd h (by simp)
  · rename_i hne
    have hlen : 1 ≤ st.rest.length := by
      cases hr : st.rest with
      | nil => exact absurd hr hne
      | cons x xs => simp
    split at h
    · rename_i hd
      simp only [Option.some.injEq] at h
      subst h
      simp only [stripMeasure, advance_c, advance_rest, List.length_drop]
      have h3 := rank_le (transitionFunc (scanState st.c) st.c st.rest).1
      rcases transition_progress st.c st.rest hne hd with hp | hp
      · omega
      · omega
    · rename_i hd
      split at h
      · exact absurd h (by simp)
      · simp only [Option.some.injEq] at h
        subst h
        simp only [stripMeasure, rank_of_tag, List.length_drop]
        have : rank st.c = 1 := by simp [rank, hd]
        omega

theorem stripRun_isSome : ∀ (fuel : Nat) (st : StripState), stripMeasure st < fuel →
    (stripRun fuel st).isSome = true
  | 0, _, h => absurd h (by omega)
  | fuel + 1, st, h => by
    rw [stripRun]
    cases hs : stripStep st with
    | none => rfl
    | some st1 =>
      have := stripStep_measure st st1 hs
      exact stripRun_isSome fuel st1 (by omega)

/-- The fuel of `StripTags` suffices: the loop is always left. -/
theorem stripRun_fuel (html : GoString) :
    (stripRun (4 * html.length + 4) ⟨Context.zero, html, [], true⟩).isSome = true :=
  stripRun_isSome _ _ (by simp [stripMeasure, rank_zero])

/-- More fuel does not change where the loop is left. -/
theorem stripRun_mono : ∀ (fuel extra : Nat) (st st1 : StripState),
    stripRun fuel st = some st1 → stripRun (fuel + extra) st = some st1
  | 0, _, _, _, h => by simp [stripRun] at h
  | fuel + 1, extra, st, st1, h => by
    have e : fuel + 1 + extra = (fuel + extra) + 1 := by omega
    rw [e, stripRun]
    rw [stripRun] at h
    cases hs : stripStep st with
    | none => rw [hs] at h; exact h
    | some st2 =>
      rw [hs] at h
      exact stripRun_mono fuel extra st2 st1 h

/-- Where the loop is left does not depend on the fuel, once it suffices. -/
theorem StripTags_of_run (html : GoString) (fuel : Nat) (st : StripState)
    (h : stripRun fuel ⟨Context.zero, html, [], true⟩ = some st) :
    StripTags html = stripFinish html st := by
  have h1 := stripRun_mono fuel (4 * html.length + 4) _ _ h
  cases hr : stripRun (4 * html.length + 4) ⟨Context.zero, html, [], true⟩ with
  | none =>
    have := stripRun_fuel html
    rw [hr] at this
    exact absurd this (by simp)
  | some st2 =>
    have h2 := stripRun_mono (4 * html.length + 4) fuel _ _ hr
    rw [Nat.add_comm] at h2
    rw [h1] at h2
    simp only [Option.some.injEq] at h2
    subst h2
    simp only [StripTags, hr]

/-! ## `StripTags` on plain markup -/

theorem stripRun_succ (fuel : Nat) (st st1 : StripState) (h : stripStep st = some st1) :
    stripRun (fuel + 1) st = stripRun fuel st1 := by
  rw [stripRun, h]

theorem stripRun_done (fuel : Nat) (st : StripState) (h : stripStep st = none) :
    stripRun (fuel + 1) st = some st := by
  rw [stripRun, h]

theorem eatTagNameRest_stop (s0 : Char) (r : GoString) (h1 : asciiAlphaNum s0 = false)
    (h2 : (s0 == ':' || s0 == '-') = false) :
    ∀ xs : GoString, xs.all asciiAlphaNum = true → eatTagNameRest (xs ++ s0 :: r) = xs.length
  | [], _ => by
    cases r with
    | nil => simp [eatTagNameRest, h1]
    | cons y ys =>
      have h2' := h2
      simp only [Bool.or_eq_false_iff] at h2'
      simp [eatTagNameRest, h1, h2'.1, h2'.2]
  | x :: xs, h => by
    simp only [List.all_cons, Bool.and_eq_true] at h
    have ih := eatTagNameRest_stop s0 r h1 h2 xs h.2
    cases hx : xs ++ s0 :: r with
    | nil => simp at hx
    | cons y ys =>
      rw [hx] at ih
      simp only [List.cons_append, hx, eatTagNameRest, h.1, if_true, ih, List.length_cons]
      omega

theorem isNameStop_spec (s0 : Char) (h : isNameStop s0 = true) :
    asciiAlphaNum s0 = false ∧ (s0 == ':' || s0 == '-') = false := by
  have h1 : (asciiAlphaNum s0 || s0 == ':' || s0 == '-') = false := by
    simpa [isNameStop] using h
  simp only [Bool.or_eq_false_iff] at h1
  exact ⟨h1.1.1, by simp [h1.1.2, h1.2]⟩

theorem eatTagNameRest_name (s0 : Char) (r : GoString) (h1 : asciiAlphaNum s0 = false)
    (h2 : (s0 == ':' || s0 == '-') = false) :
    ∀ xs : GoString, isNameRest xs = true → eatTagNameRest (xs ++ s0 :: r) = xs.length
  | [], _ => eatTagNameRest_stop s0 r h1 h2 [] rfl
  | [x], h => by
    have hx : asciiAlphaNum x = true := by simpa [isNameRest] using h
    have ih := eatTagNameRest_stop s0 r h1 h2 [] rfl
    simp only [List.nil_append] at ih
    simp only [List.singleton_append, eatTagNameRest, hx, if_true, ih, List.length_singleton,
      List.length_nil]
  | x :: y :: rest, h => by
    by_cases hx : asciiAlphaNum x = true
    · have h' : isNameRest (y :: rest) = true := by simpa [isNameRest, hx] using h
      have ih := eatTagNameRest_name s0 r h1 h2 (y :: rest) h'
      simp only [List.cons_append] at ih ⊢
      simp only [eatTagNameRest, hx, if_true, ih, List.length_cons]
      omega
    · have h' : ((x == ':' || x == '-') = true ∧ asciiAlphaNum y = true) ∧
          isNameRest rest = true := by
        simpa [isNameRest, hx] using h
      have ih := eatTagNameRest_name s0 r h1 h2 rest h'.2
      simp only [List.cons_append]
      simp only [eatTagNameRest, hx, Bool.false_eq_true, if_false, h'.1.1, h'.1.2,
        Bool.and_self, if_true, ih, List.length_cons]
      omega

theorem eatTagName_name (name : GoString) (hn : isTagName name = true) (s0 : Char)
    (hs : isNameStop s0 = true) (r : GoString) :
    eatTagName (name ++ s0 :: r) = (name.length, elementOfName name) := by
  cases name with
  | nil => simp [isTagName] at hn
  | cons x xs =>
    simp only [isTagName, Bool.and_eq_true] at hn
    obtain ⟨hx, hxs⟩ := hn
    have hstop := isNameStop_spec s0 hs
    have hr := eatTagNameRest_name s0 r hstop.1 hstop.2 xs hxs
    simp only [List.cons_append, eatTagName, hx, if_true, hr]
    have e : 1 + xs.length = (x :: xs).length := by simp; omega
    have e2 : (x :: (xs ++ s0 :: r)).take (1 + xs.length) = x :: xs := by
      rw [e, ← List.cons_append, List.take_left]
    rw [e2, e]

theorem tTextFrom_append (c : Context) (n : Nat) (y z : Char) (r : GoString) :
    ∀ (a : GoString) (k : Nat), '<' ∉ a →
      tTextFrom c n k (a ++ y :: z :: r) = tTextFrom c n (k + a.length) (y :: z :: r)
  | [], _, _ => rfl
  | x :: xs, k, h => by
    simp only [List.mem_cons, not_or] at h
    have hx : x ≠ '<' := fun e => h.1 e.symm
    cases hxs : xs ++ y :: z :: r with
    | nil => simp at hxs
    | cons w ws =>
      have ih := tTextFrom_append c n y z r xs (k + 1) h.2
      rw [hxs] at ih
      rw [List.cons_append, hxs, tTextFrom_skip c n k x w ws hx, ih, List.length_cons]
      congr 1
      omega

theorem cutAtLastLT_append (w : GoString) (hw : '<' ∉ w) :
    ∀ a : GoString, '<' ∉ a → cutAtLastLT (a ++ '<' :: w) = a
  | [], _ => by simp [cutAtLastLT, hw]
  | x :: xs, h => by
    simp only [List.mem_cons, not_or] at h
    have hx : ¬ x = '<' := fun e => h.1 e.symm
    simp [cutAtLastLT, hx, cutAtLastLT_append w hw xs h.2]

theorem cutAtLastLT_of_no_lt : ∀ a : GoString, '<' ∉ a → cutAtLastLT a = a
  | [], _ => rfl
  | x :: xs, h => by
    simp only [List.mem_cons, not_or] at h
    have hx : ¬ x = '<' := fun e => h.1 e.symm
    simp [cutAtLastLT, hx, cutAtLastLT_of_no_lt xs h.2]

theorem PlainTag.render_eq (t : PlainTag) (r : GoString) :
    t.render ++ r = '<' :: (t.opening ++ (t.tail ++ '>' :: r)) := by
  simp [PlainTag.render, PlainTag.opening]

theorem asciiAlphaNum_ne_lt (x : Char) (h : asciiAlphaNum x = true) : x ≠ '<' := by
  intro e
  subst e
  exact absurd h (by decide)

theorem asciiAlpha_alphaNum (x : Char) (h : asciiAlpha x = true) : asciiAlphaNum x = true := by
  simp [asciiAlphaNum, h]

theorem isNameRest_mem : ∀ (xs : GoString), isNameRest xs = true →
    ∀ c ∈ xs, isNameStop c = false
  | [], _, c, hc => by simp at hc
  | [x], h, c, hc => by
    have hx : asciiAlphaNum x = true := by simpa [isNameRest] using h
    simp only [List.mem_singleton] at hc
    subst hc
    simp [isNameStop, hx]
  | x :: y :: rest, h, c, hc => by
    by_cases hx : asciiAlphaNum x = true
    · have h' : isNameRest (y :: rest) = true := by simpa [isNameRest, hx] using h
      rcases List.mem_cons.1 hc with e | e
      · subst e
        simp [isNameStop, hx]
      · exact isNameRest_mem (y :: rest) h' c e
    · have h' : ((x == ':' || x == '-') = true ∧ asciiAlphaNum y = true) ∧
          isNameRest rest = true := by
        simpa [isNameRest, hx] using h
      rcases List.mem_cons.1 hc with e | e
      · subst e
        have := h'.1.1
        simp only [Bool.or_eq_true] at this
        rcases this with t | t <;> simp [isNameStop, t]
      · rcases List.mem_cons.1 e with e1 | e1
        · subst e1
          simp [isNameStop, h'.1.2]
        · exact isNameRest_mem rest h'.2 c e1

/-- A tag name starts with a letter, and none of its characters is a tag
delimiter. -/
theorem isTagName_all (name : GoString) (h : isTagName name = true) :
    (∃ x xs, name = x :: xs ∧ asciiAlphaNum x = true) ∧
      ∀ x ∈ name, isNameStop x = false := by
  cases name with
  | nil => simp [isTagName] at h
  | cons x xs =>
    simp only [isTagName, Bool.and_eq_true] at h
    have hx := asciiAlpha_alphaNum x h.1
    refine ⟨⟨x, xs, rfl, hx⟩, ?_⟩
    intro y hy
    rcases List.mem_cons.1 hy with e | e
    · subst e
      simp [isNameStop, hx]
    · exact isNameRest_mem xs h.2 y e

theorem PlainTag.wf_name (t : PlainTag) (h : t.wf = true) : isTagName t.name = true := by
  simp only [PlainTag.wf, Bool.and_eq_true] at h
  exact h.1.1.1

theorem PlainTag.wf_lead (t : PlainTag) (h : t.wf = true) : isWhite t.lead = true := by
  simp only [PlainTag.wf, Bool.and_eq_true] at h
  exact h.1.1.2

theorem PlainTag.wf_attrs (t : PlainTag) (h : t.wf = true) : attrsOk t.attrs = true := by
  simp only [PlainTag.wf, Bool.and_eq_true] at h
  exact h.1.2

theorem PlainTag.plain_wf (t : PlainTag) (h : t.plain = true) : t.wf = true := by
  simp only [PlainTag.plain, Bool.and_eq_true] at h
  exact h.1

theorem PlainTag.plain_element (t : PlainTag) (h : t.plain = true) :
    t.element = .elementNone := by
  simp only [PlainTag.plain, Bool.and_eq_true, beq_iff_eq] at h
  exact h.2

theorem PlainTag.ok_plain (t : PlainTag) (h : t.ok = true) : t.plain = true := by
  simp only [PlainTag.ok, Bool.and_eq_true] at h
  exact h.1

theorem PlainTag.ok_tail (t : PlainTag) (h : t.ok = true) : '<' ∉ t.tail := by
  simp only [PlainTag.ok, Bool.and_eq_true, Bool.not_eq_true', List.elem_eq_mem,
    decide_eq_false_iff_not] at h
  exact h.2

theorem PlainTag.ok_wf (t : PlainTag) (h : t.ok = true) : t.wf = true :=
  t.plain_wf (t.ok_plain h)

theorem PlainTag.ok_element (t : PlainTag) (h : t.ok = true) :
    t.element = .elementNone :=
  t.plain_element (t.ok_plain h)

theorem PlainTag.opening_no_lt (t : PlainTag) (h : t.wf = true) : '<' ∉ t.opening := by
  intro hm
  have hn := (isTagName_all t.name (t.wf_name h)).2
  simp only [PlainTag.opening, List.mem_append] at hm
  rcases hm with hm | hm
  · cases hc : t.closing <;> simp [hc] at hm
  · exact absurd (hn _ hm) (by decide)

/-- The head of what follows the name of a tag ends the name. -/
theorem PlainTag.tail_stop (t : PlainTag) (h : t.wf = true) (r : GoString) :
    ∃ s0 r1, t.tail ++ '>' :: r = s0 :: r1 ∧ isNameStop s0 = true := by
  simp only [PlainTag.wf, Bool.and_eq_true] at h
  have hs := h.2
  cases ht : t.tail with
  | nil => exact ⟨'>', r, rfl, by decide⟩
  | cons x xs =>
    rw [ht] at hs
    exact ⟨x, xs ++ '>' :: r, rfl, by simpa [headStops] using hs⟩

/-- `tText` in front of a tag: it stops after the tag name. -/
theorem tTextFrom_plain (c : Context) (n : Nat) (t : PlainTag) (h : t.wf = true) (r : GoString)
    (k : Nat) :
    tTextFrom c n k ('<' :: (t.opening ++ (t.tail ++ '>' :: r))) =
      (Context.of .stateTag t.element, k + 1 + t.opening.length) := by
  obtain ⟨s0, r1, hs, hstop⟩ := t.tail_stop h r
  have hname := t.wf_name h
  have he := eatTagName_name t.name hname s0 hstop r1
  obtain ⟨x, xs, hx, hxa⟩ := (isTagName_all t.name hname).1
  rw [hs]
  cases hc : t.closing with
  | true =>
    simp only [PlainTag.opening, PlainTag.element, hc, if_true, List.cons_append,
      List.nil_append]
    rw [hx] at he ⊢
    rw [List.cons_append] at he ⊢
    rw [tTextFrom_slash, he]
    simp
    omega
  | false =>
    simp only [PlainTag.opening, PlainTag.element, hc, Bool.false_eq_true, if_false,
      List.nil_append]
    rw [hx] at he ⊢
    rw [List.cons_append] at he ⊢
    have hy : x ≠ '/' := by
      intro e
      subst e
      exact absurd hxa (by decide)
    have hcm : commentStart.isPrefixOf ('<' :: x :: (xs ++ s0 :: r1)) = false := by
      have : x ≠ '!' := by
        intro e
        subst e
        exact absurd hxa (by decide)
      simp [commentStart, List.isPrefixOf, this.symm]
    rw [tTextFrom_open c n k x _ hcm hy, he]
    simp

/-- The iteration that reads the text in front of a tag writes the text and
stops after the tag name. -/
theorem stripStep_text_wf (a : GoString) (ha : '<' ∉ a) (t : PlainTag) (h : t.wf = true)
    (r b : GoString) (allText : Bool) :
    stripStep ⟨Context.zero, a ++ (t.render ++ r), b, allText⟩ =
      some ⟨Context.of .stateTag t.element, t.tail ++ '>' :: r, b ++ a, allText⟩ := by
  obtain ⟨s0, r1, hs, -⟩ := t.tail_stop h r
  obtain ⟨x, xs, hx⟩ : ∃ x xs, t.opening ++ (t.tail ++ '>' :: r) = x :: xs := by
    rw [hs]
    cases ho : t.opening with
    | nil => exact ⟨s0, r1, rfl⟩
    | cons y ys => exact ⟨y, ys ++ s0 :: r1, rfl⟩
  have hne : a ++ (t.render ++ r) ≠ [] := by
    rw [t.render_eq]
    simp
  have hT : tText Context.zero (a ++ (t.render ++ r)) =
      (Context.of .stateTag t.element, a.length + 1 + t.opening.length) := by
    unfold tText
    rw [t.render_eq, hx, tTextFrom_append _ _ '<' x xs a 0 ha, ← hx, tTextFrom_plain _ _ t h]
    simp
  have htake : (a ++ (t.render ++ r)).take (a.length + 1 + t.opening.length) =
      a ++ '<' :: t.opening := by
    rw [t.render_eq]
    have e : a ++ '<' :: (t.opening ++ (t.tail ++ '>' :: r)) =
        (a ++ '<' :: t.opening) ++ (t.tail ++ '>' :: r) := by simp
    have e2 : a.length + 1 + t.opening.length = (a ++ '<' :: t.opening).length := by
      simp; omega
    rw [e, e2, List.take_left]
  have hdrop : (a ++ (t.render ++ r)).drop (a.length + 1 + t.opening.length) =
      t.tail ++ '>' :: r := by
    rw [t.render_eq]
    have e : a ++ '<' :: (t.opening ++ (t.tail ++ '>' :: r)) =
        (a ++ '<' :: t.opening) ++ (t.tail ++ '>' :: r) := by simp
    have e2 : a.length + 1 + t.opening.length = (a ++ '<' :: t.opening).length := by
      simp; omega
    rw [e, e2, List.drop_left]
  have hcut := cutAtLastLT_append t.opening (t.opening_no_lt h) a ha
  simp only [stripStep, hne, if_false, Context.zero, if_true, scanState, transitionFunc]
  simp only [Context.zero] at hT
  simp [hT, advance, emitChunk, Context.of, htake, hdrop, hcut]

theorem stripStep_text_tag (a : GoString) (ha : '<' ∉ a) (t : PlainTag) (h : t.plain = true)
    (r b : GoString) (allText : Bool) :
    stripStep ⟨Context.zero, a ++ (t.render ++ r), b, allText⟩ =
      some ⟨Context.of .stateTag .elementNone, t.tail ++ '>' :: r, b ++ a, allText⟩ := by
  rw [stripStep_text_wf a ha t (t.plain_wf h) r b allText, t.plain_element h]

/-! ## The scanner inside a tag -/

theorem eatWhiteSpace_of_not (x : Char) (r : GoString) (h : isReSpace x = false) :
    eatWhiteSpace (x :: r) = 0 := by
  simp [eatWhiteSpace, List.takeWhile, h]

theorem eatWhiteSpace_of_ws (x : Char) (r : GoString) (h : isReSpace x = true) :
    eatWhiteSpace (x :: r) = eatWhiteSpace r + 1 := by
  simp [eatWhiteSpace, List.takeWhile, h]

theorem isWhite_cons (x : Char) (w : GoString) (h : isWhite (x :: w) = true) :
    isReSpace x = true ∧ isWhite w = true := by
  simpa [isWhite] using h

theorem eatWhiteSpace_append : ∀ (w : GoString), isWhite w = true → ∀ (y : Char) (r : GoString),
    isReSpace y = false → eatWhiteSpace (w ++ y :: r) = w.length
  | [], _, y, r, hy => eatWhiteSpace_of_not y r hy
  | x :: w, hw, y, r, hy => by
    obtain ⟨hx, hw1⟩ := isWhite_cons x w hw
    rw [List.cons_append, eatWhiteSpace_of_ws x _ hx, eatWhiteSpace_append w hw1 y r hy]
    rfl

theorem isAttrNameChar_spec (x : Char) (h : isAttrNameChar x = true) :
    (isReSpace x || x == '=' || x == '>') = false ∧
      (x == Char.ofNat 0x27 || x == Char.ofNat 0x22 || x == '<') = false := by
  have h1 : (isReSpace x || x == '=' || x == '>' || isQuote x || x == '<') = false := by
    simpa [isAttrNameChar] using h
  simp only [Bool.or_eq_false_iff, isQuote] at h1
  obtain ⟨⟨⟨⟨a, b⟩, c⟩, ⟨d, e⟩⟩, f⟩ := h1
  simp [a, b, c, d, e, f]

theorem eatAttrName_name (e : Char) (r : GoString)
    (he : (isReSpace e || e == '=' || e == '>') = true) :
    ∀ name : GoString, name.all isAttrNameChar = true →
      eatAttrName (name ++ e :: r) = some name.length
  | [], _ => by simp [eatAttrName, he]
  | x :: xs, h => by
    simp only [List.all_cons, Bool.and_eq_true] at h
    obtain ⟨h1, h2⟩ := isAttrNameChar_spec x h.1
    rw [List.cons_append, eatAttrName, if_neg (by rw [h1]; simp), if_neg (by rw [h2]; simp),
      eatAttrName_name e r he xs h.2]
    rfl

/-- `tTag` at an attribute name that is followed by more input. -/
theorem tTag_name (c : Context) (x : Char) (xs : GoString)
    (hn : (x :: xs).all isAttrNameChar = true) (e : Char) (r : GoString)
    (he : (isReSpace e || e == '=' || e == '>') = true) :
    tTag c (x :: xs ++ e :: r) = (Context.of .stateAfterName c.element, xs.length + 1) := by
  have hx : isAttrNameChar x = true := by
    simp only [List.all_cons, Bool.and_eq_true] at hn
    exact hn.1
  obtain ⟨h1, -⟩ := isAttrNameChar_spec x hx
  simp only [Bool.or_eq_false_iff, beq_eq_false_iff_ne] at h1
  have hname := eatAttrName_name e r he (x :: xs) hn
  rw [List.cons_append] at hname
  simp only [tTag, List.cons_append, eatWhiteSpace_of_not x _ h1.1.1, List.drop_zero, hname]
  simp [h1.2]

theorem stripStep_tag_name (el : Element) (x : Char) (xs : GoString)
    (hn : (x :: xs).all isAttrNameChar = true) (e : Char) (r : GoString)
    (he : (isReSpace e || e == '=' || e == '>') = true) (b : GoString) (allText : Bool) :
    stripStep ⟨Context.of .stateTag el, x :: xs ++ e :: r, b, allText⟩ =
      some ⟨Context.of .stateAfterName el, e :: r, b, false⟩ := by
  have ht := tTag_name (Context.of .stateTag el) x xs hn e r he
  have hd : (x :: xs ++ e :: r).drop (xs.length + 1) = e :: r := by
    have : xs.length + 1 = (x :: xs).length := rfl
    rw [this, List.drop_left]
  simp only [Context.of, List.cons_append] at ht hd
  simp [stripStep, Context.of, scanState, isInTag, transitionFunc, ht, advance, hd]

theorem tAfterName_white (c : Context) (w : GoString) (hw : isWhite w = true) (y : Char)
    (r : GoString) (hy : isReSpace y = false) :
    tAfterName c (w ++ y :: r) =
      if y ≠ '=' then (⟨.stateTag, c.delim, c.element⟩, w.length)
      else (⟨.stateBeforeValue, c.delim, c.element⟩, w.length + 1) := by
  simp only [tAfterName, eatWhiteSpace_append w hw y r hy, List.drop_left]

theorem stripStep_afterName (el : Element) (w : GoString) (hw : isWhite w = true) (y : Char) (r : GoString)
    (hy : isReSpace y = false) (hne : y ≠ '=') (b : GoString) (allText : Bool) :
    stripStep ⟨Context.of .stateAfterName el, w ++ y :: r, b, allText⟩ =
      some ⟨Context.of .stateTag el, y :: r, b, false⟩ := by
  have ht := tAfterName_white (Context.of .stateAfterName el) w hw y r hy
  rw [if_pos hne] at ht
  simp only [Context.of] at ht
  simp [stripStep, Context.of, scanState, isInTag, transitionFunc, ht, advance]

theorem stripStep_afterName_eq (el : Element) (w : GoString) (hw : isWhite w = true) (r b : GoString)
    (allText : Bool) :
    stripStep ⟨Context.of .stateAfterName el, w ++ '=' :: r, b, allText⟩ =
      some ⟨Context.of .stateBeforeValue el, r, b, false⟩ := by
  have ht := tAfterName_white (Context.of .stateAfterName el) w hw '=' r (by decide)
  rw [if_neg (by simp)] at ht
  have hd : (w ++ '=' :: r).drop (w.length + 1) = r := by
    have e : w ++ '=' :: r = (w ++ ['=']) ++ r := by simp
    have e2 : w.length + 1 = (w ++ ['=']).length := by simp
    rw [e, e2, List.drop_left]
  simp only [Context.of] at ht
  simp [stripStep, Context.of, scanState, isInTag, transitionFunc, ht, advance, hd]

theorem tBeforeValue_white (c : Context) (w : GoString) (hw : isWhite w = true) (y : Char)
    (r : GoString) (hy : isReSpace y = false) :
    tBeforeValue c (w ++ y :: r) =
      if y = Char.ofNat 0x27 then (⟨.stateAttr, .delimSingleQuote, c.element⟩, w.length + 1)
      else if y = Char.ofNat 0x22 then (⟨.stateAttr, .delimDoubleQuote, c.element⟩, w.length + 1)
      else (⟨.stateAttr, .delimSpaceOrTagEnd, c.element⟩, w.length) := by
  simp only [tBeforeValue, eatWhiteSpace_append w hw y r hy, List.drop_left]

theorem drop_white_succ (w : GoString) (y : Char) (r : GoString) :
    (w ++ y :: r).drop (w.length + 1) = r := by
  have e : w ++ y :: r = (w ++ [y]) ++ r := by simp
  have e2 : w.length + 1 = (w ++ [y]).length := by simp
  rw [e, e2, List.drop_left]

/-- The delimiter that a quote opens. -/
theorem isQuote_cases (q : Char) (h : isQuote q = true) :
    q = Char.ofNat 0x22 ∨ q = Char.ofNat 0x27 := by
  simpa [isQuote] using h

theorem stripStep_beforeValue_double (el : Element) (w : GoString) (hw : isWhite w = true) (r b : GoString)
    (allText : Bool) :
    stripStep ⟨Context.of .stateBeforeValue el, w ++ Char.ofNat 0x22 :: r, b, allText⟩ =
      some ⟨⟨.stateAttr, .delimDoubleQuote, el⟩, r, b, false⟩ := by
  have ht := tBeforeValue_white (Context.of .stateBeforeValue el) w hw
    (Char.ofNat 0x22) r (by decide)
  rw [if_neg (by decide), if_pos rfl] at ht
  simp only [Context.of] at ht
  simp [stripStep, Context.of, scanState, isInTag, transitionFunc, ht, advance,
    drop_white_succ]

theorem stripStep_beforeValue_single (el : Element) (w : GoString) (hw : isWhite w = true) (r b : GoString)
    (allText : Bool) :
    stripStep ⟨Context.of .stateBeforeValue el, w ++ Char.ofNat 0x27 :: r, b, allText⟩ =
      some ⟨⟨.stateAttr, .delimSingleQuote, el⟩, r, b, false⟩ := by
  have ht := tBeforeValue_white (Context.of .stateBeforeValue el) w hw
    (Char.ofNat 0x27) r (by decide)
  rw [if_pos rfl] at ht
  simp only [Context.of] at ht
  simp [stripStep, Context.of, scanState, isInTag, transitionFunc, ht, advance,
    drop_white_succ]

theorem stripStep_beforeValue_unquoted (el : Element) (w : GoString) (hw : isWhite w = true) (y : Char)
    (r : GoString) (hy : isReSpace y = false) (hq : isQuote y = false) (b : GoString)
    (allText : Bool) :
    stripStep ⟨Context.of .stateBeforeValue el, w ++ y :: r, b, allText⟩ =
      some ⟨⟨.stateAttr, .delimSpaceOrTagEnd, el⟩, y :: r, b, false⟩ := by
  have ht := tBeforeValue_white (Context.of .stateBeforeValue el) w hw y r hy
  simp only [isQuote, Bool.or_eq_false_iff, beq_eq_false_iff_ne] at hq
  rw [if_neg hq.2, if_neg hq.1] at ht
  simp only [Context.of] at ht
  simp [stripStep, Context.of, scanState, isInTag, transitionFunc, ht, advance]

theorem IndexAny_append (chars : GoString) (e : Char) (r : GoString) (he : e ∈ chars) :
    ∀ v : GoString, (∀ c ∈ v, c ∉ chars) → IndexAny (v ++ e :: r) chars = some v.length
  | [], _ => by simp [IndexAny, he]
  | x :: xs, h => by
    have hx : x ∉ chars := h x (List.mem_cons_self _ _)
    rw [List.cons_append, IndexAny, if_neg hx,
      IndexAny_append chars e r he xs (fun c hc => h c (List.mem_cons_of_mem _ hc))]
    rfl

theorem stripStep_value_double (el : Element) (v : GoString) (hv : Char.ofNat 0x22 ∉ v) (r b : GoString)
    (allText : Bool) :
    stripStep ⟨⟨.stateAttr, .delimDoubleQuote, el⟩, v ++ Char.ofNat 0x22 :: r, b,
        allText⟩ =
      some ⟨Context.of .stateTag el, r, b, allText⟩ := by
  have hi := IndexAny_append [Char.ofNat 0x22] (Char.ofNat 0x22) r (by simp) v (by
    intro c hc hm
    simp only [List.mem_singleton] at hm
    exact hv (hm ▸ hc))
  simp [stripStep, delimEnds, hi, drop_white_succ]

theorem stripStep_value_single (el : Element) (v : GoString) (hv : Char.ofNat 0x27 ∉ v) (r b : GoString)
    (allText : Bool) :
    stripStep ⟨⟨.stateAttr, .delimSingleQuote, el⟩, v ++ Char.ofNat 0x27 :: r, b,
        allText⟩ =
      some ⟨Context.of .stateTag el, r, b, allText⟩ := by
  have hi := IndexAny_append [Char.ofNat 0x27] (Char.ofNat 0x27) r (by simp) v (by
    intro c hc hm
    simp only [List.mem_singleton] at hm
    exact hv (hm ▸ hc))
  simp [stripStep, delimEnds, hi, drop_white_succ]

theorem char_of_toNat (c : Char) (n : Nat) (h : c.toNat = n) : Char.ofNat n = c := by
  rw [← h]
  exact Char.ofNat_toNat c

/-- The characters that end an unquoted value are white space and `>`. -/
theorem mem_delimEnds_space (e : Char) :
    e ∈ delimEnds .delimSpaceOrTagEnd ↔ (isReSpace e = true ∨ e = '>') := by
  constructor
  · intro h
    simp only [delimEnds, List.mem_cons, List.mem_singleton, List.mem_nil_iff, or_false] at h
    rcases h with h | h | h | h | h | h
    · exact Or.inl (h ▸ by decide)
    · exact Or.inl (h ▸ by decide)
    · exact Or.inl (h ▸ by decide)
    · exact Or.inl (h ▸ by decide)
    · exact Or.inl (h ▸ by decide)
    · exact Or.inr h
  · rintro (h | h)
    · simp only [isReSpace, Bool.or_eq_true, beq_iff_eq] at h
      simp only [delimEnds, List.mem_cons, List.mem_singleton, List.mem_nil_iff, or_false]
      rcases h with (((h | h) | h) | h) | h
      · exact Or.inr (Or.inl (char_of_toNat e _ h).symm)
      · exact Or.inr (Or.inr (Or.inl (char_of_toNat e _ h).symm))
      · exact Or.inr (Or.inr (Or.inr (Or.inl (char_of_toNat e _ h).symm)))
      · exact Or.inr (Or.inr (Or.inr (Or.inr (Or.inl (char_of_toNat e _ h).symm))))
      · exact Or.inl (char_of_toNat e _ h).symm
    · subst h
      simp [delimEnds]

theorem isUnquotedChar_spec (c : Char) (h : isUnquotedChar c = true) :
    isReSpace c = false ∧ c ≠ '>' ∧ c ≠ '<' := by
  have h1 : (isReSpace c || c == '>' || c == '<') = false := by
    simpa [isUnquotedChar] using h
  simp only [Bool.or_eq_false_iff, beq_eq_false_iff_ne] at h1
  exact ⟨h1.1.1, h1.1.2, h1.2⟩

theorem stripStep_value_unquoted (el : Element) (v : GoString) (hv : v.all isUnquotedChar = true) (e : Char)
    (he : isReSpace e = true ∨ e = '>') (r b : GoString) (allText : Bool) :
    stripStep ⟨⟨.stateAttr, .delimSpaceOrTagEnd, el⟩, v ++ e :: r, b, allText⟩ =
      some ⟨Context.of .stateTag el, e :: r, b, allText⟩ := by
  have hi := IndexAny_append (delimEnds .delimSpaceOrTagEnd) e r
    ((mem_delimEnds_space e).2 he) v (by
      intro c hc hm
      have hcu := isUnquotedChar_spec c (List.all_eq_true.1 hv c hc)
      rcases (mem_delimEnds_space c).1 hm with h | h
      · rw [hcu.1] at h
        exact absurd h (by simp)
      · exact hcu.2.1 h)
  simp [stripStep, hi, List.drop_left]

/-- White space in front of the input of `tTag` only shifts the offset. -/
theorem tTag_white (c : Context) (x : Char) (s : GoString) (hx : isReSpace x = true) :
    tTag c (x :: s) = ((tTag c s).1, (tTag c s).2 + 1) := by
  simp only [tTag, eatWhiteSpace_of_ws x s hx, List.drop_succ_cons, List.length_cons]
  repeat' split
  all_goals first
    | rfl
    | (simp only [Prod.mk.injEq, true_and]; omega)

theorem stripStep_tag_white (el : Element) (x : Char) (s : GoString) (hx : isReSpace x = true) (hs : s ≠ [])
    (b : GoString) (allText : Bool) :
    stripStep ⟨Context.of .stateTag el, x :: s, b, allText⟩ =
      stripStep ⟨Context.of .stateTag el, s, b, allText⟩ := by
  simp [stripStep, hs, Context.of, scanState, isInTag, transitionFunc, tTag_white _ x s hx,
    advance]

theorem stripRun_tag_white (el : Element) : ∀ (w : GoString), isWhite w = true → ∀ (s : GoString), s ≠ [] →
    ∀ (b : GoString) (allText : Bool) (fuel : Nat),
      stripRun fuel ⟨Context.of .stateTag el, w ++ s, b, allText⟩ =
        stripRun fuel ⟨Context.of .stateTag el, s, b, allText⟩
  | [], _, _, _, _, _, _ => rfl
  | x :: w, hw, s, hs, b, allText, fuel => by
    obtain ⟨hx, hw1⟩ := isWhite_cons x w hw
    rw [← stripRun_tag_white el w hw1 s hs b allText fuel]
    cases fuel with
    | zero => rfl
    | succ n =>
      have hne : w ++ s ≠ [] := by simp [hs]
      obtain ⟨st1, h1⟩ : ∃ st1, stripStep ⟨Context.of .stateTag el, w ++ s, b,
          allText⟩ = some st1 := by
        simp [stripStep, hne, Context.of]
      rw [List.cons_append, stripRun_succ _ _ _ h1,
        stripRun_succ _ _ _ ((stripStep_tag_white el x (w ++ s) hx hne b allText).trans h1)]

theorem tTag_gt (c : Context) (r : GoString) :
    tTag c ('>' :: r) = (Context.of (elementContentType c.element) c.element, 1) := by
  simp [tTag, eatWhiteSpace_of_not '>' r (by decide)]

theorem stripStep_tag_gt (el : Element) (r b : GoString) (allText : Bool) :
    stripStep ⟨Context.of .stateTag el, '>' :: r, b, allText⟩ =
      some ⟨Context.of (elementContentType el) el, r, b, false⟩ := by
  simp [stripStep, Context.of, scanState, isInTag, transitionFunc, tTag_gt, advance]

theorem stripStep_tag_name_of (el : Element) (x : Char) (xs : GoString)
    (hn : (x :: xs).all isAttrNameChar = true) (z : GoString)
    (hz : ∃ e r, z = e :: r ∧ (isReSpace e || e == '=' || e == '>') = true) (b : GoString)
    (allText : Bool) :
    stripStep ⟨Context.of .stateTag el, x :: xs ++ z, b, allText⟩ =
      some ⟨Context.of .stateAfterName el, z, b, false⟩ := by
  obtain ⟨e, r, rfl, he⟩ := hz
  exact stripStep_tag_name el x xs hn e r he b allText

/-- White space in front of a character that ends an attribute name: the head
of the whole ends a name as well. -/
theorem white_head_end (w : GoString) (hw : isWhite w = true) (z : GoString)
    (hz : ∃ e r, z = e :: r ∧ (isReSpace e || e == '=' || e == '>') = true) :
    ∃ e r, w ++ z = e :: r ∧ (isReSpace e || e == '=' || e == '>') = true := by
  cases w with
  | nil => exact hz
  | cons x w1 =>
    obtain ⟨hx, -⟩ := isWhite_cons x w1 hw
    exact ⟨x, w1 ++ z, rfl, by simp [hx]⟩

/-- What follows a bare name or an unquoted value: white space, or the `>`. -/
theorem after_head_end (w : GoString) (hw : isWhite w = true) (y : Char) (r : GoString)
    (h : w ≠ [] ∨ y = '>') :
    ∃ e r1, w ++ y :: r = e :: r1 ∧ (isReSpace e = true ∨ e = '>') := by
  cases w with
  | nil =>
    rcases h with h | h
    · exact absurd rfl h
    · exact ⟨y, r, rfl, Or.inr h⟩
  | cons x w1 =>
    obtain ⟨hx, -⟩ := isWhite_cons x w1 hw
    exact ⟨x, w1 ++ y :: r, rfl, Or.inl hx⟩

theorem TagAttr.ok_spec (a : TagAttr) (h : a.ok = true) :
    (∃ x xs, a.name = x :: xs) ∧ a.name.all isAttrNameChar = true ∧ a.value.ok = true ∧
      isWhite a.after = true := by
  simp only [TagAttr.ok, Bool.and_eq_true, Bool.not_eq_true', List.isEmpty_eq_false] at h
  obtain ⟨⟨⟨h1, h2⟩, h3⟩, h4⟩ := h
  exact ⟨List.exists_cons_of_ne_nil h1, h2, h3, h4⟩

/-- The iterations over one attribute: nothing is written and the scanner is
back between attributes. -/
theorem stripRun_attr (el : Element) (a : TagAttr) (ha : a.ok = true) (y : Char) (r : GoString)
    (hy : isReSpace y = false) (hye : y ≠ '=')
    (hsep : a.value.isQuoted = true ∨ a.after ≠ [] ∨ y = '>') (b : GoString)
    (allText : Bool) :
    ∃ k, ∀ fuel, stripRun (fuel + k)
        ⟨Context.of .stateTag el, a.render ++ y :: r, b, allText⟩ =
      stripRun fuel ⟨Context.of .stateTag el, y :: r, b, false⟩ := by
  obtain ⟨name, value, after⟩ := a
  obtain ⟨⟨x, xs, hname⟩, hn, hv, hw⟩ := TagAttr.ok_spec _ ha
  simp only at hname hn hv hw hsep
  subst hname
  cases value with
  | absent =>
    have hsep1 : after ≠ [] ∨ y = '>' := by
      rcases hsep with h | h
      · exact absurd h (by simp [AttrValue.isQuoted])
      · exact h
    obtain ⟨e, r1, he, hend⟩ := after_head_end after hw y r hsep1
    have hz : ∃ e r1, after ++ y :: r = e :: r1 ∧
        (isReSpace e || e == '=' || e == '>') = true :=
      ⟨e, r1, he, by rcases hend with h | h <;> simp [h]⟩
    refine ⟨2, fun fuel => ?_⟩
    have e1 : TagAttr.render ⟨x :: xs, .absent, after⟩ ++ y :: r =
        x :: xs ++ (after ++ y :: r) := by
      simp [TagAttr.render, AttrValue.render]
    rw [e1, show fuel + 2 = fuel + 1 + 1 from rfl,
      stripRun_succ _ _ _ (stripStep_tag_name_of el x xs hn _ hz b allText),
      stripRun_succ _ _ _ (stripStep_afterName el after hw y r hy hye b false)]
  | unquoted pre post v =>
    simp only [AttrValue.ok, Bool.and_eq_true] at hv
    obtain ⟨⟨⟨hpre, hpost⟩, hvall⟩, hvhead⟩ := hv
    have hsep1 : after ≠ [] ∨ y = '>' := by
      rcases hsep with h | h
      · exact absurd h (by simp [AttrValue.isQuoted])
      · exact h
    obtain ⟨e, r1, he, hend⟩ := after_head_end after hw y r hsep1
    obtain ⟨v0, vs, rfl⟩ : ∃ v0 vs, v = v0 :: vs := by
      cases v with
      | nil => simp at hvhead
      | cons v0 vs => exact ⟨v0, vs, rfl⟩
    have hv0 : isReSpace v0 = false :=
      (isUnquotedChar_spec v0 (List.all_eq_true.1 hvall v0 (List.mem_cons_self _ _))).1
    have hq0 : isQuote v0 = false := by simpa using hvhead
    have hz : ∃ e r1, pre ++ '=' :: (post ++ (v0 :: vs ++ (after ++ y :: r))) = e :: r1 ∧
        (isReSpace e || e == '=' || e == '>') = true :=
      white_head_end pre hpre _ ⟨'=', _, rfl, by decide⟩
    refine ⟨4, fun fuel => ?_⟩
    have e1 : TagAttr.render ⟨x :: xs, .unquoted pre post (v0 :: vs), after⟩ ++ y :: r =
        x :: xs ++ (pre ++ '=' :: (post ++ (v0 :: vs ++ (after ++ y :: r)))) := by
      simp [TagAttr.render, AttrValue.render]
    have e2 : post ++ (v0 :: vs ++ (after ++ y :: r)) =
        post ++ v0 :: (vs ++ (after ++ y :: r)) := by simp
    have e3 : v0 :: (vs ++ (after ++ y :: r)) = (v0 :: vs) ++ e :: r1 := by
      rw [← he]; simp
    rw [e1, show fuel + 4 = fuel + 1 + 1 + 1 + 1 from rfl,
      stripRun_succ _ _ _ (stripStep_tag_name_of el x xs hn _ hz b allText),
      stripRun_succ _ _ _ (stripStep_afterName_eq el pre hpre _ b false), e2,
      stripRun_succ _ _ _ (stripStep_beforeValue_unquoted el post hpost v0 _ hv0 hq0 b false), e3,
      stripRun_succ _ _ _ (stripStep_value_unquoted el (v0 :: vs) hvall e hend r1 b false), ← he,
      stripRun_tag_white el after hw (y :: r) (by simp) b false fuel]
  | quoted pre post q v =>
    simp only [AttrValue.ok, Bool.and_eq_true, Bool.not_eq_true', List.elem_eq_mem,
      decide_eq_false_iff_not] at hv
    obtain ⟨⟨⟨hpre, hpost⟩, hq⟩, hvq⟩ := hv
    have hz : ∃ e r1, pre ++ '=' :: (post ++ (q :: (v ++ q :: (after ++ y :: r)))) = e :: r1 ∧
        (isReSpace e || e == '=' || e == '>') = true :=
      white_head_end pre hpre _ ⟨'=', _, rfl, by decide⟩
    refine ⟨4, fun fuel => ?_⟩
    have e1 : TagAttr.render ⟨x :: xs, .quoted pre post q v, after⟩ ++ y :: r =
        x :: xs ++ (pre ++ '=' :: (post ++ (q :: (v ++ q :: (after ++ y :: r))))) := by
      simp [TagAttr.render, AttrValue.render]
    rw [e1, show fuel + 4 = fuel + 1 + 1 + 1 + 1 from rfl,
      stripRun_succ _ _ _ (stripStep_tag_name_of el x xs hn _ hz b allText),
      stripRun_succ _ _ _ (stripStep_afterName_eq el pre hpre _ b false)]
    rcases isQuote_cases q hq with rfl | rfl
    · rw [stripRun_succ _ _ _ (stripStep_beforeValue_double el post hpost _ b false),
        stripRun_succ _ _ _ (stripStep_value_double el v hvq _ b false),
        stripRun_tag_white el after hw (y :: r) (by simp) b false fuel]
    · rw [stripRun_succ _ _ _ (stripStep_beforeValue_single el post hpost _ b false),
        stripRun_succ _ _ _ (stripStep_value_single el v hvq _ b false),
        stripRun_tag_white el after hw (y :: r) (by simp) b false fuel]

theorem attrsOk_cons (a : TagAttr) (rest : List TagAttr) (h : attrsOk (a :: rest) = true) :
    a.ok = true ∧ (a.value.isQuoted = true ∨ a.after ≠ [] ∨ rest = []) ∧
      attrsOk rest = true := by
  simp only [attrsOk, Bool.and_eq_true, Bool.or_eq_true, Bool.not_eq_true',
    List.isEmpty_eq_false, List.isEmpty_iff] at h
  obtain ⟨⟨h1, h2⟩, h3⟩ := h
  refine ⟨h1, ?_, h3⟩
  rcases h2 with (h2 | h2) | h2
  · exact Or.inl h2
  · exact Or.inr (Or.inl h2)
  · exact Or.inr (Or.inr h2)

/-- What follows an attribute is the first character of the next name, or the
`>`: neither white space nor `=`. -/
theorem renderAttrs_head (attrs : List TagAttr) (h : attrsOk attrs = true) (r : GoString) :
    ∃ y r1, renderAttrs attrs ++ '>' :: r = y :: r1 ∧ isReSpace y = false ∧ y ≠ '=' ∧
      (attrs = [] → y = '>') := by
  cases attrs with
  | nil => exact ⟨'>', r, rfl, by decide, by decide, fun _ => rfl⟩
  | cons a rest =>
    obtain ⟨ha, -, -⟩ := attrsOk_cons a rest h
    obtain ⟨⟨x, xs, hname⟩, hn, -, -⟩ := TagAttr.ok_spec a ha
    rw [hname] at hn
    simp only [List.all_cons, Bool.and_eq_true] at hn
    obtain ⟨h1, -⟩ := isAttrNameChar_spec x hn.1
    simp only [Bool.or_eq_false_iff, beq_eq_false_iff_ne] at h1
    refine ⟨x, xs ++ (a.value.render ++ a.after) ++ (renderAttrs rest ++ '>' :: r), ?_,
      h1.1.1, h1.1.2, fun e => absurd e (by simp)⟩
    simp [renderAttrs, TagAttr.render, hname]

/-- The iterations over the attributes of a tag and its `>`. -/
theorem stripRun_attrs (el : Element) : ∀ (attrs : List TagAttr), attrsOk attrs = true →
    ∀ (r b : GoString) (allText : Bool),
      ∃ k, ∀ fuel, stripRun (fuel + k)
          ⟨Context.of .stateTag el, renderAttrs attrs ++ '>' :: r, b, allText⟩ =
        stripRun fuel ⟨Context.of (elementContentType el) el, r, b, false⟩
  | [], _, r, b, allText =>
    ⟨1, fun fuel => stripRun_succ _ _ _ (stripStep_tag_gt el r b allText)⟩
  | a :: rest, h, r, b, allText => by
    obtain ⟨ha, hsep, hrest⟩ := attrsOk_cons a rest h
    obtain ⟨y, r1, hy, hyw, hye, hlast⟩ := renderAttrs_head rest hrest r
    have hsep1 : a.value.isQuoted = true ∨ a.after ≠ [] ∨ y = '>' := by
      rcases hsep with h1 | h1 | h1
      · exact Or.inl h1
      · exact Or.inr (Or.inl h1)
      · exact Or.inr (Or.inr (hlast h1))
    obtain ⟨k1, h1⟩ := stripRun_attr el a ha y r1 hyw hye hsep1 b allText
    obtain ⟨k2, h2⟩ := stripRun_attrs el rest hrest r b false
    refine ⟨k2 + k1, fun fuel => ?_⟩
    have e : renderAttrs (a :: rest) ++ '>' :: r = a.render ++ y :: r1 := by
      rw [← hy]
      simp [renderAttrs]
    rw [e, ← Nat.add_assoc, h1, ← hy, h2]

/-- The iterations inside a tag after its name: nothing is written,
`allText` is cleared and the body of the element is entered after the `>`. -/
theorem stripRun_tail_wf (el : Element) (t : PlainTag) (h : t.wf = true) (r b : GoString)
    (allText : Bool) :
    ∃ k, ∀ fuel, stripRun (fuel + k) ⟨Context.of .stateTag el, t.tail ++ '>' :: r, b,
        allText⟩ = stripRun fuel ⟨Context.of (elementContentType el) el, r, b, false⟩ := by
  obtain ⟨k, hk⟩ := stripRun_attrs el t.attrs (t.wf_attrs h) r b allText
  refine ⟨k, fun fuel => ?_⟩
  have e : t.tail ++ '>' :: r = t.lead ++ (renderAttrs t.attrs ++ '>' :: r) := by
    simp [PlainTag.tail]
  rw [e, stripRun_tag_white el t.lead (t.wf_lead h) _ (by simp) b allText, hk]

/-- The iterations inside a tag that opens no special element: the text state
is entered after the `>`. -/
theorem stripRun_tag_tail (t : PlainTag) (h : t.plain = true) (r b : GoString)
    (allText : Bool) :
    ∃ k, ∀ fuel, stripRun (fuel + k) ⟨Context.of .stateTag .elementNone, t.tail ++ '>' :: r, b,
        allText⟩ = stripRun fuel ⟨Context.zero, r, b, false⟩ :=
  stripRun_tail_wf .elementNone t (t.plain_wf h) r b allText
theorem stripStep_plain_text (x : Char) (xs b : GoString) (allText : Bool)
    (h : '<' ∉ x :: xs) :
    stripStep ⟨Context.zero, x :: xs, b, allText⟩ =
      some ⟨Context.zero, [], b ++ x :: xs, allText⟩ := by
  simp [stripStep, advance, emitChunk, scanState, Context.zero, transitionFunc, tText,
    tTextFrom_of_no_lt _ _ _ _ h]

/-! ## The scanner at a comment -/

theorem asciiLower_eq_lt (c : Char) (h : asciiLower c = '<') : c = '<' := by
  unfold asciiLower at h
  split at h
  · rename_i hc
    simp only [Bool.and_eq_true, decide_eq_true_eq] at hc
    obtain ⟨n, hn⟩ : ∃ n, c.toNat = n := ⟨_, rfl⟩
    rw [hn] at hc h
    have h1 : 65 ≤ n := hc.1
    have h2 : n ≤ 90 := hc.2
    interval_cases n <;> exact absurd h (by decide)
  · exact h

theorem toLowerRune_eq_lt (c : Char) (h : toLowerRune c = '<') : c = '<' := by
  unfold toLowerRune at h
  split at h
  · exact absurd h (by decide)
  · split at h
    · exact absurd h (by decide)
    · exact asciiLower_eq_lt c h

theorem ToLower_no_lt (s : GoString) (h : '<' ∉ s) : '<' ∉ ToLower s := by
  intro hm
  simp only [ToLower, List.mem_map] at hm
  obtain ⟨c, hc, he⟩ := hm
  exact h (toLowerRune_eq_lt c he ▸ hc)

/-- The first occurrence of a string whose first character does not occur in
the text in front of it. -/
theorem Index_first (x : Char) (sep : GoString) :
    ∀ (u v : GoString), x ∉ u → (x :: sep).isPrefixOf v = true →
      Index (u ++ v) (x :: sep) = some u.length
  | [], v, _, hp => by
    cases v with
    | nil => simp [List.isPrefixOf] at hp
    | cons y ys => simp [Index, hp]
  | c :: cs, v, hu, hp => by
    simp only [List.mem_cons, not_or] at hu
    have hc : (x == c) = false := by simpa using hu.1
    have hnp : (x :: sep).isPrefixOf (c :: (cs ++ v)) = false := by
      simp [List.isPrefixOf, hc]
    rw [List.cons_append, Index, if_neg (by rw [hnp]; simp), Index_first x sep cs v hu.2 hp]
    rfl

/-- A string that starts in front of a character it does not have ends in front
of it. -/
theorem isPrefixOf_barrier (x : Char) (r : GoString) : ∀ (ss cs : GoString), x ∉ ss →
    ss.isPrefixOf (cs ++ x :: r) = true → ss.isPrefixOf cs = true
  | [], _, _, _ => by simp
  | s1 :: ss, [], hx, h => by
    simp only [List.nil_append, List.isPrefixOf, Bool.and_eq_true, beq_iff_eq] at h
    exact absurd (h.1 ▸ List.mem_cons_self _ _) hx
  | s1 :: ss, c :: cs, hx, h => by
    simp only [List.cons_append, List.isPrefixOf, Bool.and_eq_true] at h ⊢
    exact ⟨h.1, isPrefixOf_barrier x r ss cs (fun hm => hx (List.mem_cons_of_mem _ hm)) h.2⟩

theorem replaceAllAux_copy (old new r : GoString) (hold : old.head? = some '<') :
    ∀ p : GoString, '<' ∉ p →
      replaceAllAux old new 0 (p ++ r) = p ++ replaceAllAux old new 0 r
  | [], _ => rfl
  | x :: xs, h => by
    simp only [List.mem_cons, not_or] at h
    have hx : ¬ '<' = x := h.1
    cases old with
    | nil => simp at hold
    | cons o os =>
      simp only [List.head?_cons, Option.some.injEq] at hold
      subst hold
      simp [replaceAllAux, List.isPrefixOf, hx,
        replaceAllAux_copy ('<' :: os) new r rfl xs h.2]

theorem replaceAllAux_skip (old new r : GoString) :
    ∀ p : GoString, replaceAllAux old new p.length (p ++ r) = replaceAllAux old new 0 r
  | [] => rfl
  | x :: xs => by
    simp only [List.length_cons, List.cons_append]
    cases hr : xs ++ r with
    | nil =>
      have h1 : xs = [] := (List.append_eq_nil.1 hr).1
      have h2 : r = [] := (List.append_eq_nil.1 hr).2
      subst h1 h2
      rfl
    | cons y ys =>
      rw [← hr, replaceAllAux]
      exact replaceAllAux_skip old new r xs

theorem append_cons_unique (x : Char) : ∀ (a b r1 r2 : GoString), x ∉ a → x ∉ b →
    a ++ x :: r1 = b ++ x :: r2 → a = b
  | [], [], _, _, _, _, _ => rfl
  | [], y :: ys, _, _, _, hb, h => by
    simp only [List.nil_append, List.cons_append, List.cons.injEq] at h
    exact absurd (h.1 ▸ List.mem_cons_self _ _) hb
  | y :: ys, [], _, _, ha, _, h => by
    simp only [List.nil_append, List.cons_append, List.cons.injEq] at h
    exact absurd (h.1 ▸ List.mem_cons_self _ _) ha
  | y :: ys, z :: zs, r1, r2, ha, hb, h => by
    simp only [List.cons_append, List.cons.injEq] at h
    simp only [List.mem_cons, not_or] at ha hb
    rw [h.1, append_cons_unique x ys zs r1 r2 ha.2 hb.2 h.2]

theorem isTagShape_spec (old : GoString) (h : isTagShape old = true) :
    ∃ inner, old = '<' :: (inner ++ ['>']) ∧ '>' ∉ inner ∧
      (∀ c ∈ inner, isQuote c = false) ∧ (inner ++ ['>']).head? ≠ some '!' ∧
      isSpecialStart old = false ∧ '<' ∉ inner ++ ['>'] ∧ '-' ∉ inner ++ ['>'] := by
  cases old with
  | nil => simp [isTagShape] at h
  | cons x rest =>
    by_cases hx : x = '<'
    · subst hx
      simp only [isTagShape, Bool.and_eq_true, beq_iff_eq, Bool.not_eq_true', List.elem_eq_mem,
        decide_eq_false_iff_not, bne_iff_ne, ne_eq] at h
      obtain ⟨⟨⟨⟨⟨⟨h1, h2⟩, h3⟩, h4⟩, h5⟩, h6⟩, h7⟩ := h
      have hne : rest ≠ [] := by
        intro e
        rw [e] at h1
        simp at h1
      have hl := List.dropLast_append_getLast hne
      rw [List.getLast?_eq_getLast _ hne, Option.some.injEq] at h1
      rw [h1] at hl
      refine ⟨rest.dropLast, by rw [hl], h2, ?_, by rw [hl]; exact h4, h5, by rw [hl]; exact h6,
        by rw [hl]; exact h7⟩
      intro c hc
      have hq : ∀ c ∈ rest, isQuote c = false := by
        simpa [List.any_eq_false] using h3
      exact hq c (hl ▸ List.mem_append_left _ hc)
    · unfold isTagShape at h
      split at h
      · rename_i heq
        simp only [List.cons.injEq] at heq
        exact absurd heq.1 hx
      · exact absurd h (by simp)

/-- A recognised tag behind its `<`: no `<`, `-` or quote. -/
theorem isTagShape_tail (old : GoString) (h : isTagShape old = true) :
    ∃ os, old = '<' :: os ∧ '<' ∉ os ∧ '-' ∉ os ∧ ∀ q, isQuote q = true → q ∉ os := by
  obtain ⟨inner, rfl, -, hq, -, -, hlt, hd⟩ := isTagShape_spec old h
  refine ⟨_, rfl, hlt, hd, fun q hq1 hm => ?_⟩
  rcases List.mem_append.1 hm with hm | hm
  · rw [hq q hm] at hq1
    exact absurd hq1 (by simp)
  · simp only [List.mem_singleton] at hm
    rw [hm] at hq1
    exact absurd hq1 (by decide)

theorem blockElements_shape (old : GoString) (h : old ∈ blockElements) :
    isTagShape old = true := by
  have hall : blockElements.all isTagShape = true := by decide
  exact List.all_eq_true.1 hall old h

theorem isTagShape_head (old : GoString) (ho : isTagShape old = true) :
    old.head? = some '<' := by
  obtain ⟨inner, rfl, -⟩ := isTagShape_spec old ho
  rfl

/-! ### No `>` in front of the first quote -/

theorem gtGuarded_append (b : GoString) (hb : gtGuarded b = true) :
    ∀ a : GoString, '>' ∉ a → gtGuarded (a ++ b) = true
  | [], _ => hb
  | x :: xs, h => by
    simp only [List.mem_cons, not_or] at h
    have hx : (x != '>') = true := by
      simp only [bne_iff_ne, ne_eq]
      exact fun e => h.1 e.symm
    simp [gtGuarded, hx, gtGuarded_append b hb xs h.2]

theorem gtGuarded_quote (q : Char) (hq : isQuote q = true) (r : GoString) :
    gtGuarded (q :: r) = true := by
  simp [gtGuarded, hq]

/-- A `>`-free string with a `>` behind it, read off the front of a guarded
string with a `>` behind it, is the guarded string. -/
theorem append_gt_guarded : ∀ (inner0 inner s r : GoString), '>' ∉ inner0 →
    (∀ c ∈ inner0, isQuote c = false) → gtGuarded inner = true →
    inner0 ++ '>' :: s = inner ++ '>' :: r → inner0 = inner
  | [], [], _, _, _, _, _, _ => rfl
  | [], y :: ys, _, _, _, _, hg, h => by
    simp only [List.nil_append, List.cons_append, List.cons.injEq] at h
    rw [← h.1] at hg
    exact absurd hg (by simp [gtGuarded, isQuote])
  | y :: ys, [], _, _, h0, _, _, h => by
    simp only [List.nil_append, List.cons_append, List.cons.injEq] at h
    exact absurd (h.1 ▸ List.mem_cons_self _ _) h0
  | y :: ys, z :: zs, s, r, h0, hq, hg, h => by
    simp only [List.cons_append, List.cons.injEq] at h
    simp only [List.mem_cons, not_or] at h0
    have hyq : isQuote z = false := h.1 ▸ hq y (List.mem_cons_self _ _)
    have hg1 : gtGuarded zs = true := by
      simp only [gtGuarded, hyq, Bool.false_or, Bool.and_eq_true] at hg
      exact hg.2
    rw [h.1, append_gt_guarded ys zs s r h0.2
      (fun c hc => hq c (List.mem_cons_of_mem _ hc)) hg1 h.2]

theorem isWhite_no_delim (w : GoString) (hw : isWhite w = true) : '<' ∉ w ∧ '>' ∉ w := by
  have h : ∀ c ∈ w, isReSpace c = true := by
    simpa [isWhite, List.all_eq_true] using hw
  exact ⟨fun hm => absurd (h _ hm) (by decide), fun hm => absurd (h _ hm) (by decide)⟩

theorem attrName_no_delim (name : GoString) (h : name.all isAttrNameChar = true) :
    '<' ∉ name ∧ '>' ∉ name := by
  have h1 : ∀ c ∈ name, isAttrNameChar c = true := List.all_eq_true.1 h
  exact ⟨fun hm => absurd (h1 _ hm) (by decide), fun hm => absurd (h1 _ hm) (by decide)⟩

/-- The value part of an attribute has a `>` only inside quotes. -/
theorem AttrValue.value_guarded (v : AttrValue) (h : v.ok = true) (rest : GoString)
    (hrest : gtGuarded rest = true) : gtGuarded (v.render ++ rest) = true := by
  cases v with
  | absent => simpa [AttrValue.render] using hrest
  | unquoted pre post v =>
    simp only [AttrValue.ok, Bool.and_eq_true] at h
    obtain ⟨⟨⟨hpre, hpost⟩, hv⟩, -⟩ := h
    have h1 := isWhite_no_delim pre hpre
    have h2 := isWhite_no_delim post hpost
    have h3 : ∀ c ∈ v, isUnquotedChar c = true := List.all_eq_true.1 hv
    have h5 : '>' ∉ v := fun hm => absurd (h3 _ hm) (by decide)
    exact gtGuarded_append rest hrest _ (by simp [AttrValue.render, h1.2, h2.2, h5])
  | quoted pre post q v =>
    simp only [AttrValue.ok, Bool.and_eq_true, Bool.not_eq_true', List.elem_eq_mem,
      decide_eq_false_iff_not] at h
    obtain ⟨⟨⟨hpre, hpost⟩, hq⟩, -⟩ := h
    have h1 := isWhite_no_delim pre hpre
    have h2 := isWhite_no_delim post hpost
    have e : (AttrValue.quoted pre post q v).render ++ rest =
        (pre ++ '=' :: post) ++ q :: (v ++ [q] ++ rest) := by
      simp [AttrValue.render]
    rw [e]
    exact gtGuarded_append _ (gtGuarded_quote q hq _) _ (by simp [h1.2, h2.2])

theorem TagAttr.attr_guarded (a : TagAttr) (h : a.ok = true) (rest : GoString)
    (hrest : gtGuarded rest = true) : gtGuarded (a.render ++ rest) = true := by
  obtain ⟨-, hn, hv, hw⟩ := TagAttr.ok_spec a h
  have h1 := attrName_no_delim a.name hn
  have h3 := isWhite_no_delim a.after hw
  have h2 := a.value.value_guarded hv (a.after ++ rest) (gtGuarded_append rest hrest _ h3.2)
  have e : a.render ++ rest = a.name ++ (a.value.render ++ (a.after ++ rest)) := by
    simp [TagAttr.render]
  rw [e]
  exact gtGuarded_append _ h2 _ h1.2

theorem renderAttrs_guarded : ∀ attrs : List TagAttr, attrsOk attrs = true →
    gtGuarded (renderAttrs attrs) = true
  | [], _ => by simp [renderAttrs, gtGuarded]
  | a :: rest, h => by
    obtain ⟨ha, -, hrest⟩ := attrsOk_cons a rest h
    have h1 := a.attr_guarded ha (renderAttrs rest) (renderAttrs_guarded rest hrest)
    simpa [renderAttrs] using h1

/-- The characters of a tag between `<` and `>`: a `>` only inside a quoted
attribute value. -/
theorem PlainTag.render_inner (t : PlainTag) (h : t.wf = true) :
    t.render = '<' :: ((t.opening ++ t.tail) ++ ['>']) ∧
      gtGuarded (t.opening ++ t.tail) = true := by
  have hl := isWhite_no_delim t.lead (t.wf_lead h)
  have ha := renderAttrs_guarded t.attrs (t.wf_attrs h)
  have hn := (isTagName_all t.name (t.wf_name h)).2
  have hgt : '>' ∉ t.opening := by
    intro hm
    simp only [PlainTag.opening, List.mem_append] at hm
    rcases hm with hm | hm
    · cases hc : t.closing <;> simp [hc] at hm
    · exact absurd (hn _ hm) (by decide)
  refine ⟨by simp [PlainTag.render, PlainTag.opening], ?_⟩
  unfold PlainTag.tail
  exact gtGuarded_append _ (gtGuarded_append _ ha _ hl.2) _ hgt

/-- A recognised tag is a prefix at the start of a tag only when it is that
tag. -/
theorem isPrefixOf_item (old : GoString) (ho : isTagShape old = true) (inner r : GoString)
    (hg : gtGuarded inner = true) :
    old.isPrefixOf ('<' :: (inner ++ ['>']) ++ r) = true ↔ '<' :: (inner ++ ['>']) = old := by
  obtain ⟨inner0, rfl, hin, hq, -, -⟩ := isTagShape_spec old ho
  constructor
  · intro hp
    rw [List.isPrefixOf_iff_prefix] at hp
    obtain ⟨s, hs⟩ := hp
    simp only [List.cons_append, List.append_assoc, List.singleton_append, List.cons.injEq,
      true_and] at hs
    rw [append_gt_guarded inner0 inner s r hin hq hg hs]
  · intro e
    rw [← e, List.isPrefixOf_iff_prefix]
    exact List.prefix_append _ _

/-- `ReplaceAll` with a recognised tag at a tag: the tag is copied, with a
newline behind it when it is the tag replaced. -/
theorem replaceAllAux_item (old : GoString) (ho : isTagShape old = true) (inner r : GoString)
    (hlt : '<' ∉ inner) (hg : gtGuarded inner = true) :
    replaceAllAux old (old ++ ['\n']) 0 ('<' :: (inner ++ ['>']) ++ r) =
      '<' :: (inner ++ ['>']) ++ ((if '<' :: (inner ++ ['>']) = old then ['\n'] else []) ++
        replaceAllAux old (old ++ ['\n']) 0 r) := by
  have hpre := isPrefixOf_item old ho inner r hg
  have hform : '<' :: (inner ++ ['>']) ++ r = '<' :: ((inner ++ ['>']) ++ r) := rfl
  rw [hform] at hpre
  by_cases e : '<' :: (inner ++ ['>']) = old
  · have hp : old.isPrefixOf ('<' :: ((inner ++ ['>']) ++ r)) = true := hpre.2 e
    have hlen : old.length - 1 = (inner ++ ['>']).length := by
      rw [← e]
      simp
    rw [if_pos e, hform]
    simp only [replaceAllAux, hp, if_true]
    rw [hlen, replaceAllAux_skip, ← e]
    simp
  · have hp : old.isPrefixOf ('<' :: ((inner ++ ['>']) ++ r)) = false :=
      Bool.eq_false_iff.2 (fun hh => e (hpre.1 hh))
    rw [if_neg e, hform]
    simp only [replaceAllAux, hp, Bool.false_eq_true, if_false]
    rw [replaceAllAux_copy _ _ r (isTagShape_head old ho) (inner ++ ['>']) (by
        intro hm
        rcases List.mem_append.1 hm with hm | hm
        · exact hlt hm
        · simp at hm)]
    simp

/-! ### `ReplaceAll` inside attribute values, comments and element bodies -/

theorem replaceAllAux_zero_cons (old new : GoString) (c : Char) (cs : GoString) :
    replaceAllAux old new 0 (c :: cs) =
      if old.isPrefixOf (c :: cs) then new ++ replaceAllAux old new (old.length - 1) cs
      else c :: replaceAllAux old new 0 cs := by
  simp only [replaceAllAux]

/-- `ReplaceAll` up to a character that `old` has at most at its start: the
text in front of the character and the text from the character on are replaced
separately. -/
theorem replaceAllAux_barrier (o : Char) (os new : GoString) (x : Char) (hx : x ∉ os)
    (r : GoString) : ∀ (u : GoString) (k : Nat), k ≤ u.length →
      replaceAllAux (o :: os) new k (u ++ x :: r) =
        replaceAllAux (o :: os) new k u ++ replaceAllAux (o :: os) new 0 (x :: r)
  | [], k, hk => by
    have hk0 : k = 0 := by simpa using hk
    subst hk0
    simp [replaceAllAux]
  | c :: cs, k + 1, hk => by
    simp only [List.cons_append, replaceAllAux]
    exact replaceAllAux_barrier o os new x hx r cs k (by simpa using hk)
  | c :: cs, 0, _ => by
    by_cases hp : (o :: os).isPrefixOf (c :: (cs ++ x :: r)) = true
    · have hp2 : (o :: os).isPrefixOf (c :: cs) = true := by
        simp only [List.isPrefixOf, Bool.and_eq_true] at hp ⊢
        exact ⟨hp.1, isPrefixOf_barrier x r os cs hx hp.2⟩
      have hlen : os.length ≤ cs.length := by
        have h1 := (List.isPrefixOf_iff_prefix.1 hp2).length_le
        simpa using h1
      rw [List.cons_append, replaceAllAux_zero_cons, replaceAllAux_zero_cons _ _ c cs, if_pos hp,
        if_pos hp2, List.length_cons, Nat.add_sub_cancel,
        replaceAllAux_barrier o os new x hx r cs _ hlen, List.append_assoc]
    · have hp2 : ¬ (o :: os).isPrefixOf (c :: cs) = true := by
        intro h
        apply hp
        rw [List.isPrefixOf_iff_prefix] at h ⊢
        exact h.trans ⟨x :: r, rfl⟩
      rw [List.cons_append, replaceAllAux_zero_cons, replaceAllAux_zero_cons _ _ c cs, if_neg hp,
        if_neg hp2, replaceAllAux_barrier o os new x hx r cs 0 (Nat.zero_le _), List.cons_append]

theorem replaceAllAux_char (old new : GoString) (hold : old.head? = some '<') (x : Char)
    (hx : '<' ≠ x) (r : GoString) :
    replaceAllAux old new 0 (x :: r) = x :: replaceAllAux old new 0 r :=
  replaceAllAux_copy old new r hold [x] (by simp [hx])

theorem ReplaceAll_no_lt (old : GoString) (ho : isTagShape old = true) (s : GoString)
    (h : '<' ∉ s) : ReplaceAll s old (old ++ ['\n']) = s := by
  obtain ⟨os, rfl, -⟩ := isTagShape_tail old ho
  exact ReplaceAll_of_not_contains _ _ _ (Contains_of_head_not_mem '<' os s h)

/-- `ReplaceAll` with a recognised tag at the value of an attribute: the
replacement goes on inside a quoted value and behind the value. -/
theorem replaceAllAux_value (old : GoString) (ho : isTagShape old = true) (v : AttrValue)
    (hv : v.ok = true) (r : GoString) :
    replaceAllAux old (old ++ ['\n']) 0 (v.render ++ r) =
      (markValue old v).render ++ replaceAllAux old (old ++ ['\n']) 0 r := by
  have hh := isTagShape_head old ho
  cases v with
  | absent => rfl
  | unquoted pre post v =>
    simp only [AttrValue.ok, Bool.and_eq_true] at hv
    obtain ⟨⟨⟨hpre, hpost⟩, hv⟩, -⟩ := hv
    have h1 := isWhite_no_delim pre hpre
    have h2 := isWhite_no_delim post hpost
    have h3 : ∀ c ∈ v, isUnquotedChar c = true := List.all_eq_true.1 hv
    have h4 : '<' ∉ v := fun hm => absurd (h3 _ hm) (by decide)
    exact replaceAllAux_copy _ _ r hh _ (by simp [AttrValue.render, h1.1, h2.1, h4])
  | quoted pre post q v =>
    simp only [AttrValue.ok, Bool.and_eq_true, Bool.not_eq_true', List.elem_eq_mem,
      decide_eq_false_iff_not] at hv
    obtain ⟨⟨⟨hpre, hpost⟩, hq⟩, -⟩ := hv
    have h1 := isWhite_no_delim pre hpre
    have h2 := isWhite_no_delim post hpost
    have hq1 : '<' ≠ q := by
      rcases isQuote_cases q hq with rfl | rfl <;> decide
    obtain ⟨os, rfl, -, -, hqs⟩ := isTagShape_tail old ho
    have e : (AttrValue.quoted pre post q v).render ++ r =
        (pre ++ '=' :: (post ++ [q])) ++ (v ++ q :: r) := by
      simp [AttrValue.render]
    rw [e, replaceAllAux_copy ('<' :: os) _ _ rfl _ (by simp [h1.1, h2.1, hq1]),
      replaceAllAux_barrier '<' os _ q (hqs q hq) r v 0 (Nat.zero_le _),
      replaceAllAux_char ('<' :: os) _ rfl q hq1 r]
    simp [markValue, AttrValue.render, ReplaceAll]

theorem replaceAllAux_attr (old : GoString) (ho : isTagShape old = true) (a : TagAttr)
    (ha : a.ok = true) (r : GoString) :
    replaceAllAux old (old ++ ['\n']) 0 (a.render ++ r) =
      (a.mark old).render ++ replaceAllAux old (old ++ ['\n']) 0 r := by
  obtain ⟨-, hn, hv, hw⟩ := TagAttr.ok_spec a ha
  have hh := isTagShape_head old ho
  have e : a.render ++ r = a.name ++ (a.value.render ++ (a.after ++ r)) := by
    simp [TagAttr.render]
  rw [e, replaceAllAux_copy _ _ _ hh a.name (attrName_no_delim a.name hn).1,
    replaceAllAux_value old ho a.value hv,
    replaceAllAux_copy _ _ _ hh a.after (isWhite_no_delim a.after hw).1]
  simp [TagAttr.mark, TagAttr.render]

theorem replaceAllAux_attrs (old : GoString) (ho : isTagShape old = true) :
    ∀ (attrs : List TagAttr), attrsOk attrs = true → ∀ r : GoString,
      replaceAllAux old (old ++ ['\n']) 0 (renderAttrs attrs ++ r) =
        renderAttrs (attrs.map (TagAttr.mark old)) ++ replaceAllAux old (old ++ ['\n']) 0 r
  | [], _, _ => rfl
  | a :: rest, h, r => by
    obtain ⟨ha, -, hrest⟩ := attrsOk_cons a rest h
    simp only [renderAttrs, List.map_cons, List.append_assoc]
    rw [replaceAllAux_attr old ho a ha, replaceAllAux_attrs old ho rest hrest]

/-! ### Tags without `<` in their attribute values are left as they are -/

theorem markValue_render (old : GoString) (ho : isTagShape old = true) (v : AttrValue)
    (h : '<' ∉ v.render) : (markValue old v).render = v.render := by
  cases v with
  | absent => rfl
  | unquoted pre post v => rfl
  | quoted pre post q v =>
    have hv : '<' ∉ v := fun hm => h (by simp [AttrValue.render, hm])
    simp [markValue, ReplaceAll_no_lt old ho v hv]

theorem TagAttr.attr_mark_render (old : GoString) (ho : isTagShape old = true) (a : TagAttr)
    (h : '<' ∉ a.render) : (a.mark old).render = a.render := by
  have hv : '<' ∉ a.value.render := fun hm => h (by simp [TagAttr.render, hm])
  simp [TagAttr.mark, TagAttr.render, markValue_render old ho a.value hv]

theorem renderAttrs_mark (old : GoString) (ho : isTagShape old = true) :
    ∀ attrs : List TagAttr, '<' ∉ renderAttrs attrs →
      renderAttrs (attrs.map (TagAttr.mark old)) = renderAttrs attrs
  | [], _ => rfl
  | a :: rest, h => by
    simp only [renderAttrs, List.mem_append, not_or] at h
    simp only [List.map_cons, renderAttrs]
    rw [a.attr_mark_render old ho h.1, renderAttrs_mark old ho rest h.2]

theorem PlainTag.tag_mark_render (old : GoString) (ho : isTagShape old = true) (t : PlainTag)
    (h : '<' ∉ t.tail) : (t.mark old).render = t.render := by
  have ha : '<' ∉ renderAttrs t.attrs := fun hm => h (by simp [PlainTag.tail, hm])
  simp [PlainTag.mark, PlainTag.render, PlainTag.tail, renderAttrs_mark old ho t.attrs ha]

/-- `ReplaceAll` with a recognised tag at a tag: a newline behind the tag when
it is the tag replaced, and the replacement inside its attribute values when it
is not. -/
theorem replaceAllAux_tag (old : GoString) (ho : isTagShape old = true) (t : PlainTag)
    (h : t.wf = true) (r : GoString) :
    replaceAllAux old (old ++ ['\n']) 0 (t.render ++ r) =
      (t.mark old).render ++ ((if t.render = old then ['\n'] else []) ++
        replaceAllAux old (old ++ ['\n']) 0 r) := by
  obtain ⟨hr, hg⟩ := t.render_inner h
  have hh := isTagShape_head old ho
  by_cases e : t.render = old
  · have htail : '<' ∉ t.tail := by
      obtain ⟨inner0, ho1, -, -, -, -, hlt, -⟩ := isTagShape_spec old ho
      rw [← e, hr] at ho1
      simp only [List.cons.injEq, true_and] at ho1
      intro hm
      apply hlt
      rw [← ho1]
      simp [hm]
    have hlt : '<' ∉ t.opening ++ t.tail := by
      intro hm
      rcases List.mem_append.1 hm with hm | hm
      · exact t.opening_no_lt h hm
      · exact htail hm
    have h1 := replaceAllAux_item old ho _ r hlt hg
    rw [← hr] at h1
    rw [t.tag_mark_render old ho htail]
    exact h1
  · have hnp : ¬ old.isPrefixOf (t.render ++ r) = true := by
      rw [hr]
      intro hp
      exact e (hr ▸ (isPrefixOf_item old ho _ r hg).1 hp)
    have e1 : t.render ++ r =
        '<' :: (t.opening ++ (t.lead ++ (renderAttrs t.attrs ++ '>' :: r))) := by
      simp [hr, PlainTag.tail]
    rw [e1] at hnp
    rw [if_neg e, e1, replaceAllAux_zero_cons, if_neg hnp,
      replaceAllAux_copy _ _ _ hh t.opening (t.opening_no_lt h),
      replaceAllAux_copy _ _ _ hh t.lead (isWhite_no_delim t.lead (t.wf_lead h)).1,
      replaceAllAux_attrs old ho t.attrs (t.wf_attrs h),
      replaceAllAux_char _ _ hh '>' (by decide) r]
    simp [PlainTag.render, PlainTag.mark, PlainTag.tail, PlainTag.opening]

theorem replaceAllAux_render (old : GoString) (ho : isTagShape old = true) (t : PlainTag)
    (h : t.ok = true) (r : GoString) :
    replaceAllAux old (old ++ ['\n']) 0 (t.render ++ r) =
      t.render ++ ((if t.render = old then ['\n'] else []) ++
        replaceAllAux old (old ++ ['\n']) 0 r) := by
  rw [replaceAllAux_tag old ho t (t.ok_wf h) r, t.tag_mark_render old ho (t.ok_tail h)]

/-- C1, as stated, fails: for the paragraph `Some text with <a>a link</a> inside.`
of the repository test the `text` fields concatenate to
`Some text with inside.a link`, the full descendant text collapses to
`Some text with a link inside.`, and the two differ even with all white space
removed. -/
theorem C1_counterexample :
    recordTexts (selectionToJSONElement pWithLink) = "Some text with inside.a link".toList ∧
    collapseSpaces (nodeText pWithLink) = "Some text with a link inside.".toList ∧
    recordTexts (selectionToJSONElement pWithLink) ≠ collapseSpaces (nodeText pWithLink) ∧
    recordTexts (selectionToJSONElement pWithLink) ≠
      TrimSpace (collapseSpaces (nodeText pWithLink)) ∧
    nonSpace (recordTexts (selectionToJSONElement pWithLink)) ≠ nonSpace (nodeText pWithLink) := by
  decide

/-- C1, amended: the characters other than white space of the `text` fields of
a record tree are a rearrangement of those of the full descendant text of the
node (none duplicated, none dropped); and when the node has no element child
the one `text` is the full descendant text, collapsed and trimmed. -/
theorem C1_text_partition (n : Node) :
    (nonSpace (recordTexts (selectionToJSONElement n))).Perm (nonSpace (nodeText n)) ∧
    ((∀ c ∈ n.children, c.isElement = false) →
      recordTexts (selectionToJSONElement n) = TrimSpace (collapseSpaces (nodeText n))) := by
  refine ⟨nonSpace_recordTexts_perm n, ?_⟩
  intro h
  cases n with
  | mk t d a cs =>
    simp only [Node.children] at h
    have hf : cs.filter Node.isElement = [] := by
      rw [List.filter_eq_nil_iff]
      intro c hc
      simp [h c hc]
    have hg : (cs.filter fun c => !c.isElement) = cs := by
      rw [List.filter_eq_self]
      intro c hc
      simp [h c hc]
    rw [recordTexts_selection, childrenToJSON_eq, hf, directTextOf_eq]
    simp [removeElementChildren, Node.type, Node.data, Node.attr, Node.children, hg,
      recordsTexts]

/-- C1, amended, at the heading `<h1>Title</h1>` of the repository test. -/
theorem C1_text_partition_witness :
    (nonSpace (recordTexts (selectionToJSONElement (elem "h1" [] [txt "Title"])))).Perm
        (nonSpace (nodeText (elem "h1" [] [txt "Title"]))) ∧
    recordTexts (selectionToJSONElement (elem "h1" [] [txt "Title"])) =
      TrimSpace (collapseSpaces (nodeText (elem "h1" [] [txt "Title"]))) :=
  ⟨(C1_text_partition (elem "h1" [] [txt "Title"])).1,
   (C1_text_partition (elem "h1" [] [txt "Title"])).2 (by decide)⟩

/-- C2: the attributes map of a record is nil exactly when the node has no
attribute; with distinct attribute keys it holds exactly the key/value pairs
of the node; and no record of the tree has a map that is present and empty. -/
theorem C2_attributes (n : Node) :
    ((selectionToJSONElement n).Attributes = none ↔ n.attr = []) ∧
    (n.attr ≠ [] → (n.attr.map Attribute.Key).Nodup →
      (selectionToJSONElement n).Attributes = some (n.attr.map fun a => (a.Key, a.Val))) ∧
    noEmptyAttributes (selectionToJSONElement n) := by
  rw [selection_attributes]
  exact ⟨buildAttributes_eq_none n.attr, buildAttributes_nodup n.attr,
    noEmptyAttributes_selection n⟩

/-- C2 at the image `<img src="test.jpg" alt="Test image">` of the repository
test. -/
theorem C2_attributes_witness :
    (selectionToJSONElement (elem "img" [("src", "test.jpg"), ("alt", "Test image")] [])).Attributes
      = some [("src".toList, "test.jpg".toList), ("alt".toList, "Test image".toList)] :=
  (C2_attributes (elem "img" [("src", "test.jpg"), ("alt", "Test image")] [])).2.1
    (by decide) (by decide)

/-- C3, as stated, fails: the texts on either side of a removed child are not
always joined with a single space.  In `<p>Hello<b>x</b>World</p>` no white
space stands next to the child, and the text is `HelloWorld`. -/
theorem C3_counterexample :
    (selectionToJSONElement
        (elem "p" [] [txt "Hello", elem "b" [] [txt "x"], txt "World"])).Text =
      "HelloWorld".toList ∧
    (selectionToJSONElement
        (elem "p" [] [txt "Hello", elem "b" [] [txt "x"], txt "World"])).Text ≠
      "Hello World".toList := by
  decide

/-- C3, amended: the `text` of a record is the direct text (the text of the node
with its element children removed) with every run of white space collapsed to
one space and then trimmed, and it is empty (omitted) exactly when that result
is empty; for an element whose other children are leaves the direct text is the
concatenation of its text-node children.  Nothing is put in the place of a
removed child: the texts `a` and `b` on either side of it give the collapsed
and trimmed `a ++ b`, so two clean texts that meet there without white space
are joined as they stand, and they are joined by a single space when a run of
white space stands next to the child, on either side or on both.  The link
paragraph gives `Some text with inside.` and
`<div class="test">Hello World</div>` gives tag `div`, attributes
`class: test`, text `Hello World` and no children. -/
theorem C3_direct_text (n : Node) :
    (selectionToJSONElement n).Text =
      TrimSpace (collapseSpaces (nodeText (removeElementChildren n))) ∧
    (n.isElement = true → (∀ c ∈ n.children, c.isElement = false → c.children = []) →
      (selectionToJSONElement n).Text = TrimSpace (collapseSpaces (directTextNodes n))) ∧
    ((selectionToJSONElement n).Text = [] ↔
      TrimSpace (collapseSpaces (nodeText (removeElementChildren n))) = []) ∧
    (selectionToJSONElement pWithLink).Text = "Some text with inside.".toList ∧
    selectionToJSONElement divTest =
      .mk "div".toList (some [("class".toList, "test".toList)]) "Hello World".toList [] ∧
    (∀ (tag : GoString) (attr : List Attribute) (a b : GoString) (e : Node),
      e.isElement = true →
      (selectionToJSONElement
          (.mk .ElementNode tag attr [.mk .TextNode a [] [], e, .mk .TextNode b [] []])).Text =
        TrimSpace (collapseSpaces (a ++ b))) ∧
    (∀ (tag : GoString) (attr : List Attribute) (x y : GoString) (e : Node),
      e.isElement = true → x ≠ [] → y ≠ [] → TrimSpace x = x → TrimSpace y = y →
      collapseSpaces x = x → collapseSpaces y = y →
      (selectionToJSONElement
          (.mk .ElementNode tag attr [.mk .TextNode x [] [], e, .mk .TextNode y [] []])).Text =
        x ++ y) ∧
    (∀ (tag : GoString) (attr : List Attribute) (x y w1 w2 : GoString) (e : Node),
      e.isElement = true → x ≠ [] → y ≠ [] → TrimSpace x = x → TrimSpace y = y →
      collapseSpaces x = x → collapseSpaces y = y →
      w1 ++ w2 ≠ [] → (∀ c ∈ w1 ++ w2, isReSpace c = true) →
      (selectionToJSONElement
          (.mk .ElementNode tag attr
            [.mk .TextNode (x ++ w1) [] [], e, .mk .TextNode (w2 ++ y) [] []])).Text =
        x ++ ' ' :: y) := by
  have h1 : (selectionToJSONElement n).Text =
      TrimSpace (collapseSpaces (nodeText (removeElementChildren n))) := by
    rw [selection_text, directTextOf_eq]
  refine ⟨h1, ?_, ?_, by decide, by rfl, ?_, ?_, ?_⟩
  · intro hel hleaf
    rw [h1, nodeText_removeElementChildren n hel hleaf]
  · rw [h1]
  · intro tag attr a b e he
    exact selection_text_around tag attr a b e he
  · intro tag attr x y e he hx hy hxt hyt hxc hyc
    rw [selection_text_around tag attr x y e he]
    exact cleanLine_append_direct x y hx hy hxt hyt hxc hyc
  · intro tag attr x y w1 w2 e he hx hy hxt hyt hxc hyc hw hws
    rw [selection_text_around tag attr _ _ e he]
    have e1 : x ++ w1 ++ (w2 ++ y) = x ++ ((w1 ++ w2) ++ y) := by simp
    rw [e1]
    exact cleanLine_append_run x (w1 ++ w2) y hx hy hw hws hxt hyt hxc hyc

/-- C3, amended, at the link paragraph of the repository test (white space on
both sides of the link, one space in the text) and at `Hello<b>x</b>World` (no
white space, the texts joined as they stand). -/
theorem C3_direct_text_witness :
    (selectionToJSONElement pWithLink).Text =
      TrimSpace (collapseSpaces (directTextNodes pWithLink)) ∧
    (selectionToJSONElement
        (.mk .ElementNode "p".toList []
          [.mk .TextNode ("Some text with".toList ++ [' ']) [] [],
           elem "a" [("href", "https://example.com")] [txt "a link"],
           .mk .TextNode ([' '] ++ "inside.".toList) [] []])).Text =
      "Some text with".toList ++ ' ' :: "inside.".toList ∧
    (selectionToJSONElement
        (.mk .ElementNode "p".toList []
          [.mk .TextNode "Hello".toList [] [], elem "b" [] [txt "x"],
           .mk .TextNode "World".toList [] []])).Text =
      "Hello".toList ++ "World".toList :=
  ⟨(C3_direct_text pWithLink).2.1 (by decide) (by
      intro c hc hne
      simp only [pWithLink, elem, txt, Node.children, List.mem_cons, List.mem_nil_iff,
        or_false] at hc
      rcases hc with rfl | rfl | rfl
      · rfl
      · exact absurd hne (by decide)
      · rfl),
    (C3_direct_text pWithLink).2.2.2.2.2.2.2 "p".toList [] "Some text with".toList
      "inside.".toList [' '] [' '] (elem "a" [("href", "https://example.com")] [txt "a link"])
      (by decide) (by decide) (by decide) (by decide) (by decide) (by decide) (by decide)
      (by decide) (by decide),
    (C3_direct_text pWithLink).2.2.2.2.2.2.1 "p".toList [] "Hello".toList "World".toList
      (elem "b" [] [txt "x"]) (by decide) (by decide) (by decide) (by decide) (by decide)
      (by decide) (by decide)⟩

/-- C4: the `children` of a record are the records of the element children of
the node, in document order; the field is empty (omitted) exactly when the node
has no element child; and the record tree has one record per element of the
subtree: as many records as `Children()` reaches elements, which for an element
of a parsed document (only elements have children) is the number of element
nodes of its subtree. -/
theorem C4_children (n : Node) :
    (selectionToJSONElement n).Children =
      (n.children.filter Node.isElement).map selectionToJSONElement ∧
    ((selectionToJSONElement n).Children = [] ↔ n.children.filter Node.isElement = []) ∧
    recordCount (selectionToJSONElement n) = elementCount n ∧
    (wellFormed n = true → n.isElement = true →
      recordCount (selectionToJSONElement n) = countElements n) := by
  have h : (selectionToJSONElement n).Children =
      (n.children.filter Node.isElement).map selectionToJSONElement := by
    rw [selection_children, childrenToJSON_eq]
  refine ⟨h, ?_, recordCount_selection n, recordCount_wellFormed n⟩
  rw [h, List.map_eq_nil_iff]

/-- C4 at the link paragraph of the repository test: two elements, two
records. -/
theorem C4_children_witness :
    recordCount (selectionToJSONElement pWithLink) = countElements pWithLink ∧
    countElements pWithLink = 2 :=
  ⟨(C4_children pWithLink).2.2.2 (by decide) (by decide), by decide⟩

/-- C5: the output value has `count` equal to the length of `results` (which
is the number of matched nodes) and `selector` equal to the selector given,
for every selector and every list of matches, the empty one included; it is
the value that `extractAsJSON` encodes and, without colouring, writes. -/
theorem C5_count_selector (selector : GoString) (found : List Node)
    (format : GoString → GoString → Config → GoString × Bool)
    (keepTags json monochrome : Bool) (style : GoString) (formatter : Nat) :
    (buildOutput selector found).Count = goLen (buildOutput selector found).Results ∧
    (buildOutput selector found).Count = found.length ∧
    (buildOutput selector found).Selector = selector ∧
    extractAsJSON ⟨false, format⟩ found
        ⟨selector, keepTags, json, monochrome, false, style, formatter⟩ =
      (encodeOutput (buildOutput selector found), none) := by
  refine ⟨rfl, ?_, rfl, ?_⟩
  · show (sliceElems (collectResults found)).length = found.length
    rw [collectResults_elems, List.length_map]
  · simp [extractAsJSON]

/-- C6, evaluated: with no match `results` stays the nil slice, and the bytes
written carry `"results": null` (an empty non-nil slice would be written as
`[]`); `count` is 0 and no error is returned. -/
theorem C6_no_match_null (selector : GoString) :
    (buildOutput selector []).Results = none ∧
    (buildOutput selector []).Count = 0 ∧
    extractAsJSON noColorWorld [] (plainConfig selector) =
      ("\x7b\n  \"selector\": ".toList ++ quoteJSON selector ++
        ",\n  \"results\": null,\n  \"count\": 0\n\x7d\n".toList, none) ∧
    encodeResults 1 (some []) = "[]".toList := by
  refine ⟨rfl, rfl, ?_, rfl⟩
  simp [extractAsJSON, noColorWorld, plainConfig, buildOutput, collectResults, goLen,
    encodeOutput, encodeResults, bracketLines, member, indentOf, List.intercalate]
  rfl

/-- C7: `results` holds the record of each matched node, one per match, in the
order of the matches; the two `div` matches of the repository test give two
`div` records whose single `p` children carry `First` and `Second`. -/
theorem C7_results_in_order (selector : GoString) (found : List Node) :
    sliceElems (buildOutput selector found).Results = found.map selectionToJSONElement ∧
    buildOutput "div".toList twoDivs =
      ⟨"div".toList,
       some [.mk "div".toList none [] [.mk "p".toList none "First".toList []],
             .mk "div".toList none [] [.mk "p".toList none "Second".toList []]],
       2⟩ := by
  exact ⟨collectResults_elems found, by rfl⟩

/-! ## Where the characters of the result come from -/

/-- C9, as stated, fails: `<<b>b>` is normalised to `<b>` (the first `<` is
text, `<b>` is a tag, `b>` is text), and normalising `<b>` gives the empty
string. -/
theorem C9_counterexample :
    cleanTextPreserveLines "<<b>b>".toList = "<b>".toList ∧
    cleanTextPreserveLines (cleanTextPreserveLines "<<b>b>".toList) = [] ∧
    cleanTextPreserveLines (cleanTextPreserveLines "<<b>b>".toList) ≠
      cleanTextPreserveLines "<<b>b>".toList := by
  decide

/-- C9, amended: when the output for a markup string contains no `<`,
normalising that output again returns it unchanged. -/
theorem C9_idempotent_on_tag_free_output (html : GoString)
    (h : '<' ∉ cleanTextPreserveLines html) :
    cleanTextPreserveLines (cleanTextPreserveLines html) = cleanTextPreserveLines html := by
  have hgood : ∀ l ∈ cleanLinesOf (StripTags (markBlocks html)), GoodLine l :=
    fun l hl => cleanLinesOf_good _ l hl
  rw [cleanTextPreserveLines_eq (cleanTextPreserveLines html), markBlocks_of_no_lt _ h,
    StripTags_of_no_lt _ h]
  rw [cleanTextPreserveLines_eq html, cleanLinesOf_joinParagraphs _ hgood]

/-- C9, amended, at the two paragraphs of the repository test. -/
theorem C9_idempotent_on_tag_free_output_witness :
    cleanTextPreserveLines (cleanTextPreserveLines
        "<div><p>First paragraph</p><p>Second paragraph</p></div>".toList) =
      cleanTextPreserveLines "<div><p>First paragraph</p><p>Second paragraph</p></div>".toList :=
  C9_idempotent_on_tag_free_output _ (by decide)

/-- Markup without a recognised tag whose stripped text has no newline (as is
the case when the markup has none) gives one collapsed line: the stripped text
with white space collapsed and trimmed. -/
theorem single_line_of_no_newline (html : GoString)
    (h : ∀ t ∈ blockElements, Contains html t = false) :
    ('\n' ∉ html → '\n' ∉ StripTags html) ∧
    ('\n' ∉ StripTags html →
      cleanTextPreserveLines html = cleanLine (StripTags html) ∧
      '\n' ∉ cleanTextPreserveLines html) := by
  refine ⟨fun hn hm => hn (mem_of_mem_StripTags html _ hm), fun hn => ?_⟩
  have e : cleanTextPreserveLines html = cleanLine (StripTags html) := by
    rw [cleanTextPreserveLines_eq, markBlocks_of_not_contains html h, cleanLinesOf,
      Split_of_not_mem '\n' _ hn]
    by_cases hc : cleanLine (StripTags html) = []
    · simp [hc, joinParagraphs, Join]
    · simp [hc, joinParagraphs, Join]
  exact ⟨e, e ▸ newline_not_mem_cleanLine _⟩

/-- C10: the code at `<span>a\nb</span>`.  The markup contains none of the
recognised tags, and the output is `a\n\nb`, two lines instead of the single
collapsed line `a b`: the raw newline of the text is taken for a line-break
marker, so the output is that for `<span>a<br>b</span>`, while a space or a tab
in the same place is collapsed as white space. -/
theorem C10_raw_newline_doubled :
    (∀ t ∈ blockElements, Contains "<span>a\nb</span>".toList t = false) ∧
    cleanTextPreserveLines "<span>a\nb</span>".toList = "a\n\nb".toList ∧
    '\n' ∈ cleanTextPreserveLines "<span>a\nb</span>".toList ∧
    cleanTextPreserveLines "<span>a\nb</span>".toList =
      cleanTextPreserveLines "<span>a<br>b</span>".toList ∧
    cleanTextPreserveLines "<span>a\tb</span>".toList = "a b".toList ∧
    cleanTextPreserveLines "<span>a b</span>".toList = "a b".toList := by
  decide

/-! ## The claims on the order of clean-up and on the last steps -/

theorem trimThenCollapse_eq (s : GoString) : trimThenCollapse s = collapseThenTrim s := by
  unfold trimThenCollapse collapseThenTrim
  rw [← collapseSpaces_TrimSpace]
  by_cases h : TrimSpace s = []
  · simp [h, collapseSpaces]
  · simp [h]

theorem directTextOf_trimThenCollapse (n : Node) :
    directTextOf n = trimThenCollapse (nodeText (removeElementChildren n)) := rfl

/-- C19: trimming first and collapsing afterwards, as `selectionToJSONElement`
does (`strings.TrimSpace`, then `\s+` to one space when something is left),
gives for every string what collapsing first and trimming afterwards gives;
in particular one result is empty exactly when the other is.  This is the
clean-up that `selectionToJSONElement` applies to the direct text. -/
theorem C19_order_of_cleanup (s : GoString) (n : Node) :
    trimThenCollapse s = collapseThenTrim s ∧
    (trimThenCollapse s = [] ↔ collapseThenTrim s = []) ∧
    (selectionToJSONElement n).Text =
      trimThenCollapse (nodeText (removeElementChildren n)) := by
  refine ⟨trimThenCollapse_eq s, by rw [trimThenCollapse_eq], ?_⟩
  rw [selection_text, directTextOf_trimThenCollapse]

theorem contains_iff_infix (sub : GoString) : ∀ s : GoString,
    Contains s sub = true ↔ sub <:+: s
  | [] => by simp [Contains]
  | x :: rest => by
    rw [Contains, Bool.or_eq_true, List.isPrefixOf_iff_prefix, contains_iff_infix sub rest,
      List.infix_cons_iff]

theorem contains_threeNewlines_append (r : GoString) : ∀ a : GoString, '\n' ∉ a →
    Contains (a ++ r) threeNewlines = Contains r threeNewlines
  | [], _ => rfl
  | x :: xs, h => by
    simp only [List.mem_cons, not_or] at h
    have hb : ('\n' == x) = false := beq_eq_false_iff_ne.2 h.1
    have ih := contains_threeNewlines_append r xs h.2
    rw [List.cons_append, Contains, ih]
    simp [threeNewlines, List.isPrefixOf, hb]

theorem contains_threeNewlines_of_not_mem (a : GoString) (h : '\n' ∉ a) :
    Contains a threeNewlines = false := by
  have := contains_threeNewlines_append [] a h
  simpa [Contains, threeNewlines] using this

theorem contains_threeNewlines_joinParagraphs : ∀ lines : List GoString,
    (∀ l ∈ lines, GoodLine l) → Contains (joinParagraphs lines) threeNewlines = false
  | [], _ => rfl
  | [a], h => contains_threeNewlines_of_not_mem a (h a (by simp)).no_newline
  | a :: b :: rest, h => by
    have ih := contains_threeNewlines_joinParagraphs (b :: rest)
      (fun l hl => h l (List.mem_cons_of_mem _ hl))
    have hb := h b (by simp)
    obtain ⟨t, ht⟩ := Join_cons_exists b rest ['\n', '\n']
    obtain ⟨y, ys, hy⟩ := List.exists_cons_of_ne_nil hb.1
    have hyn : ¬ '\n' = y := by
      intro e
      exact hb.no_newline (by rw [hy, ← e]; simp)
    unfold joinParagraphs at ih ⊢
    rw [Join_cons_cons, List.append_assoc,
      contains_threeNewlines_append _ a (h a (by simp)).no_newline]
    rw [ht, hy] at ih ⊢
    simp only [List.cons_append, List.nil_append, Contains, threeNewlines, List.isPrefixOf,
      beq_self_eq_true, Bool.true_and, Bool.or_eq_false_iff] at ih ⊢
    have hbq : ('\n' == y) = false := beq_eq_false_iff_ne.2 hyn
    rw [hbq] at ih ⊢
    exact ⟨rfl, rfl, ih⟩

/-- C12: the output of `cleanTextPreserveLines` never contains three newlines
in a row, for any markup string. -/
theorem C12_no_three_newlines (html : GoString) :
    ¬ threeNewlines <:+: cleanTextPreserveLines html ∧
    Contains (cleanTextPreserveLines html) threeNewlines = false := by
  have h : Contains (cleanTextPreserveLines html) threeNewlines = false := by
    rw [cleanTextPreserveLines_eq]
    exact contains_threeNewlines_joinParagraphs _ (fun l hl => cleanLinesOf_good _ l hl)
  refine ⟨?_, h⟩
  rw [← contains_iff_infix, h]
  simp

theorem Split_joinParagraphs : ∀ lines : List GoString, (∀ l ∈ lines, GoodLine l) →
    ∀ l ∈ Split (joinParagraphs lines) '\n', l = [] ∨ l ∈ lines
  | [], _, l, hl => by
    simp only [joinParagraphs, Join, Split, List.mem_singleton] at hl
    exact Or.inl hl
  | [a], h, l, hl => by
    have ha := h a (by simp)
    have e : joinParagraphs [a] = a := rfl
    rw [e, Split_of_not_mem '\n' a ha.no_newline, List.mem_singleton] at hl
    exact Or.inr (by simp [hl])
  | a :: b :: rest, h, l, hl => by
    have ih := Split_joinParagraphs (b :: rest) (fun l hl => h l (List.mem_cons_of_mem _ hl)) l
    have ha := h a (by simp)
    unfold joinParagraphs at ih hl
    rw [Join_cons_cons] at hl
    have e : a ++ ['\n', '\n'] ++ Join (b :: rest) ['\n', '\n'] =
        a ++ '\n' :: ([] ++ '\n' :: Join (b :: rest) ['\n', '\n']) := by simp
    rw [e, Split_append_sep '\n' _ a ha.no_newline, Split_append_sep '\n' _ [] (by simp)] at hl
    rcases List.mem_cons.1 hl with h1 | h1
    · exact Or.inr (by simp [h1])
    · rcases List.mem_cons.1 h1 with h2 | h2
      · exact Or.inl h2
      · rcases ih h2 with h3 | h3
        · exact Or.inl h3
        · exact Or.inr (List.mem_cons_of_mem _ h3)

theorem GoodLine.trimmed {l : GoString} (h : GoodLine l) : TrimSpace l = l := by
  have e : TrimSpace l = TrimSpace (cleanLine l) := by rw [h.2]
  rw [e]
  unfold cleanLine
  rw [TrimSpace_idem]
  exact h.2

/-- C13: every line of the output (the output split on newline) is unchanged by
`TrimSpace`, so neither its first nor its last character is white space; and
the same holds for the output as a whole. -/
theorem C13_lines_trimmed (html : GoString) :
    (∀ l ∈ Split (cleanTextPreserveLines html) '\n',
      TrimSpace l = l ∧ (∀ x, l.head? = some x → isSpace x = false) ∧
        (∀ x, l.getLast? = some x → isSpace x = false)) ∧
    TrimSpace (cleanTextPreserveLines html) = cleanTextPreserveLines html ∧
    (∀ x, (cleanTextPreserveLines html).head? = some x → isSpace x = false) ∧
    (∀ x, (cleanTextPreserveLines html).getLast? = some x → isSpace x = false) := by
  have hgood : ∀ l ∈ cleanLinesOf (StripTags (markBlocks html)), GoodLine l :=
    fun l hl => cleanLinesOf_good _ l hl
  have hT : TrimSpace (cleanTextPreserveLines html) = cleanTextPreserveLines html := by
    rw [cleanTextPreserveLines_eq]
    exact TrimSpace_joinParagraphs _ hgood
  refine ⟨?_, hT, ?_, ?_⟩
  · intro l hl
    rw [cleanTextPreserveLines_eq] at hl
    rcases Split_joinParagraphs _ hgood l hl with h1 | h1
    · subst h1
      exact ⟨rfl, by simp, by simp⟩
    · exact ⟨(hgood l h1).trimmed, (hgood l h1).head, (hgood l h1).last⟩
  · intro x hx
    rw [← hT] at hx
    exact head_TrimSpace _ x hx
  · intro x hx
    rw [← hT] at hx
    exact getLast_TrimSpace _ x hx

/-- C20: in `cleanTextPreserveLines` the string made by joining the kept lines
and doubling the newlines is these lines joined by `"\n\n"`; the `\n{3,}`
collapse leaves it unchanged, the final `TrimSpace` leaves it unchanged, and it
is the result. -/
theorem C20_last_steps_noop (html : GoString) :
    doubledJoin (cleanLinesOf (StripTags (markBlocks html))) =
      Join (cleanLinesOf (StripTags (markBlocks html))) ['\n', '\n'] ∧
    collapseNewlines (doubledJoin (cleanLinesOf (StripTags (markBlocks html)))) =
      doubledJoin (cleanLinesOf (StripTags (markBlocks html))) ∧
    TrimSpace (doubledJoin (cleanLinesOf (StripTags (markBlocks html)))) =
      doubledJoin (cleanLinesOf (StripTags (markBlocks html))) ∧
    cleanTextPreserveLines html =
      Join (cleanLinesOf (StripTags (markBlocks html))) ['\n', '\n'] := by
  have hgood : ∀ l ∈ cleanLinesOf (StripTags (markBlocks html)), GoodLine l :=
    fun l hl => cleanLinesOf_good _ l hl
  have hd : doubledJoin (cleanLinesOf (StripTags (markBlocks html))) =
      joinParagraphs (cleanLinesOf (StripTags (markBlocks html))) :=
    doubled_Join _ (fun l hl => (hgood l hl).no_newline)
  refine ⟨hd, ?_, ?_, cleanTextPreserveLines_eq html⟩
  · rw [hd]
    exact collapseNewlines_joinParagraphs _ hgood
  · rw [hd]
    exact TrimSpace_joinParagraphs _ hgood

/-! ## One tag between two texts -/

theorem blockTags_render : blockTags.map PlainTag.render = blockElements := by decide

theorem blockTags_ok : blockTags.all PlainTag.ok = true := by decide

theorem blockElements_nodup : blockElements.Nodup := by decide

theorem blockTags_count :
    blockTags.all (fun p => blockElements.count p.render == 1) = true := by decide

theorem blockElements_plain (t : GoString) (h : t ∈ blockElements) :
    ∃ p : PlainTag, p.ok = true ∧ blockElements.count p.render = 1 ∧ p.render = t := by
  rw [← blockTags_render, List.mem_map] at h
  obtain ⟨p, hp, rfl⟩ := h
  exact ⟨p, List.all_eq_true.1 blockTags_ok p hp,
    by simpa using List.all_eq_true.1 blockTags_count p hp, rfl⟩

theorem replaceAllAux_no_lt (old new : GoString) (hold : old.head? = some '<') (b : GoString)
    (hb : '<' ∉ b) : replaceAllAux old new 0 b = b := by
  have := replaceAllAux_copy old new [] hold b hb
  simpa [replaceAllAux] using this

theorem ReplaceAll_one_tag (old : GoString) (ho : isTagShape old = true) (p : PlainTag)
    (hp : p.ok = true) (a b : GoString) (ha : '<' ∉ a) (hb : '<' ∉ b) :
    ReplaceAll (a ++ (p.render ++ b)) old (old ++ ['\n']) =
      a ++ (p.render ++ ((if p.render = old then ['\n'] else []) ++ b)) := by
  unfold ReplaceAll
  rw [replaceAllAux_copy _ _ _ (isTagShape_head old ho) a ha, replaceAllAux_render old ho p hp,
    replaceAllAux_no_lt _ _ (isTagShape_head old ho) b hb]

theorem foldl_ReplaceAll_one_tag (p : PlainTag) (hp : p.ok = true) (a : GoString)
    (ha : '<' ∉ a) :
    ∀ (olds : List GoString), (∀ o ∈ olds, isTagShape o = true) → ∀ b : GoString, '<' ∉ b →
      olds.foldl (fun text element => ReplaceAll text element (element ++ ['\n']))
          (a ++ (p.render ++ b)) =
        a ++ (p.render ++ (List.replicate (olds.count p.render) '\n' ++ b))
  | [], _, b, _ => by simp
  | old :: olds, ho, b, hb => by
    rw [List.foldl_cons, ReplaceAll_one_tag old (ho old (List.mem_cons_self _ _)) p hp a b ha hb]
    by_cases e : p.render = old
    · rw [if_pos e, foldl_ReplaceAll_one_tag p hp a ha olds
        (fun o h => ho o (List.mem_cons_of_mem _ h)) (['\n'] ++ b) (by simp [hb])]
      rw [← e, List.count_cons_self, List.replicate_succ']
      simp
    · rw [if_neg e, foldl_ReplaceAll_one_tag p hp a ha olds
        (fun o h => ho o (List.mem_cons_of_mem _ h)) ([] ++ b) (by simp [hb])]
      rw [List.count_cons_of_ne e]
      simp

/-- Lines 190-193 on one tag between two texts without `<`: the tag gets
one newline behind it for each time it occurs in `blockElements`. -/
theorem markBlocks_one_tag (p : PlainTag) (hp : p.ok = true) (a b : GoString) (ha : '<' ∉ a)
    (hb : '<' ∉ b) :
    markBlocks (a ++ (p.render ++ b)) =
      a ++ (p.render ++ (List.replicate (blockElements.count p.render) '\n' ++ b)) :=
  foldl_ReplaceAll_one_tag p hp a ha blockElements blockElements_shape b hb

/-- `StripTags` on one tag between two texts without `<`. -/
theorem StripTags_one_tag (p : PlainTag) (hp : p.ok = true) (a b : GoString) (ha : '<' ∉ a)
    (hb : '<' ∉ b) : StripTags (a ++ (p.render ++ b)) = a ++ b := by
  obtain ⟨k, hk⟩ := stripRun_tag_tail p (p.ok_plain hp) b ([] ++ a) true
  have hrun : ∃ fuel, stripRun fuel ⟨Context.zero, a ++ (p.render ++ b), [], true⟩ =
      some ⟨Context.zero, [], a ++ b, false⟩ := by
    cases b with
    | nil =>
      refine ⟨0 + 1 + k + 1, ?_⟩
      rw [stripRun_succ _ _ _ (stripStep_text_tag a ha p (p.ok_plain hp) [] [] true), hk, stripRun_done]
      · simp
      · simp [stripStep]
    | cons x xs =>
      refine ⟨0 + 1 + 1 + k + 1, ?_⟩
      rw [stripRun_succ _ _ _ (stripStep_text_tag a ha p (p.ok_plain hp) (x :: xs) [] true), hk,
        stripRun_succ _ _ _ (stripStep_plain_text x xs ([] ++ a) false hb), stripRun_done]
      · simp
      · simp [stripStep]
  obtain ⟨fuel, hf⟩ := hrun
  rw [StripTags_of_run _ _ _ hf]
  simp [stripFinish, Context.zero]

/-- A text as the claims on single tags take it: not empty, trimmed, single
spaced (hence a line the normaliser keeps as it is). -/
theorem goodLine_of_clean (a : GoString) (hne : a ≠ []) (ht : TrimSpace a = a)
    (hc : collapseSpaces a = a) : GoodLine a :=
  ⟨hne, by unfold cleanLine; rw [hc, ht]⟩

/-- C11: for every recognised tag `t` and all non-empty texts `a` and `b` that
contain no `<` and no newline and are already trimmed and single-spaced,
`cleanTextPreserveLines (a ++ t ++ b) = a ++ "\n\n" ++ b`; and
`<p>Line 1<br>Line 2<br/>Line 3</p>` gives `Line 1\n\nLine 2\n\nLine 3`. -/
theorem C11_recognised_tag_breaks (t a b : GoString) (ht : t ∈ blockElements)
    (hane : a ≠ []) (hbne : b ≠ []) (ha : '<' ∉ a) (hb : '<' ∉ b)
    (han : '\n' ∉ a) (hbn : '\n' ∉ b)
    (hat : TrimSpace a = a) (hbt : TrimSpace b = b)
    (hac : collapseSpaces a = a) (hbc : collapseSpaces b = b) :
    cleanTextPreserveLines (a ++ t ++ b) = a ++ ['\n', '\n'] ++ b ∧
    cleanTextPreserveLines "<p>Line 1<br>Line 2<br/>Line 3</p>".toList =
      "Line 1\n\nLine 2\n\nLine 3".toList := by
  refine ⟨?_, by decide⟩
  obtain ⟨p, hp, hcount, rfl⟩ := blockElements_plain t ht
  have hga := goodLine_of_clean a hane hat hac
  have hgb := goodLine_of_clean b hbne hbt hbc
  rw [cleanTextPreserveLines_eq, List.append_assoc, markBlocks_one_tag p hp a b ha hb, hcount,
    StripTags_one_tag p hp a _ ha (by simp [hb])]
  have e : a ++ (List.replicate 1 '\n' ++ b) = a ++ '\n' :: b := rfl
  rw [e, cleanLinesOf, Split_append_sep '\n' b a han, Split_of_not_mem '\n' b hbn]
  simp [hga.2, hgb.2, hane, hbne, joinParagraphs, Join]

/-- C11 at `Line 1<br>Line 2`. -/
theorem C11_recognised_tag_breaks_witness :
    cleanTextPreserveLines ("Line 1".toList ++ "<br>".toList ++ "Line 2".toList) =
      "Line 1".toList ++ ['\n', '\n'] ++ "Line 2".toList :=
  (C11_recognised_tag_breaks "<br>".toList "Line 1".toList "Line 2".toList (by decide)
    (by decide) (by decide) (by decide) (by decide) (by decide) (by decide) (by decide)
    (by decide) (by decide) (by decide)).1

/-- C14: a tag that is not a recognised one (and opens no `script`, `style`,
`textarea` or `title` element) is removed without a separator or line break:
for all texts `a` and `b` without `<` and without newline,
`cleanTextPreserveLines (a ++ t ++ b)` is `a ++ b` with white space collapsed
and trimmed; the two inline examples of the repository tests give
`Text with bold and italic` and `Hello world!`. -/
theorem C14_inline_tag_removed (p : PlainTag) (a b : GoString) (hp : p.ok = true)
    (hnot : p.render ∉ blockElements) (ha : '<' ∉ a) (hb : '<' ∉ b)
    (han : '\n' ∉ a) (hbn : '\n' ∉ b) :
    cleanTextPreserveLines (a ++ p.render ++ b) = TrimSpace (collapseSpaces (a ++ b)) ∧
    cleanTextPreserveLines "<p>Text with <strong>bold</strong> and <em>italic</em></p>".toList =
      "Text with bold and italic".toList ∧
    cleanTextPreserveLines "<div><p>Hello <strong>world</strong>!</p></div>".toList =
      "Hello world!".toList := by
  refine ⟨?_, by decide, by decide⟩
  have hcount : blockElements.count p.render = 0 := List.count_eq_zero_of_not_mem hnot
  have hn : '\n' ∉ a ++ b := by simp [han, hbn]
  rw [cleanTextPreserveLines_eq, List.append_assoc, markBlocks_one_tag p hp a b ha hb, hcount,
    StripTags_one_tag p hp a _ ha (by simp [hb])]
  have e : a ++ (List.replicate 0 '\n' ++ b) = a ++ b := rfl
  have e2 : TrimSpace (collapseSpaces (a ++ b)) = cleanLine (a ++ b) := rfl
  rw [e, e2, cleanLinesOf, Split_of_not_mem '\n' _ hn]
  by_cases hc : cleanLine (a ++ b) = []
  · simp [hc, joinParagraphs, Join]
  · simp [hc, joinParagraphs, Join]

/-- C14 at `Hello <strong>world`. -/
theorem C14_inline_tag_removed_witness :
    cleanTextPreserveLines
        ("Hello ".toList ++ PlainTag.render ⟨false, "strong".toList, [], []⟩ ++
          "world".toList) =
      TrimSpace (collapseSpaces ("Hello ".toList ++ "world".toList)) :=
  (C14_inline_tag_removed ⟨false, "strong".toList, [], []⟩ "Hello ".toList "world".toList
    (by decide) (by decide) (by decide) (by decide) (by decide) (by decide)).1

/-! ## The claims on `Extract` -/

theorem foldl_append_flatMap {α : Type} (f : α → GoString) :
    ∀ (l : List α) (acc : GoString), l.foldl (fun out s => out ++ f s) acc = acc ++ l.flatMap f
  | [], acc => by simp
  | x :: xs, acc => by
    rw [List.foldl_cons, foldl_append_flatMap f xs, List.flatMap_cons, List.append_assoc]

theorem flatMap_congr_of_mem {α : Type} (f g : α → GoString) :
    ∀ l : List α, (∀ s ∈ l, f s = g s) → l.flatMap f = l.flatMap g
  | [], _ => rfl
  | x :: xs, h => by
    rw [List.flatMap_cons, List.flatMap_cons, h x (List.mem_cons_self _ _),
      flatMap_congr_of_mem f g xs (fun s hs => h s (List.mem_cons_of_mem _ hs))]

theorem extractAsText_eq (w : World) (r : Renderer) (found : List Node) (config : Config) :
    extractAsText w r found config = (found.flatMap (writeMatch w r config), none) := by
  unfold extractAsText
  rw [foldl_append_flatMap]
  rfl

theorem writeMatch_text (w : World) (r : Renderer) (config : Config) (s : Node)
    (hk : config.KeepTags = false) :
    writeMatch w r config s =
      match r.OuterHtml s with
      | .error _ => []
      | .ok html =>
        if cleanTextPreserveLines html = [] then []
        else cleanTextPreserveLines html ++ ['\n'] := by
  unfold writeMatch
  cases r.OuterHtml s with
  | error e => rfl
  | ok html =>
    by_cases hc : cleanTextPreserveLines html = [] <;> simp [hk, hc]

/-- C15: in default text mode (`JSON` and `KeepTags` false) `Extract` returns no
error and writes, match after match in the order of the matches, the
normalised text of the markup of the match followed by one newline, and
nothing for a match whose normalised text is empty (nor for one that
`OuterHtml` cannot serialise); with no match nothing is written. -/
theorem C15_text_mode (w : World) (r : Renderer) (doc : Document) (config : Config)
    (markup : Node → GoString) (hj : config.JSON = false) (hk : config.KeepTags = false)
    (hm : ∀ s ∈ doc.Find config.Selector, r.OuterHtml s = .ok (markup s)) :
    Extract w r (.ok doc) config =
      ((doc.Find config.Selector).flatMap (fun s =>
        if cleanTextPreserveLines (markup s) = [] then []
        else cleanTextPreserveLines (markup s) ++ ['\n']), none) ∧
    (doc.Find config.Selector = [] → Extract w r (.ok doc) config = ([], none)) ∧
    extractAsText w r [] config = ([], none) := by
  have hE : Extract w r (.ok doc) config =
      ((doc.Find config.Selector).flatMap (writeMatch w r config), none) := by
    simp only [Extract, hj, Bool.false_eq_true, if_false, extractAsText_eq]
  refine ⟨?_, ?_, rfl⟩
  · rw [hE, flatMap_congr_of_mem (writeMatch w r config) (fun s =>
        if cleanTextPreserveLines (markup s) = [] then []
        else cleanTextPreserveLines (markup s) ++ ['\n']) _ (fun s hs => by
          rw [writeMatch_text w r config s hk, hm s hs])]
  · intro h0
    rw [hE, h0]
    rfl

/-- C15 on a document whose matches are a paragraph, an empty element and the
paragraph again: the paragraph text twice, nothing for the empty element. -/
theorem C15_text_mode_witness :
    Extract noColorWorld demoRenderer (.ok demoDocument) textConfig =
      ((demoDocument.Find textConfig.Selector).flatMap (fun s =>
        if cleanTextPreserveLines (demoMarkup s) = [] then []
        else cleanTextPreserveLines (demoMarkup s) ++ ['\n']), none) ∧
    Extract noColorWorld demoRenderer (.ok demoDocument) textConfig =
      ("First paragraph\nFirst paragraph\n".toList, none) :=
  ⟨(C15_text_mode noColorWorld demoRenderer demoDocument textConfig demoMarkup rfl rfl
    (fun _ _ => rfl)).1, by decide⟩

/-- C17: in JSON mode, when colouring is enabled and the highlighter returns an
error having written nothing, `Extract` returns no error and writes the bytes
it writes with colouring disabled: the encoded result. -/
theorem C17_highlight_failure (w : World) (r : Renderer) (doc : Document) (config : Config)
    (hj : config.JSON = true)
    (hcolor : (config.ColorOutput || (!config.MonochromeOutput && w.isTerminal)) = true)
    (hfail : w.format (encodeOutput (buildOutput config.Selector (doc.Find config.Selector)))
      "json".toList config = ([], true)) :
    Extract w r (.ok doc) config =
      (encodeOutput (buildOutput config.Selector (doc.Find config.Selector)), none) ∧
    Extract w r (.ok doc) config = Extract w r (.ok doc) config.withoutColor := by
  have h1 : Extract w r (.ok doc) config =
      (encodeOutput (buildOutput config.Selector (doc.Find config.Selector)), none) := by
    simp only [Extract, hj, if_true, extractAsJSON, hcolor, hfail, List.nil_append]
  have h2 : Extract w r (.ok doc) config.withoutColor =
      (encodeOutput (buildOutput config.Selector (doc.Find config.Selector)), none) := by
    simp [Extract, Config.withoutColor, hj, extractAsJSON]
  exact ⟨h1, h1.trans h2.symm⟩

/-- C17 on the document of the integration test with a highlighter that always
fails. -/
theorem C17_highlight_failure_witness :
    Extract failingWorld (constRenderer "") (.ok divTestDocument) (colorConfig false) =
      Extract failingWorld (constRenderer "") (.ok divTestDocument)
        (colorConfig false).withoutColor :=
  (C17_highlight_failure failingWorld (constRenderer "") divTestDocument (colorConfig false)
    rfl rfl rfl).2

theorem encodeOutput_head (o : JSONOutput) : (encodeOutput o).head? = some '{' := by
  simp [encodeOutput, bracketLines]

theorem encodeOutput_selector (o : JSONOutput) :
    ∃ rest, encodeOutput o = "\x7b\n  \"selector\": ".toList ++ quoteJSON o.Selector ++ rest := by
  refine ⟨",\n".toList ++ (indentOf 1 ++ member "results" (encodeResults 1 o.Results)) ++
    (",\n".toList ++ (indentOf 1 ++ member "count" (Nat.repr o.Count).toList)) ++
    ['\n'] ++ indentOf 0 ++ ['}'] ++ ['\n'], ?_⟩
  have hq : quoteJSON "selector".toList = "\"selector\"".toList := by decide
  simp only [encodeOutput, bracketLines, member, List.map_cons, List.map_nil, List.intercalate,
    List.intersperse, List.flatten, hq]
  simp [indentOf]

theorem Extract_json_keepTags (h : Highlighter) (isTerminal : Bool) (r : Renderer)
    (parsed : Except GoString Document) (selector : GoString) (monochrome color : Bool)
    (style : GoString) (formatter : Nat) :
    Extract (worldOf isTerminal h) r parsed
        ⟨selector, true, true, monochrome, color, style, formatter⟩ =
      Extract (worldOf isTerminal h) r parsed
        ⟨selector, false, true, monochrome, color, style, formatter⟩ := by
  cases parsed with
  | error e => rfl
  | ok doc => simp [Extract, extractAsJSON, worldOf, format]


/-! ## Reading the `selector` member back -/

theorem hexValue_hexDigit : ∀ k, k < 16 → hexValue (hexDigit k) = some k := by decide

theorem readChar_plain (c : Char) (tail : GoString) (h2 : (c.toNat == 0x5C) = false)
    (h3 : ¬ c.toNat < 0x20) : readChar (c :: tail) = some (c, tail) := by
  simp [readChar, h2, h3]

theorem readChar_simple (c e : Char) (tail : GoString) (he : (e == 'u') = false)
    (hs : simpleEscape e = some c) :
    readChar (Char.ofNat 0x5C :: e :: tail) = some (c, tail) := by
  have h2 : ((Char.ofNat 0x5C).toNat == 0x5C) = true := by decide
  simp [readChar, h2, he, hs]

theorem readChar_hex (n : Nat) (c : Char) (tail : GoString) (hn : n < 256)
    (hc : c.toNat = n) :
    readChar
        (Char.ofNat 0x5C :: 'u' :: '0' :: '0' :: hexDigit (n / 16) :: hexDigit (n % 16) :: tail) =
      some (c, tail) := by
  have h2 : ((Char.ofNat 0x5C).toNat == 0x5C) = true := by decide
  have h0 : hexValue '0' = some 0 := by decide
  have ha := hexValue_hexDigit (n / 16) (by omega)
  have hb := hexValue_hexDigit (n % 16) (by omega)
  have hv : n / 16 * 16 + n % 16 = n := by omega
  simp [readChar, h2, hexEscape, h0, ha, hb, hv, char_of_toNat c n hc]

theorem readChar_hex4 (a b c d : Char) (ch : Char) (tail : GoString)
    (h : hexEscape a b c d = some ch) :
    readChar (Char.ofNat 0x5C :: 'u' :: a :: b :: c :: d :: tail) = some (ch, tail) := by
  have h2 : ((Char.ofNat 0x5C).toNat == 0x5C) = true := by decide
  simp [readChar, h2, h]

/-- Reading one character back from its escaped form. -/
theorem readChar_escapeChar (c : Char) (tail : GoString) :
    readChar (escapeChar c ++ tail) = some (c, tail) := by
  unfold escapeChar
  simp only
  split
  · rename_i h
    rw [← char_of_toNat c _ (beq_iff_eq.1 h)]
    exact readChar_simple _ _ tail (by decide) (by decide)
  · rename_i h1
    split
    · rename_i h
      rw [← char_of_toNat c _ (beq_iff_eq.1 h)]
      exact readChar_simple _ _ tail (by decide) (by decide)
    · rename_i h2
      split
      · rename_i h
        rw [← char_of_toNat c _ (beq_iff_eq.1 h)]
        exact readChar_simple _ _ tail (by decide) (by decide)
      · split
        · rename_i h
          rw [← char_of_toNat c _ (beq_iff_eq.1 h)]
          exact readChar_simple _ _ tail (by decide) (by decide)
        · split
          · rename_i h
            rw [← char_of_toNat c _ (beq_iff_eq.1 h)]
            exact readChar_simple _ _ tail (by decide) (by decide)
          · split
            · rename_i h
              rw [← char_of_toNat c _ (beq_iff_eq.1 h)]
              exact readChar_simple _ _ tail (by decide) (by decide)
            · split
              · rename_i h
                rw [← char_of_toNat c _ (beq_iff_eq.1 h)]
                exact readChar_simple _ _ tail (by decide) (by decide)
              · split
                · rename_i h
                  have hn : c.toNat < 256 := by
                    simp only [Bool.or_eq_true, decide_eq_true_eq, beq_iff_eq] at h
                    omega
                  exact readChar_hex c.toNat c tail hn rfl
                · rename_i h8
                  have h20 : ¬ c.toNat < 0x20 := by
                    simp only [Bool.or_eq_true, decide_eq_true_eq, beq_iff_eq, not_or] at h8
                    exact h8.1.1.1
                  split
                  · rename_i h
                    rw [← char_of_toNat c _ (beq_iff_eq.1 h)]
                    exact readChar_hex4 '2' '0' '2' '8' _ tail (by decide)
                  · split
                    · rename_i h
                      rw [← char_of_toNat c _ (beq_iff_eq.1 h)]
                      exact readChar_hex4 '2' '0' '2' '9' _ tail (by decide)
                    · exact readChar_plain c tail (by simpa using h2) h20

theorem escapeChar_head_not_quote (c : Char) :
    ((escapeChar c).head?.map fun x => x.toNat == 0x22) = some false := by
  unfold escapeChar
  simp only
  split
  · decide
  · rename_i h1
    have hq : (c.toNat == 0x22) = false := by simpa using h1
    repeat' split
    all_goals first
      | decide
      | rfl
      | simp [hq]

theorem escapeChar_head (c : Char) (tail : GoString) :
    ∃ x r, escapeChar c ++ tail = x :: r ∧ (x.toNat == 0x22) = false := by
  have h := escapeChar_head_not_quote c
  cases he : escapeChar c with
  | nil => simp [he] at h
  | cons x r =>
    rw [he] at h
    exact ⟨x, r ++ tail, rfl, by simpa using h⟩

theorem readStringFuel_quote : ∀ (s rest : GoString) (fuel : Nat), s.length < fuel →
    readStringFuel fuel (s.flatMap escapeChar ++ Char.ofNat 0x22 :: rest) = some (s, rest)
  | [], rest, fuel, h => by
    obtain ⟨k, rfl⟩ : ∃ k, fuel = k + 1 := ⟨fuel - 1, by simp at h; omega⟩
    simp [readStringFuel]
  | c :: s, rest, fuel, h => by
    obtain ⟨k, rfl⟩ : ∃ k, fuel = k + 1 := ⟨fuel - 1, by simp at h; omega⟩
    have ih := readStringFuel_quote s rest k (by simp at h; omega)
    obtain ⟨x, r, hx, hq⟩ :=
      escapeChar_head c (s.flatMap escapeChar ++ Char.ofNat 0x22 :: rest)
    have hc := readChar_escapeChar c (s.flatMap escapeChar ++ Char.ofNat 0x22 :: rest)
    rw [List.flatMap_cons, List.append_assoc]
    rw [hx] at hc ⊢
    simp only [readStringFuel, hq, Bool.false_eq_true, if_false, hc, ih, Option.map_some']

theorem length_escapeChar_pos (c : Char) : 1 ≤ (escapeChar c).length := by
  obtain ⟨x, r, hx, -⟩ := escapeChar_head c []
  rw [List.append_nil] at hx
  rw [hx]
  simp

theorem length_le_flatMap_escapeChar : ∀ s : GoString,
    s.length ≤ (s.flatMap escapeChar).length
  | [] => by simp
  | c :: s => by
    have := length_le_flatMap_escapeChar s
    have := length_escapeChar_pos c
    simp only [List.flatMap_cons, List.length_append, List.length_cons]
    omega

/-- Reading back what the encoder writes for a string gives the string. -/
theorem readStringBody_quote (s rest : GoString) :
    readStringBody (s.flatMap escapeChar ++ Char.ofNat 0x22 :: rest) = some (s, rest) := by
  unfold readStringBody
  apply readStringFuel_quote
  have := length_le_flatMap_escapeChar s
  simp only [List.length_append, List.length_cons]
  omega

theorem readString_quoteJSON (s rest : GoString) (lead : GoString)
    (hl : ∀ x ∈ lead, isJSONSpace x = true) :
    readString (lead ++ (quoteJSON s ++ rest)) = some (s, rest) := by
  unfold readString quoteJSON
  rw [List.dropWhile_append_of_pos hl]
  simp only [List.cons_append, List.append_assoc, List.singleton_append]
  rw [List.dropWhile_cons, if_neg (by decide)]
  simp only [show ((Char.ofNat 0x22).toNat == 0x22) = true from by decide, if_true]
  exact readStringBody_quote s rest

/-- The encoded output starts with the member `selector`, and reading its value
back gives the selector of the value encoded. -/
theorem readFirstMember_encodeOutput (o : JSONOutput) :
    readFirstMember (encodeOutput o) = some ("selector".toList, o.Selector) := by
  obtain ⟨rest, hr⟩ := encodeOutput_selector o
  have hq : "\x7b\n  \"selector\": ".toList =
      '{' :: (['\n', ' ', ' '] ++ (quoteJSON "selector".toList ++ [':', ' '])) := by decide
  rw [hr, hq]
  have h1 : expectChar '{' ('{' :: (['\n', ' ', ' '] ++
      (quoteJSON "selector".toList ++ [':', ' '])) ++ quoteJSON o.Selector ++ rest) =
      some (['\n', ' ', ' '] ++ (quoteJSON "selector".toList ++
        (':' :: ([' '] ++ (quoteJSON o.Selector ++ rest))))) := by
    simp [expectChar, List.dropWhile_cons, show isJSONSpace '{' = false from by decide]
  have h2 := readString_quoteJSON "selector".toList
    (':' :: ([' '] ++ (quoteJSON o.Selector ++ rest))) ['\n', ' ', ' '] (by decide)
  have h3 : expectChar ':' (':' :: ([' '] ++ (quoteJSON o.Selector ++ rest))) =
      some ([' '] ++ (quoteJSON o.Selector ++ rest)) := by
    simp [expectChar, List.dropWhile_cons, show isJSONSpace ':' = false from by decide]
  have h4 := readString_quoteJSON o.Selector rest [' '] (by decide)
  simp only [readFirstMember, h1, Option.some_bind, h2, h3, h4, Option.map_some']
/-- C18, as stated, fails in its description of the output: with colouring on,
what is written is the highlighter's rendering of the JSON text; with a
highlighter that puts a colour escape sequence in front, the output starts with
the escape character and is not the encoding of any extraction result.  (It is
the same for both values of `KeepTags`.) -/
theorem C18_counterexample :
    Extract (worldOf true ansiHighlighter) (constRenderer "") (.ok divTestDocument)
        (colorConfig true) =
      Extract (worldOf true ansiHighlighter) (constRenderer "") (.ok divTestDocument)
        (colorConfig false) ∧
    (Extract (worldOf true ansiHighlighter) (constRenderer "") (.ok divTestDocument)
        (colorConfig true)).1.head? = some (Char.ofNat 0x1B) ∧
    ¬ IsResultJSON "div.test".toList
      (Extract (worldOf true ansiHighlighter) (constRenderer "") (.ok divTestDocument)
        (colorConfig true)).1 := by
  have hh : (Extract (worldOf true ansiHighlighter) (constRenderer "") (.ok divTestDocument)
        (colorConfig true)).1.head? = some (Char.ofNat 0x1B) := by
    simp [Extract, extractAsJSON, worldOf, format, ansiHighlighter, colorConfig]
  refine ⟨Extract_json_keepTags _ _ _ _ _ _ _ _ _, hh, ?_⟩
  rintro ⟨results, hr⟩
  rw [hr, encodeOutput_head] at hh
  exact absurd hh (by decide)

/-- C18, amended: in JSON mode `Extract` writes the same bytes and returns the
same error whether `KeepTags` is true or false, for every document, selector and
colour setting; without colouring these bytes are the encoding of the
extraction result for the given selector, which starts with the `selector`
member, and reading that member back gives the given selector; with colouring
they are what the highlighter writes for that encoding, followed by the
encoding itself when the highlighter fails. -/
theorem C18_keepTags_no_effect (h : Highlighter) (isTerminal : Bool) (r : Renderer)
    (parsed : Except GoString Document) (doc : Document) (selector : GoString)
    (keepTags monochrome color : Bool) (style : GoString) (formatter : Nat) :
    Extract (worldOf isTerminal h) r parsed
        ⟨selector, true, true, monochrome, color, style, formatter⟩ =
      Extract (worldOf isTerminal h) r parsed
        ⟨selector, false, true, monochrome, color, style, formatter⟩ ∧
    ((color || (!monochrome && isTerminal)) = false →
      Extract (worldOf isTerminal h) r (.ok doc)
          ⟨selector, keepTags, true, monochrome, color, style, formatter⟩ =
        (encodeOutput (buildOutput selector (doc.Find selector)), none) ∧
      IsResultJSON selector
        (Extract (worldOf isTerminal h) r (.ok doc)
          ⟨selector, keepTags, true, monochrome, color, style, formatter⟩).1 ∧
      readFirstMember (Extract (worldOf isTerminal h) r (.ok doc)
          ⟨selector, keepTags, true, monochrome, color, style, formatter⟩).1 =
        some ("selector".toList, selector) ∧
      ∃ rest, (Extract (worldOf isTerminal h) r (.ok doc)
          ⟨selector, keepTags, true, monochrome, color, style, formatter⟩).1 =
        "\x7b\n  \"selector\": ".toList ++ quoteJSON selector ++ rest) ∧
    ((color || (!monochrome && isTerminal)) = true →
      Extract (worldOf isTerminal h) r (.ok doc)
          ⟨selector, keepTags, true, monochrome, color, style, formatter⟩ =
        ((h.highlight (encodeOutput (buildOutput selector (doc.Find selector))) "json".toList
            style formatter).1 ++
          (if (h.highlight (encodeOutput (buildOutput selector (doc.Find selector)))
              "json".toList style formatter).2
            then encodeOutput (buildOutput selector (doc.Find selector)) else []), none)) := by
  refine ⟨Extract_json_keepTags _ _ _ _ _ _ _ _ _, fun hc => ?_, fun hcol => ?_⟩
  swap
  · simp only [Extract, if_true, extractAsJSON, worldOf, format, hcol]
    split <;> simp
  have he : Extract (worldOf isTerminal h) r (.ok doc)
      ⟨selector, keepTags, true, monochrome, color, style, formatter⟩ =
      (encodeOutput (buildOutput selector (doc.Find selector)), none) := by
    simp only [Extract, if_true, extractAsJSON, worldOf, hc, Bool.false_eq_true, if_false]
  refine ⟨he, ?_, ?_, ?_⟩
  · rw [he]
    exact ⟨collectResults (doc.Find selector), rfl⟩
  · rw [he]
    exact readFirstMember_encodeOutput (buildOutput selector (doc.Find selector))
  · rw [he]
    exact encodeOutput_selector (buildOutput selector (doc.Find selector))

/-- C18, amended, on the document of the integration test, colouring off. -/
theorem C18_keepTags_no_effect_witness :
    Extract (worldOf false ansiHighlighter) (constRenderer "") (.ok divTestDocument)
        ⟨"div.test".toList, true, true, false, false, [], 0⟩ =
      (encodeOutput (buildOutput "div.test".toList (divTestDocument.Find "div.test".toList)),
        none) :=
  ((C18_keepTags_no_effect ansiHighlighter false (constRenderer "") (.ok divTestDocument)
    divTestDocument "div.test".toList true false false [] 0).2.1 rfl).1

/-! ## The calls of `selectionToJSONElement` -/

mutual
theorem visitedByChildren_wellFormed : ∀ n : Node, wellFormed n = true →
    visitedByChildren n.children = elementsOfList n.children
  | .mk t d a cs, h => by
    simp only [wellFormed, Bool.and_eq_true] at h
    simp only [Node.children]
    exact visitedByChildren_list cs h.2
theorem visitedByChildren_list : ∀ cs : List Node, wellFormedList cs = true →
    visitedByChildren cs = elementsOfList cs
  | [], _ => rfl
  | c :: cs, h => by
    simp only [wellFormedList, Bool.and_eq_true] at h
    have ih := visitedByChildren_list cs h.2
    have ihc := visitedByChildren_wellFormed c h.1
    cases c with
    | mk t d a ds =>
      simp only [Node.children] at ihc
      by_cases ht : t = NodeType.ElementNode
      · subst ht
        simp only [visitedByChildren, Node.isElement, Node.type, beq_self_eq_true, if_true,
          visitedBy, elementsOfList, elementsOf, ih, ihc, List.singleton_append]
      · have hds : ds = [] := by
          have := h.1
          simp only [wellFormed, Bool.and_eq_true, Bool.or_eq_true, beq_iff_eq,
            List.isEmpty_iff] at this
          rcases this.1 with e | e
          · exact absurd e ht
          · exact e
        subst hds
        have hel : (Node.mk t d a []).isElement = false := by
          simp [Node.isElement, Node.type, ht]
        simp only [visitedByChildren, hel, Bool.false_eq_true, if_false, ih, elementsOfList,
          elementsOf, ht, List.nil_append]
end

theorem visitedBy_wellFormed (n : Node) (hw : wellFormed n = true) (hel : n.isElement = true) :
    visitedBy n = elementsOf n := by
  have h := visitedByChildren_wellFormed n hw
  cases n with
  | mk t d a cs =>
    have ht : t = NodeType.ElementNode := by simpa [Node.isElement, Node.type] using hel
    simp only [Node.children] at h
    simp [visitedBy, elementsOf, ht, h]

mutual
theorem recordsOf_selection : ∀ n : Node,
    recordsOf (selectionToJSONElement n) = (visitedBy n).map selectionToJSONElement
  | .mk t d a cs => by
    simp only [selectionToJSONElement, recordsOf, visitedBy, List.map_cons,
      recordsOfList_children cs]
theorem recordsOfList_children : ∀ cs : List Node,
    recordsOfList (childrenToJSON cs) = (visitedByChildren cs).map selectionToJSONElement
  | [] => rfl
  | c :: cs => by
    by_cases h : c.isElement = true
    · simp only [childrenToJSON, h, if_true, recordsOfList, visitedByChildren, List.map_append,
        recordsOf_selection c, recordsOfList_children cs]
    · simp only [childrenToJSON, h, Bool.false_eq_true, if_false, visitedByChildren,
        recordsOfList_children cs]
end

mutual
theorem length_visitedBy : ∀ n : Node, (visitedBy n).length = elementCount n
  | .mk t d a cs => by
    simp only [visitedBy, List.length_cons, elementCount, length_visitedByChildren cs]
    omega
theorem length_visitedByChildren : ∀ cs : List Node,
    (visitedByChildren cs).length = elementsCount cs
  | [] => rfl
  | c :: cs => by
    by_cases h : c.isElement = true
    · simp only [visitedByChildren, h, if_true, List.length_append, elementsCount,
        length_visitedBy c, length_visitedByChildren cs]
    · simp only [visitedByChildren, h, Bool.false_eq_true, if_false, elementsCount,
        length_visitedByChildren cs]
end

/-- C16: `selectionToJSONElement` is defined by recursion on the finite tree, so
it returns a record for every node (with the node's name as tag); the records
of the result are, in order, the records of the nodes it is called on; and on
an element of a parsed document (only elements have children) these nodes are
the element nodes of the subtree in document order, each exactly once. -/
theorem C16_total_single_pass (n : Node) :
    (∃ r : JSONElement, selectionToJSONElement n = r ∧ r.Tag = NodeName n) ∧
    recordsOf (selectionToJSONElement n) = (visitedBy n).map selectionToJSONElement ∧
    (visitedBy n).length = elementCount n ∧
    (wellFormed n = true → n.isElement = true →
      visitedBy n = elementsOf n ∧ (visitedBy n).length = countElements n) := by
  refine ⟨⟨_, rfl, ?_⟩, recordsOf_selection n, length_visitedBy n, fun hw hel => ?_⟩
  · cases n; rfl
  · refine ⟨visitedBy_wellFormed n hw hel, ?_⟩
    rw [length_visitedBy, ← recordCount_selection, recordCount_wellFormed n hw hel]

/-- C16 at the link paragraph of the repository test: the paragraph, then the
link. -/
theorem C16_total_single_pass_witness :
    visitedBy pWithLink = elementsOf pWithLink ∧
    (visitedBy pWithLink).length = countElements pWithLink ∧
    (visitedBy pWithLink).map Node.data = ["p".toList, "a".toList] :=
  ⟨((C16_total_single_pass pWithLink).2.2.2 (by decide) (by decide)).1,
   ((C16_total_single_pass pWithLink).2.2.2 (by decide) (by decide)).2, by decide⟩

end Hq
